import Mathlib

/-!
# Verification of the paperboymq dispatch core

This file gives a shallow embedding, in Lean 4, of the core of the
paperboymq message-broker building blocks (package `amq`, `matcher`,
`queue`), and proves or refutes the specified properties of:

* the round-robin consumer ring (`amq/round_robin.go`),
* the exchange binding/fan-out protocol (`amq` exchange code),
* the two-loop message queue shutdown protocol (`amq/message_queue.go`),
* the priority-ordered store (`queue/pq_handler.go`, `container/heap`),
* the matcher strategies, including the topic wildcard translation
  (`matcher/matchers.go`).

Strings are modelled as lists of character codes (`List Nat`); Go maps
whose keys are identities are modelled as duplicate-free lists used as
sets; the cyclic doubly-linked consumer ring is modelled as the list of
consumers in forward (`next`) order starting at the current position.
-/

namespace PaperBoy

/-- Character codes of a string literal; Go strings are byte sequences and
all keys in this development are ASCII. -/
def chars (s : String) : List Nat :=
  s.toList.map Char.toNat

/-- Message value (`amq.Message` interface): headers, routing key,
priority, timestamp and body.  Priorities (`uint8`) and timestamps
(`time.Time`) are modelled as naturals; only `=`, `>` on priorities and
`Before` on timestamps are used by the code under verification. -/
structure Msg where
  headers : List (List Nat × List Nat)
  routingKey : List Nat
  priority : Nat
  timestamp : Nat
  body : List Nat
  deriving DecidableEq, Repr

/-! ## Round-robin ring (`amq/round_robin.go`)

`consumersRing` is a circular doubly-linked list with a current
position.  We model a non-nil ring as the non-empty list of consumers in
`next` order beginning at the node the `ring` pointer designates; the nil
ring is `[]`. -/

variable {γ : Type} [DecidableEq γ]

/-- Embedding of `consumersRing.add`: a nil receiver returns a fresh
self-linked node; otherwise the new node is spliced in immediately before
the current position (becoming the last of the current lap) and the
current position is returned unchanged. -/
def ringAdd (l : List γ) (c : γ) : List γ :=
  match l with
  | [] => [c]
  | x :: xs => x :: xs ++ [c]

/-- Embedding of `consumersRing.remove`: walk forward from the current
node until the successor holds `c`, splice that successor out, and
advance the returned position if the removed node was the current one.
Splicing a single self-linked node is a no-op on the pointers, so
removing the last consumer leaves the stale node in the ring.  When `c`
is absent the Go loop never terminates; the (guarded) callers never reach
that case and the model returns the ring unchanged there. -/
def ringRemove (l : List γ) (c : γ) : List γ :=
  match l with
  | [] => []
  | x :: xs =>
    if c ∈ xs then
      if x = c then xs.erase c ++ [x] else x :: xs.erase c
    else if x = c then
      if xs = [] then [x] else xs
    else x :: xs

/-- Error values of the round-robin handler (`ErrConsumerAlreadySubscribed`,
`ErrConsumerNotFound`). -/
inductive RRErr
  | consumerAlreadySubscribed
  | consumerNotFound
  deriving DecidableEq, Repr

/-- State of `consumerRoundRobin`: the ring and the identity map
(`map[MessageConsumer]struct{}`, modelled as a duplicate-free list). -/
structure ConsumerRR (γ : Type) where
  ring : List γ
  consumers : List γ
  deriving DecidableEq, Repr

/-- Embedding of `newRoundRobinHandler`. -/
def rrEmpty : ConsumerRR γ := ⟨[], []⟩

/-- Embedding of `consumerRoundRobin.Len`: the size of the identity map. -/
def rrLen (s : ConsumerRR γ) : Nat := s.consumers.length

/-- Embedding of `consumerRoundRobin.Add`: reject identities already in
the map, otherwise add to both ring and map. -/
def rrAdd (s : ConsumerRR γ) (c : γ) : Option RRErr × ConsumerRR γ :=
  if c ∈ s.consumers then (some .consumerAlreadySubscribed, s)
  else (none, ⟨ringAdd s.ring c, c :: s.consumers⟩)

/-- Embedding of `consumerRoundRobin.Remove`: reject identities missing
from the map, otherwise remove from both ring and map. -/
def rrRemove (s : ConsumerRR γ) (c : γ) : Option RRErr × ConsumerRR γ :=
  if c ∈ s.consumers then (none, ⟨ringRemove s.ring c, s.consumers.erase c⟩)
  else (some .consumerNotFound, s)

/-- Embedding of `consumerRoundRobin.Next`: return the consumer at the
current position and advance; on a nil ring the Go code dereferences a
nil pointer (panics), modelled as `none`. -/
def rrNext (s : ConsumerRR γ) : Option (γ × ConsumerRR γ) :=
  match s with
  | ⟨x :: xs, cs⟩ => some (x, ⟨xs ++ [x], cs⟩)
  | ⟨[], _⟩ => none

/-- Membership operations on the handler, for stating trace properties. -/
inductive RROp (γ : Type)
  | add (c : γ)
  | remove (c : γ)
  deriving DecidableEq, Repr

/-- Apply one membership operation (discarding the error result, as the
tests and the dispatch loop do when chaining operations). -/
def rrApply (s : ConsumerRR γ) : RROp γ → ConsumerRR γ
  | .add c => (rrAdd s c).2
  | .remove c => (rrRemove s c).2

/-- Run a sequence of membership operations from the empty handler. -/
def rrRun (ops : List (RROp γ)) : ConsumerRR γ :=
  ops.foldl rrApply rrEmpty

/-- Consumers produced by `k` successive `Next` calls. -/
def serveSteps (s : ConsumerRR γ) : Nat → List γ
  | 0 => []
  | k + 1 =>
    match rrNext s with
    | some (c, s') => c :: serveSteps s' k
    | none => []

/-! ## Exchange (`amq` exchange code) -/

/-- Binding value: a binding key paired with its target consumer.
Bindings compare by identity (two structurally equal binding objects are
distinct map entries), captured by the extra `tag` field.  Consumers are
identities, modelled as naturals. -/
structure BindingV where
  key : List Nat
  consumer : Nat
  tag : Nat
  deriving DecidableEq, Repr

/-- Exchange error values (`ErrAlreadyBound`, `ErrBindingNotFound`). -/
inductive ExErr
  | alreadyBound
  | bindingNotFound
  deriving DecidableEq, Repr

/-- Exchange state: the binding table `map[Binding]MessageConsumer`.  The
stored value is always `binding.Consumer()`, so the table is modelled as
the duplicate-free list of its keys. -/
structure ExchangeSt where
  bindings : List BindingV
  deriving DecidableEq, Repr

/-- Embedding of `Exchange.BindTo`. -/
def bindTo (s : ExchangeSt) (b : BindingV) : Option ExErr × ExchangeSt :=
  if b ∈ s.bindings then (some .alreadyBound, s)
  else (none, ⟨b :: s.bindings⟩)

/-- Embedding of `Exchange.UnbindFrom`. -/
def unbindFrom (s : ExchangeSt) (b : BindingV) : Option ExErr × ExchangeSt :=
  if b ∈ s.bindings then (none, ⟨s.bindings.erase b⟩)
  else (some .bindingNotFound, s)

/-- Embedding of the loop body of `Exchange.Consume`: iterate over the
binding table in enumeration order `bs` (Go map iteration order is
unspecified); skip bindings whose resolved consumer was already sent to,
otherwise deliver when the matcher accepts.  Returns the list of
consumers delivered to, in delivery order (the `sent` set, which grows in
delivery order). -/
def exConsumeGo (mtc : Msg → BindingV → Bool) (msg : Msg) :
    List BindingV → List Nat → List Nat
  | [], sent => sent
  | b :: bs, sent =>
    if b.consumer ∈ sent then exConsumeGo mtc msg bs sent
    else if mtc msg b then exConsumeGo mtc msg bs (sent ++ [b.consumer])
    else exConsumeGo mtc msg bs sent

/-- Embedding of `Exchange.Consume`, starting from the empty `sent` set. -/
def exConsume (mtc : Msg → BindingV → Bool) (msg : Msg) (s : ExchangeSt) :
    List Nat :=
  exConsumeGo mtc msg s.bindings []

/-! ## Claim C4: ring membership invariant (refuted: stale node bug) -/

/-- C4 (code bug witness): after the successful operations
`Add 0, Remove 0, Add 1`, the identity map holds exactly `{1}`, yet the
ring still reaches the removed consumer `0` (splicing the sole node of a
singleton ring is a pointer no-op), and the next `Next()` call returns
the removed consumer `0` rather than the subscribed consumer `1`.  This
refutes the claimed invariant that ring contents equal added-minus-removed
and that `Next` never returns a removed consumer. -/
theorem ring_remove_last_leaves_stale_node :
    (rrRun [RROp.add 0, RROp.remove 0, RROp.add 1]).consumers = [1] ∧
    (rrRun [RROp.add 0, RROp.remove 0, RROp.add 1]).ring = [0, 1] ∧
    (rrNext (rrRun [RROp.add 0, RROp.remove 0, RROp.add 1])).map Prod.fst =
      some 0 := by
  decide

/-! ## Claim C8: error taxonomy, raises-iff with state unchanged -/

/-- C8: each of the four membership/binding operations fails with its
named error exactly when the claimed condition holds, succeeds otherwise,
and leaves the component state (ring and position, identity map, binding
table) unchanged in every error case. -/
theorem error_taxonomy_raises_iff :
    ∀ (s : ConsumerRR γ) (c : γ) (e : ExchangeSt) (b : BindingV),
      ((rrAdd s c).1 = some RRErr.consumerAlreadySubscribed ↔ c ∈ s.consumers) ∧
      ((rrAdd s c).1 = none ↔ c ∉ s.consumers) ∧
      (c ∈ s.consumers → (rrAdd s c).2 = s) ∧
      ((rrRemove s c).1 = some RRErr.consumerNotFound ↔ c ∉ s.consumers) ∧
      ((rrRemove s c).1 = none ↔ c ∈ s.consumers) ∧
      (c ∉ s.consumers → (rrRemove s c).2 = s) ∧
      ((bindTo e b).1 = some ExErr.alreadyBound ↔ b ∈ e.bindings) ∧
      ((bindTo e b).1 = none ↔ b ∉ e.bindings) ∧
      (b ∈ e.bindings → (bindTo e b).2 = e) ∧
      ((unbindFrom e b).1 = some ExErr.bindingNotFound ↔ b ∉ e.bindings) ∧
      ((unbindFrom e b).1 = none ↔ b ∈ e.bindings) ∧
      (b ∉ e.bindings → (unbindFrom e b).2 = e) := by
  intro s c e b
  refine ⟨?_, ?_, ?_, ?_, ?_, ?_, ?_, ?_, ?_, ?_, ?_, ?_⟩ <;>
    simp only [rrAdd, rrRemove, bindTo, unbindFrom] <;>
    by_cases hc : c ∈ s.consumers <;> by_cases hb : b ∈ e.bindings <;>
    simp [hc, hb]

/-! ## Claim C2: exchange delivery iff a binding mtc, exactly once -/

/-- Generalised induction lemma for `exConsumeGo`: characterises
membership in the result and preservation of duplicate-freedom. -/
theorem exConsumeGo_spec (mtc : Msg → BindingV → Bool) (msg : Msg) :
    ∀ (bs : List BindingV) (sent : List Nat), sent.Nodup →
      (exConsumeGo mtc msg bs sent).Nodup ∧
      ∀ c, c ∈ exConsumeGo mtc msg bs sent ↔
        c ∈ sent ∨ ∃ b ∈ bs, mtc msg b = true ∧ b.consumer = c := by
  intro bs
  induction bs with
  | nil => intro sent hs; simpa [exConsumeGo] using hs
  | cons b bs ih =>
    intro sent hs
    by_cases hmem : b.consumer ∈ sent
    · obtain ⟨hnd, hiff⟩ := ih sent hs
      refine ⟨by simpa [exConsumeGo, hmem] using hnd, ?_⟩
      intro c
      rw [exConsumeGo]
      simp only [if_pos hmem, hiff c]
      constructor
      · rintro (h | ⟨b', hb', hm, hc⟩)
        · exact Or.inl h
        · exact Or.inr ⟨b', List.mem_cons_of_mem _ hb', hm, hc⟩
      · rintro (h | ⟨b', hb', hm, hc⟩)
        · exact Or.inl h
        · rcases List.mem_cons.mp hb' with rfl | hb'
          · exact Or.inl (hc ▸ hmem)
          · exact Or.inr ⟨b', hb', hm, hc⟩
    · by_cases hm : mtc msg b = true
      · have hs' : (sent ++ [b.consumer]).Nodup := by
          simp [List.nodup_append, hs, hmem]
        obtain ⟨hnd, hiff⟩ := ih (sent ++ [b.consumer]) hs'
        refine ⟨by simpa [exConsumeGo, hmem, hm] using hnd, ?_⟩
        intro c
        rw [exConsumeGo]
        simp only [if_neg hmem, if_pos hm, hiff c]
        simp only [List.mem_append, List.mem_singleton]
        constructor
        · rintro ((h | rfl) | ⟨b', hb', hmm, hc⟩)
          · exact Or.inl h
          · exact Or.inr ⟨b, List.mem_cons_self _ _, hm, rfl⟩
          · exact Or.inr ⟨b', List.mem_cons_of_mem _ hb', hmm, hc⟩
        · rintro (h | ⟨b', hb', hmm, hc⟩)
          · exact Or.inl (Or.inl h)
          · rcases List.mem_cons.mp hb' with rfl | hb'
            · exact Or.inl (Or.inr hc.symm)
            · exact Or.inr ⟨b', hb', hmm, hc⟩
      · obtain ⟨hnd, hiff⟩ := ih sent hs
        refine ⟨by simpa [exConsumeGo, hmem, hm] using hnd, ?_⟩
        intro c
        rw [exConsumeGo]
        simp only [if_neg hmem, if_neg hm, hiff c]
        constructor
        · rintro (h | ⟨b', hb', hmm, hc⟩)
          · exact Or.inl h
          · exact Or.inr ⟨b', List.mem_cons_of_mem _ hb', hmm, hc⟩
        · rintro (h | ⟨b', hb', hmm, hc⟩)
          · exact Or.inl h
          · rcases List.mem_cons.mp hb' with rfl | hb'
            · exact absurd hmm hm
            · exact Or.inr ⟨b', hb', hmm, hc⟩

/-- C2: `Exchange.Consume(msg)` delivers to a consumer identity `c` if and
only if some registered binding resolving to `c` mtc `msg`, and it
delivers to each such identity exactly once per call, even when several
matching bindings resolve to the same consumer. -/
theorem exchange_consume_iff_once
    (mtc : Msg → BindingV → Bool) (msg : Msg) (e : ExchangeSt) :
    (∀ c, c ∈ exConsume mtc msg e ↔
        ∃ b ∈ e.bindings, mtc msg b = true ∧ b.consumer = c) ∧
    ∀ c, (∃ b ∈ e.bindings, mtc msg b = true ∧ b.consumer = c) →
      (exConsume mtc msg e).count c = 1 := by
  obtain ⟨hnd, hiff⟩ := exConsumeGo_spec mtc msg e.bindings [] (by simp)
  constructor
  · intro c
    simpa [exConsume] using hiff c
  · intro c hc
    have hmem : c ∈ exConsume mtc msg e := by
      simpa [exConsume] using (hiff c).mpr (Or.inr hc)
    exact List.count_eq_one_of_mem hnd hmem

/-! ## Claim C3: rotation order and fairness of the ring -/

/-- `consumersRing.add` always appends at the end of the forward order
from the current position (the nil case produces the same list). -/
theorem ringAdd_eq_append (l : List γ) (c : γ) : ringAdd l c = l ++ [c] := by
  cases l <;> simp [ringAdd]

/-- Adding a duplicate-free batch of fresh consumers appends them to the
ring in order and prepends them (reversed) to the identity map. -/
theorem foldl_adds (cs : List γ) :
    ∀ s : ConsumerRR γ, (∀ c ∈ cs, c ∉ s.consumers) → cs.Nodup →
      ((cs.map RROp.add).foldl rrApply s).ring = s.ring ++ cs ∧
      ((cs.map RROp.add).foldl rrApply s).consumers = cs.reverse ++ s.consumers := by
  induction cs with
  | nil => intro s _ _; simp
  | cons c cs ih =>
    intro s hfresh hnd
    have hc : c ∉ s.consumers := hfresh c (List.mem_cons_self _ _)
    have hstep : rrApply s (RROp.add c) = ⟨s.ring ++ [c], c :: s.consumers⟩ := by
      simp [rrApply, rrAdd, hc, ringAdd_eq_append]
    have hfresh' : ∀ d ∈ cs, d ∉ (c :: s.consumers) := by
      intro d hd
      simp only [List.mem_cons, not_or]
      exact ⟨fun hdc => (List.nodup_cons.mp hnd).1 (hdc ▸ hd),
        hfresh d (List.mem_cons_of_mem _ hd)⟩
    obtain ⟨h1, h2⟩ := ih ⟨s.ring ++ [c], c :: s.consumers⟩ hfresh'
      (List.nodup_cons.mp hnd).2
    constructor
    · simpa [hstep] using h1
    · simpa [hstep] using h2

/-- After adding `cs` (fresh, duplicate-free) to the empty handler, the
ring is exactly `cs` in insertion order. -/
theorem rrRun_adds_ring (cs : List γ) (hnd : cs.Nodup) :
    (rrRun (cs.map RROp.add)).ring = cs := by
  have := (foldl_adds cs rrEmpty (by simp [rrEmpty]) hnd).1
  simpa [rrRun, rrEmpty] using this

/-- The served stream ignores the identity map and only rotates the ring. -/
theorem serveSteps_cons (x : γ) (xs cs : List γ) (k : Nat) :
    serveSteps ⟨x :: xs, cs⟩ (k + 1) = x :: serveSteps ⟨xs ++ [x], cs⟩ k := by
  simp [serveSteps, rrNext]

/-- Length of the served stream over a non-empty ring. -/
theorem serveSteps_length (k : Nat) :
    ∀ (l cs : List γ), l ≠ [] → (serveSteps ⟨l, cs⟩ k).length = k := by
  induction k with
  | zero => intro l cs _; rfl
  | succ k ih =>
    intro l cs hne
    match l with
    | x :: xs =>
      rw [serveSteps_cons]
      simp [ih (xs ++ [x]) cs (by simp)]

/-- Index lemma for one rotation step. -/
theorem rotate_get? (x : γ) (xs : List γ) (i : Nat) :
    (xs ++ [x]).get? (i % (xs.length + 1)) =
      (x :: xs).get? ((i + 1) % (xs.length + 1)) := by
  set N := xs.length + 1 with hN
  have hj : i % N < N := Nat.mod_lt _ (by omega)
  rcases Nat.lt_or_ge (i % N) (N - 1) with hlt | hge
  · have h1 : (i + 1) % N = i % N + 1 := by
      have e1 : 1 % N = 1 := Nat.mod_eq_of_lt (by omega)
      rw [Nat.add_mod, e1]
      exact Nat.mod_eq_of_lt (by omega)
    rw [h1]
    have hx : i % N < xs.length := by omega
    rw [List.get?_append hx]
    rfl
  · have hj2 : i % N = N - 1 := by omega
    have h1 : (i + 1) % N = 0 := by
      rw [Nat.add_mod, hj2]
      rcases Nat.eq_or_lt_of_le (show 1 ≤ N by omega) with h | h
      · simp [← h]
      · have e1 : 1 % N = 1 := Nat.mod_eq_of_lt h
        rw [e1]
        have e2 : N - 1 + 1 = N := by omega
        rw [e2, Nat.mod_self]
    rw [h1, hj2]
    have hle : xs.length ≤ N - 1 := by omega
    rw [List.get?_append_right hle]
    simp [hN]

/-- C3 index characterisation: the `i`-th `Next` result over ring `l` is
`l[(i mod N)]`. -/
theorem serveSteps_get? (k : Nat) :
    ∀ (l cs : List γ), l ≠ [] → ∀ i, i < k →
      (serveSteps ⟨l, cs⟩ k).get? i = l.get? (i % l.length) := by
  induction k with
  | zero => intro l cs _ i hi; omega
  | succ k ih =>
    intro l cs hne i hi
    match l with
    | x :: xs =>
      rw [serveSteps_cons]
      match i with
      | 0 => simp
      | i + 1 =>
        have hlen : (xs ++ [x]).length = xs.length + 1 := by simp
        have := ih (xs ++ [x]) cs (by simp) i (by omega)
        rw [List.get?_cons_succ, this, hlen, rotate_get?]
        rfl

/-- Snoc characterisation of the served stream. -/
theorem serveSteps_snoc (k : Nat) (l cs : List γ) (hne : l ≠ [])
    (h : k % l.length < l.length) :
    serveSteps ⟨l, cs⟩ (k + 1) =
      serveSteps ⟨l, cs⟩ k ++ [l.get ⟨k % l.length, h⟩] := by
  apply List.ext_get?
  intro i
  rcases Nat.lt_trichotomy i k with hik | rfl | hik
  · rw [serveSteps_get? (k + 1) l cs hne i (by omega),
      List.get?_append (by rw [serveSteps_length k l cs hne]; omega),
      serveSteps_get? k l cs hne i hik]
  · rw [serveSteps_get? (i + 1) l cs hne i (by omega),
      List.get?_append_right (by rw [serveSteps_length i l cs hne])]
    simp [serveSteps_length i l cs hne, List.get?_eq_get h]
  · have h1 : (serveSteps ⟨l, cs⟩ (k + 1)).length = k + 1 :=
      serveSteps_length (k + 1) l cs hne
    have h2 : (serveSteps ⟨l, cs⟩ k ++ [l.get ⟨k % l.length, h⟩]).length = k + 1 := by
      simp [serveSteps_length k l cs hne]
    rw [List.get?_eq_none.mpr (by omega), List.get?_eq_none.mpr (by omega)]

/-- Arithmetic step for the fairness count. -/
theorem fair_count_step (N idx k : Nat) (hN : 0 < N) (hidx : idx < N) :
    (k + 1) / N + (if idx < (k + 1) % N then 1 else 0) =
      k / N + (if idx < k % N then 1 else 0) +
        (if k % N = idx then 1 else 0) := by
  obtain ⟨q, r, hr, hk⟩ : ∃ q r, r < N ∧ k = N * q + r :=
    ⟨k / N, k % N, Nat.mod_lt _ hN, by rw [Nat.div_add_mod]⟩
  have hkd : k / N = q := by
    rw [hk, Nat.mul_add_div hN, Nat.div_eq_of_lt hr]; omega
  have hkm : k % N = r := by
    rw [hk, Nat.mul_add_mod, Nat.mod_eq_of_lt hr]
  rcases Nat.lt_or_ge (r + 1) N with hlt | hge
  · have hd : (k + 1) / N = q := by
      rw [show k + 1 = N * q + (r + 1) by omega, Nat.mul_add_div hN,
        Nat.div_eq_of_lt hlt]
      omega
    have hm : (k + 1) % N = r + 1 := by
      rw [show k + 1 = N * q + (r + 1) by omega, Nat.mul_add_mod,
        Nat.mod_eq_of_lt hlt]
    rw [hd, hm, hkd, hkm]
    split_ifs <;> omega
  · have hrN : r + 1 = N := by omega
    have hd : (k + 1) / N = q + 1 := by
      rw [show k + 1 = N * (q + 1) by rw [Nat.mul_succ]; omega]
      exact Nat.mul_div_cancel_left _ hN
    have hm : (k + 1) % N = 0 := by
      rw [show k + 1 = N * (q + 1) by rw [Nat.mul_succ]; omega]
      exact Nat.mul_mod_right _ _
    rw [hd, hm, hkd, hkm]
    split_ifs <;> omega

/-- Ceiling division in terms of floor division. -/
theorem ceil_div_eq (N k : Nat) (hN : 0 < N) :
    (k + N - 1) / N = if k % N = 0 then k / N else k / N + 1 := by
  obtain ⟨q, r, hr, hk⟩ : ∃ q r, r < N ∧ k = N * q + r :=
    ⟨k / N, k % N, Nat.mod_lt _ hN, by rw [Nat.div_add_mod]⟩
  have hkd : k / N = q := by
    rw [hk, Nat.mul_add_div hN, Nat.div_eq_of_lt hr]; omega
  have hkm : k % N = r := by
    rw [hk, Nat.mul_add_mod, Nat.mod_eq_of_lt hr]
  rcases Nat.eq_zero_or_pos r with rfl | hrpos
  · rw [hkm, if_pos rfl, hkd, show k + N - 1 = N * q + (N - 1) by omega,
      Nat.mul_add_div hN, Nat.div_eq_of_lt (by omega)]
    try omega
  · rw [hkm, if_neg (by omega), hkd,
      show k + N - 1 = N * (q + 1) + (r - 1) by rw [Nat.mul_succ]; omega,
      Nat.mul_add_div hN, Nat.div_eq_of_lt (by omega)]
    try omega

/-- Exact count of each consumer in the served stream. -/
theorem serveSteps_count (l cs : List γ) (hne : l ≠ []) (hnd : l.Nodup)
    (c : γ) (hc : c ∈ l) (k : Nat) :
    (serveSteps ⟨l, cs⟩ k).count c =
      k / l.length + (if l.indexOf c < k % l.length then 1 else 0) := by
  have hN : 0 < l.length := List.length_pos.mpr hne
  have hidx : l.indexOf c < l.length := List.indexOf_lt_length.mpr hc
  induction k with
  | zero => simp [serveSteps]
  | succ k ih =>
    have hmod : k % l.length < l.length := Nat.mod_lt _ hN
    rw [serveSteps_snoc k l cs hne hmod, List.count_append,
      fair_count_step l.length (l.indexOf c) k hN hidx, ih]
    congr 1
    have hgi : l.get ⟨l.indexOf c, hidx⟩ = c := List.indexOf_get hidx
    by_cases heq : k % l.length = l.indexOf c
    · have hy : l.get ⟨k % l.length, hmod⟩ = c := by
        rw [← hgi]; congr 1; exact Fin.ext heq
      simp [hy, heq]
    · have hy : l.get ⟨k % l.length, hmod⟩ ≠ c := by
        rw [← hgi]
        intro hgot
        exact heq (congrArg Fin.val ((hnd.get_inj_iff).mp hgot))
      rw [List.get_eq_getElem] at hy
      simp [List.count_cons, hy, Ne.symm hy]
      simp [heq]

/-- C3: after adding distinct consumers `cs` to an empty handler, the
`i`-th `Next` call returns `cs[(i mod N)]` (rotation in insertion order),
and over `M ≥ N` consecutive calls each consumer is served either
`⌊M/N⌋` or `⌈M/N⌉` times. -/
theorem round_robin_rotation_and_fairness (cs : List γ) (hnd : cs.Nodup)
    (hne : cs ≠ []) (M : Nat) :
    (∀ i, i < M →
      (serveSteps (rrRun (cs.map RROp.add)) M).get? i = cs.get? (i % cs.length)) ∧
    (cs.length ≤ M → ∀ c ∈ cs,
      (serveSteps (rrRun (cs.map RROp.add)) M).count c = M / cs.length ∨
      (serveSteps (rrRun (cs.map RROp.add)) M).count c =
        (M + cs.length - 1) / cs.length) := by
  have hN : 0 < cs.length := List.length_pos.mpr hne
  have hring : rrRun (cs.map RROp.add) = ⟨cs, (rrRun (cs.map RROp.add)).consumers⟩ := by
    have := rrRun_adds_ring cs hnd
    cases h : rrRun (cs.map RROp.add)
    simp_all
  constructor
  · intro i hi
    rw [hring]
    exact serveSteps_get? M cs _ hne i hi
  · intro _ c hc
    rw [hring, serveSteps_count cs _ hne hnd c hc M]
    by_cases h0 : M % cs.length = 0
    · left
      have : ¬ cs.indexOf c < M % cs.length := by omega
      simp [this]
    · by_cases hidx : cs.indexOf c < M % cs.length
      · right
        rw [ceil_div_eq cs.length M hN, if_neg h0]
        simp [hidx]
      · left
        simp [hidx]

/-- Witness for C3 at `cs = [0, 1, 2]` and `M = 7`. -/
theorem round_robin_rotation_and_fairness_witness :
    (∀ i, i < 7 →
      (serveSteps (rrRun (([0, 1, 2] : List Nat).map RROp.add)) 7).get? i =
        [0, 1, 2].get? (i % 3)) ∧
    (3 ≤ 7 → ∀ c ∈ ([0, 1, 2] : List Nat),
      (serveSteps (rrRun (([0, 1, 2] : List Nat).map RROp.add)) 7).count c = 7 / 3 ∨
      (serveSteps (rrRun (([0, 1, 2] : List Nat).map RROp.add)) 7).count c =
        (7 + 3 - 1) / 3) := by
  have h := round_robin_rotation_and_fairness ([0, 1, 2] : List Nat)
    (by decide) (by decide) 7
  simpa using h

/-! ## Witnesses for C2 and C8 -/

/-- Witness for C2: two bindings resolving to the same consumer `7`, both
matching, yield exactly one delivery to `7`. -/
theorem exchange_consume_iff_once_witness :
    (exConsume (fun _ _ => true) ⟨[], [], 0, 0, []⟩
        ⟨[⟨[107], 7, 0⟩, ⟨[106], 7, 1⟩]⟩).count 7 = 1 :=
  (exchange_consume_iff_once (fun _ _ => true) ⟨[], [], 0, 0, []⟩
      ⟨[⟨[107], 7, 0⟩, ⟨[106], 7, 1⟩]⟩).2 7 (by decide)

/-- Witness for C8: the four error cases at concrete states, with the
state returned unchanged. -/
theorem error_taxonomy_raises_iff_witness :
    (rrAdd (⟨[5], [5]⟩ : ConsumerRR Nat) 5).2 = ⟨[5], [5]⟩ ∧
    (rrRemove (⟨[], []⟩ : ConsumerRR Nat) 5).2 = ⟨[], []⟩ ∧
    (bindTo ⟨[⟨[107], 7, 0⟩]⟩ ⟨[107], 7, 0⟩).2 = ⟨[⟨[107], 7, 0⟩]⟩ ∧
    (unbindFrom ⟨[]⟩ ⟨[107], 7, 0⟩).2 = ⟨[]⟩ := by
  refine ⟨?_, ?_, ?_, ?_⟩
  · exact (error_taxonomy_raises_iff (⟨[5], [5]⟩ : ConsumerRR Nat) 5
      ⟨[]⟩ ⟨[107], 7, 0⟩).2.2.1 (by decide)
  · exact (error_taxonomy_raises_iff (⟨[], []⟩ : ConsumerRR Nat) 5
      ⟨[]⟩ ⟨[107], 7, 0⟩).2.2.2.2.2.1 (by decide)
  · exact (error_taxonomy_raises_iff (⟨[], []⟩ : ConsumerRR Nat) 5
      ⟨[⟨[107], 7, 0⟩]⟩ ⟨[107], 7, 0⟩).2.2.2.2.2.2.2.2.1 (by decide)
  · exact (error_taxonomy_raises_iff (⟨[], []⟩ : ConsumerRR Nat) 5
      ⟨[]⟩ ⟨[107], 7, 0⟩).2.2.2.2.2.2.2.2.2.2.2 (by decide)

/-! ## The two-loop close protocol (`amq/message_queue.go`)

`Queue.close(force)` sends the shutdown flag on the unbuffered `quit`
channel twice (one per loop) and waits for two confirmations.  The claims
assume no concurrent `Consume`, `Len` or membership operations, so the
remaining behaviour is the interleaving of the two loops below.  Control
points of `inputHandler`: in its `select` (`ISt.run`), in the graceful
drain loop of the quit branch (`ISt.flush`), or returned (`ISt.idone`).
Control points of `outputHandler`: in its `select` (`OSt.run`), in the
graceful `range` loop with consumers (`OSt.rrange`), in the graceful
discarding `range` loop without consumers (`OSt.rdiscard`), or returned
(`OSt.odone`).  The unbuffered `output` channel is a rendezvous: a
handoff step requires the input loop offering a send (in `run` with a
non-empty store, or in `flush`) and the output loop offering a receive
(in `run` with a non-empty consumer map, or in a `range` loop).  The
store is the `QueueHandler`; its ordering policy is irrelevant to these
claims and it is modelled as the default FIFO handler (front = head). -/

inductive ISt
  | run
  | flush
  | idone
  deriving DecidableEq, Repr

inductive OSt
  | run
  | rrange
  | rdiscard
  | odone
  deriving DecidableEq, Repr

/-- Joint state of the two loops during `close(force)`. -/
structure CloseSt where
  force : Bool
  ist : ISt
  ost : OSt
  store : List Msg
  outClosed : Bool
  quits : Nat
  ring : List Nat
  subs : List Nat
  delivered : List (Nat × Msg)
  deriving DecidableEq, Repr

/-- One interleaving step of the close protocol. -/
inductive CStep : CloseSt → CloseSt → Prop
  /-- Rendezvous `self.output <- q.Peek(); q.Remove()` (input select) with
  `msg := <-self.output; rr.Next().Consume(msg)` (output select,
  `HasConsumers`). -/
  | handoffRunRun (s : CloseSt) (m : Msg) (rest : List Msg) (x : Nat) (xs : List Nat)
      (hi : s.ist = .run) (ho : s.ost = .run) (hst : s.store = m :: rest)
      (hsub : s.subs ≠ []) (hring : s.ring = x :: xs) :
      CStep s { s with store := rest, ring := xs ++ [x],
                       delivered := s.delivered ++ [(x, m)] }
  /-- Rendezvous: input select send with the output graceful range loop. -/
  | handoffRunRange (s : CloseSt) (m : Msg) (rest : List Msg) (x : Nat) (xs : List Nat)
      (hi : s.ist = .run) (ho : s.ost = .rrange) (hst : s.store = m :: rest)
      (hring : s.ring = x :: xs) :
      CStep s { s with store := rest, ring := xs ++ [x],
                       delivered := s.delivered ++ [(x, m)] }
  /-- Rendezvous: input graceful drain send with the output select. -/
  | handoffFlushRun (s : CloseSt) (m : Msg) (rest : List Msg) (x : Nat) (xs : List Nat)
      (hi : s.ist = .flush) (ho : s.ost = .run) (hst : s.store = m :: rest)
      (hsub : s.subs ≠ []) (hring : s.ring = x :: xs) :
      CStep s { s with store := rest, ring := xs ++ [x],
                       delivered := s.delivered ++ [(x, m)] }
  /-- Rendezvous: input graceful drain send with the output range loop. -/
  | handoffFlushRange (s : CloseSt) (m : Msg) (rest : List Msg) (x : Nat) (xs : List Nat)
      (hi : s.ist = .flush) (ho : s.ost = .rrange) (hst : s.store = m :: rest)
      (hring : s.ring = x :: xs) :
      CStep s { s with store := rest, ring := xs ++ [x],
                       delivered := s.delivered ++ [(x, m)] }
  /-- Rendezvous with the discarding range loop (input select send): the
  message is dropped, `rr.Next` is not called. -/
  | discardRun (s : CloseSt) (m : Msg) (rest : List Msg)
      (hi : s.ist = .run) (ho : s.ost = .rdiscard) (hst : s.store = m :: rest) :
      CStep s { s with store := rest }
  /-- Rendezvous with the discarding range loop (input drain send). -/
  | discardFlush (s : CloseSt) (m : Msg) (rest : List Msg)
      (hi : s.ist = .flush) (ho : s.ost = .rdiscard) (hst : s.store = m :: rest) :
      CStep s { s with store := rest }
  /-- Input loop receives a forced quit: return at once (no drain, no
  close of `output`). -/
  | quitInForce (s : CloseSt) (q : Nat)
      (hi : s.ist = .run) (hq : s.quits = q + 1) (hf : s.force = true) :
      CStep s { s with ist := .idone, quits := q }
  /-- Input loop receives a graceful quit: enter the drain loop. -/
  | quitInGrace (s : CloseSt) (q : Nat)
      (hi : s.ist = .run) (hq : s.quits = q + 1) (hf : s.force = false) :
      CStep s { s with ist := .flush, quits := q }
  /-- Input drain loop exits (`q.Len() == 0`), closes `output`, confirms
  and returns. -/
  | flushDone (s : CloseSt)
      (hi : s.ist = .flush) (hst : s.store = []) :
      CStep s { s with ist := .idone, outClosed := true }
  /-- Output loop receives a forced quit: return at once. -/
  | quitOutForce (s : CloseSt) (q : Nat)
      (ho : s.ost = .run) (hq : s.quits = q + 1) (hf : s.force = true) :
      CStep s { s with ost := .odone, quits := q }
  /-- Output loop receives a graceful quit in `HasConsumers`: enter the
  delivering range loop. -/
  | quitOutGraceRange (s : CloseSt) (q : Nat)
      (ho : s.ost = .run) (hq : s.quits = q + 1) (hf : s.force = false)
      (hsub : s.subs ≠ []) :
      CStep s { s with ost := .rrange, quits := q }
  /-- Output loop receives a graceful quit in `NoConsumers`: enter the
  discarding range loop. -/
  | quitOutGraceDiscard (s : CloseSt) (q : Nat)
      (ho : s.ost = .run) (hq : s.quits = q + 1) (hf : s.force = false)
      (hsub : s.subs = []) :
      CStep s { s with ost := .rdiscard, quits := q }
  /-- The delivering range loop observes the closed `output` channel,
  confirms and returns. -/
  | rangeEnd (s : CloseSt)
      (ho : s.ost = .rrange) (hc : s.outClosed = true) :
      CStep s { s with ost := .odone }
  /-- The discarding range loop observes the closed `output` channel,
  confirms and returns. -/
  | discardEnd (s : CloseSt)
      (ho : s.ost = .rdiscard) (hc : s.outClosed = true) :
      CStep s { s with ost := .odone }

/-- Reachability in the close protocol. -/
def CReach : CloseSt → CloseSt → Prop :=
  Relation.ReflTransGen CStep

/-- Both loops have confirmed termination: `close` has returned. -/
def terminalClose (s : CloseSt) : Prop :=
  s.ist = .idone ∧ s.ost = .odone

/-- Initial state of `close(force)`: both loops in their selects, `K`
messages buffered, two pending quit signals, nothing delivered. -/
def closeInit (force : Bool) (msgs : List Msg) (ring subs : List Nat) : CloseSt :=
  ⟨force, .run, .run, msgs, false, 2, ring, subs, []⟩

/-- Inductive invariant of a graceful close with a fixed non-empty
subscriber set: the delivered and buffered counts always sum to the
initial `K`, the ring's membership never changes, every delivery so far
went to a ring member, the discarding loop is never entered, and the
input loop only returns with an empty store. -/
def GInv (K : Nat) (subs0 ring0 : List Nat) (s : CloseSt) : Prop :=
  s.force = false ∧ s.subs = subs0 ∧
  s.delivered.length + s.store.length = K ∧
  (∀ c, c ∈ s.ring ↔ c ∈ ring0) ∧
  (∀ p ∈ s.delivered, p.1 ∈ ring0) ∧
  s.ost ≠ .rdiscard ∧
  (s.ist = .idone → s.store = [])

/-- One step preserves the graceful-close invariant. -/
theorem GInv_step (K : Nat) (subs0 ring0 : List Nat) (hsub : subs0 ≠ [])
    (s s' : CloseSt) (h : CStep s s') (hinv : GInv K subs0 ring0 s) :
    GInv K subs0 ring0 s' := by
  obtain ⟨hf, hs, hlen, hrm, hdel, hdisc, hid⟩ := hinv
  cases h with
  | handoffRunRun m rest x xs hi ho hst hsub2 hring =>
    refine ⟨hf, hs, ?_, ?_, ?_, by simpa using hdisc, by simp [hi]⟩
    · simp only [List.length_append, List.length_singleton]
      rw [hst] at hlen; simp at hlen; omega
    · intro c; rw [← hrm c, hring]; simp; tauto
    · intro p hp
      rcases List.mem_append.mp hp with hp | hp
      · exact hdel p hp
      · simp only [List.mem_singleton] at hp
        subst hp
        exact (hrm x).mp (by rw [hring]; exact List.mem_cons_self _ _)
  | handoffRunRange m rest x xs hi ho hst hring =>
    refine ⟨hf, hs, ?_, ?_, ?_, by simpa using hdisc, by simp [hi]⟩
    · simp only [List.length_append, List.length_singleton]
      rw [hst] at hlen; simp at hlen; omega
    · intro c; rw [← hrm c, hring]; simp; tauto
    · intro p hp
      rcases List.mem_append.mp hp with hp | hp
      · exact hdel p hp
      · simp only [List.mem_singleton] at hp
        subst hp
        exact (hrm x).mp (by rw [hring]; exact List.mem_cons_self _ _)
  | handoffFlushRun m rest x xs hi ho hst hsub2 hring =>
    refine ⟨hf, hs, ?_, ?_, ?_, by simpa using hdisc, by simp [hi]⟩
    · simp only [List.length_append, List.length_singleton]
      rw [hst] at hlen; simp at hlen; omega
    · intro c; rw [← hrm c, hring]; simp; tauto
    · intro p hp
      rcases List.mem_append.mp hp with hp | hp
      · exact hdel p hp
      · simp only [List.mem_singleton] at hp
        subst hp
        exact (hrm x).mp (by rw [hring]; exact List.mem_cons_self _ _)
  | handoffFlushRange m rest x xs hi ho hst hring =>
    refine ⟨hf, hs, ?_, ?_, ?_, by simpa using hdisc, by simp [hi]⟩
    · simp only [List.length_append, List.length_singleton]
      rw [hst] at hlen; simp at hlen; omega
    · intro c; rw [← hrm c, hring]; simp; tauto
    · intro p hp
      rcases List.mem_append.mp hp with hp | hp
      · exact hdel p hp
      · simp only [List.mem_singleton] at hp
        subst hp
        exact (hrm x).mp (by rw [hring]; exact List.mem_cons_self _ _)
  | discardRun m rest hi ho hst => exact absurd ho hdisc
  | discardFlush m rest hi ho hst => exact absurd ho hdisc
  | quitInForce q hi hq hf2 => rw [hf] at hf2; cases hf2
  | quitInGrace q hi hq hf2 =>
    exact ⟨hf, hs, hlen, hrm, hdel, by simpa using hdisc, by simp⟩
  | flushDone hi hst =>
    exact ⟨hf, hs, hlen, hrm, hdel, by simpa using hdisc, by simp [hst]⟩
  | quitOutForce q ho hq hf2 => rw [hf] at hf2; cases hf2
  | quitOutGraceRange q ho hq hf2 hsub2 =>
    exact ⟨hf, hs, hlen, hrm, hdel, by simp, hid⟩
  | quitOutGraceDiscard q ho hq hf2 hsub2 =>
    rw [hs] at hsub2; exact absurd hsub2 hsub
  | rangeEnd ho hc =>
    exact ⟨hf, hs, hlen, hrm, hdel, by simp, hid⟩
  | discardEnd ho hc => exact absurd ho hdisc

/-- The graceful-close invariant holds along every execution. -/
theorem GInv_reach (K : Nat) (subs0 ring0 : List Nat) (hsub : subs0 ≠ [])
    (s s' : CloseSt) (hr : CReach s s') (hinv : GInv K subs0 ring0 s) :
    GInv K subs0 ring0 s' := by
  induction hr with
  | refl => exact hinv
  | tail _ hstep ih => exact GInv_step K subs0 ring0 hsub _ _ hstep ih

/-- C1 (amended): starting a graceful `Close()` with `K` buffered
messages, a non-empty subscriber set, and a ring whose members are
exactly the subscribed consumers, every completed execution of the close
protocol delivers exactly `K` messages, all of them to subscribed
consumers, and the buffered store is empty at completion. -/
theorem close_graceful_flushes_all (msgs : List Msg) (ring0 subs0 : List Nat)
    (hsub : subs0 ≠ []) (hset : ∀ c, c ∈ ring0 ↔ c ∈ subs0) (s : CloseSt)
    (hreach : CReach (closeInit false msgs ring0 subs0) s)
    (hterm : terminalClose s) :
    s.delivered.length = msgs.length ∧
    (∀ p ∈ s.delivered, p.1 ∈ subs0) ∧ s.store = [] := by
  have hinit : GInv msgs.length subs0 ring0 (closeInit false msgs ring0 subs0) := by
    refine ⟨rfl, rfl, by simp [closeInit], fun c => Iff.rfl, by simp [closeInit], ?_, ?_⟩
    · simp [closeInit]
    · intro h; simp [closeInit] at h
  obtain ⟨hf, hs, hlen, hrm, hdel, hdisc, hid⟩ :=
    GInv_reach msgs.length subs0 ring0 hsub _ s hreach hinit
  have hstore : s.store = [] := hid hterm.1
  refine ⟨?_, ?_, hstore⟩
  · rw [hstore] at hlen; simpa using hlen
  · intro p hp
    exact (hset p.1).mp (hdel p hp)

/-- C1 (counterexample to the claim as stated): the ring state
`ring = [0, 1]` with subscriber map `{1}` is produced by the successful
API sequence `Subscribe 0; Unsubscribe 0; Subscribe 1` (the stale-node
bug), its subscriber set is non-empty and one message is buffered, yet a
completed graceful close delivers the message to the unsubscribed stale
consumer `0`: the number of deliveries to subscribed consumers is `0`,
not `K = 1`. -/
theorem close_graceful_misdelivery_on_stale_ring :
    (rrRun [RROp.add 0, RROp.remove 0, RROp.add 1] : ConsumerRR Nat) =
      ⟨[0, 1], [1]⟩ ∧
    (closeInit false [⟨[], [], 0, 0, []⟩] [0, 1] [1]).subs ≠ [] ∧
    (closeInit false [⟨[], [], 0, 0, []⟩] [0, 1] [1]).store.length = 1 ∧
    CReach (closeInit false [⟨[], [], 0, 0, []⟩] [0, 1] [1])
      ⟨false, .idone, .odone, [], true, 0, [1, 0], [1],
        [(0, ⟨[], [], 0, 0, []⟩)]⟩ ∧
    terminalClose
      ⟨false, .idone, .odone, [], true, 0, [1, 0], [1],
        [(0, ⟨[], [], 0, 0, []⟩)]⟩ ∧
    (([(0, (⟨[], [], 0, 0, []⟩ : Msg))].filter (fun p => p.1 ∈ [1])).length = 0) := by
  refine ⟨by decide, by decide, by decide, ?_, ⟨rfl, rfl⟩, by decide⟩
  refine Relation.ReflTransGen.head (CStep.quitInGrace _ 1 rfl rfl rfl) ?_
  refine Relation.ReflTransGen.head (CStep.quitOutGraceRange _ 0 rfl rfl rfl (by decide)) ?_
  refine Relation.ReflTransGen.head
    (CStep.handoffFlushRange _ ⟨[], [], 0, 0, []⟩ [] 0 [1] rfl rfl rfl rfl) ?_
  refine Relation.ReflTransGen.head (CStep.flushDone _ rfl rfl) ?_
  exact Relation.ReflTransGen.single (CStep.rangeEnd _ rfl rfl)

/-- Witness for the amended C1 at a clean ring `[3]` with two buffered
messages: the exhibited completed execution delivers both. -/
theorem close_graceful_flushes_all_witness :
    (⟨false, .idone, .odone, [], true, 0, [3], [3],
        [(3, ⟨[], [], 0, 0, []⟩), (3, ⟨[], [], 1, 1, []⟩)]⟩ : CloseSt).delivered.length =
      ([⟨[], [], 0, 0, []⟩, ⟨[], [], 1, 1, []⟩] : List Msg).length ∧
    (∀ p ∈ (⟨false, .idone, .odone, [], true, 0, [3], [3],
        [(3, ⟨[], [], 0, 0, []⟩), (3, ⟨[], [], 1, 1, []⟩)]⟩ : CloseSt).delivered,
      p.1 ∈ [3]) ∧
    (⟨false, .idone, .odone, [], true, 0, [3], [3],
        [(3, ⟨[], [], 0, 0, []⟩), (3, ⟨[], [], 1, 1, []⟩)]⟩ : CloseSt).store = [] := by
  refine close_graceful_flushes_all
    [⟨[], [], 0, 0, []⟩, ⟨[], [], 1, 1, []⟩] [3] [3]
    (by decide) (fun c => Iff.rfl) _ ?_ ⟨rfl, rfl⟩
  refine Relation.ReflTransGen.head (CStep.quitInGrace _ 1 rfl rfl rfl) ?_
  refine Relation.ReflTransGen.head (CStep.quitOutGraceRange _ 0 rfl rfl rfl (by decide)) ?_
  refine Relation.ReflTransGen.head
    (CStep.handoffFlushRange _ ⟨[], [], 0, 0, []⟩ [⟨[], [], 1, 1, []⟩] 3 [] rfl rfl rfl rfl) ?_
  refine Relation.ReflTransGen.head
    (CStep.handoffFlushRange _ ⟨[], [], 1, 1, []⟩ [] 3 [] rfl rfl rfl rfl) ?_
  refine Relation.ReflTransGen.head (CStep.flushDone _ rfl rfl) ?_
  exact Relation.ReflTransGen.single (CStep.rangeEnd _ rfl rfl)

/-- Once a loop has consumed a forced quit signal, no step can change the
delivery log (and the consumed signal is never un-consumed). -/
theorem forced_step_freezes (s s' : CloseSt) (h : CStep s s')
    (hf : s.force = true) (hd : s.ist = .idone ∨ s.ost = .odone) :
    s'.delivered = s.delivered ∧ s'.force = true ∧
    (s'.ist = .idone ∨ s'.ost = .odone) := by
  cases h with
  | handoffRunRun m rest x xs hi ho hst hsub2 hring =>
    rcases hd with hd | hd
    · rw [hi] at hd; cases hd
    · rw [ho] at hd; cases hd
  | handoffRunRange m rest x xs hi ho hst hring =>
    rcases hd with hd | hd
    · rw [hi] at hd; cases hd
    · rw [ho] at hd; cases hd
  | handoffFlushRun m rest x xs hi ho hst hsub2 hring =>
    rcases hd with hd | hd
    · rw [hi] at hd; cases hd
    · rw [ho] at hd; cases hd
  | handoffFlushRange m rest x xs hi ho hst hring =>
    rcases hd with hd | hd
    · rw [hi] at hd; cases hd
    · rw [ho] at hd; cases hd
  | discardRun m rest hi ho hst =>
    rcases hd with hd | hd
    · rw [hi] at hd; cases hd
    · rw [ho] at hd; cases hd
  | discardFlush m rest hi ho hst =>
    rcases hd with hd | hd
    · rw [hi] at hd; cases hd
    · rw [ho] at hd; cases hd
  | quitInForce q hi hq hf2 => exact ⟨rfl, hf, Or.inl rfl⟩
  | quitInGrace q hi hq hf2 => rw [hf] at hf2; cases hf2
  | flushDone hi hst =>
    rcases hd with hd | hd
    · rw [hi] at hd; cases hd
    · exact ⟨rfl, hf, Or.inr hd⟩
  | quitOutForce q ho hq hf2 => exact ⟨rfl, hf, Or.inr rfl⟩
  | quitOutGraceRange q ho hq hf2 hsub2 => rw [hf] at hf2; cases hf2
  | quitOutGraceDiscard q ho hq hf2 hsub2 => rw [hf] at hf2; cases hf2
  | rangeEnd ho hc =>
    rcases hd with hd | hd
    · exact ⟨rfl, hf, Or.inl hd⟩
    · rw [ho] at hd; cases hd
  | discardEnd ho hc =>
    rcases hd with hd | hd
    · exact ⟨rfl, hf, Or.inl hd⟩
    · rw [ho] at hd; cases hd

/-- With an empty subscriber map, no step delivers and the delivering
range loop is never entered (for either shutdown flavour). -/
theorem nosubs_step_no_delivery (s s' : CloseSt) (h : CStep s s')
    (hsub : s.subs = []) (hrange : s.ost ≠ .rrange) (hdel : s.delivered = []) :
    s'.subs = [] ∧ s'.ost ≠ .rrange ∧ s'.delivered = [] := by
  cases h with
  | handoffRunRun m rest x xs hi ho hst hsub2 hring => exact absurd hsub hsub2
  | handoffRunRange m rest x xs hi ho hst hring => exact absurd ho hrange
  | handoffFlushRun m rest x xs hi ho hst hsub2 hring => exact absurd hsub hsub2
  | handoffFlushRange m rest x xs hi ho hst hring => exact absurd ho hrange
  | discardRun m rest hi ho hst => exact ⟨hsub, by simpa [ho] using hrange, hdel⟩
  | discardFlush m rest hi ho hst => exact ⟨hsub, by simpa [ho] using hrange, hdel⟩
  | quitInForce q hi hq hf2 => exact ⟨hsub, hrange, hdel⟩
  | quitInGrace q hi hq hf2 => exact ⟨hsub, hrange, hdel⟩
  | flushDone hi hst => exact ⟨hsub, hrange, hdel⟩
  | quitOutForce q ho hq hf2 => exact ⟨hsub, by simp, hdel⟩
  | quitOutGraceRange q ho hq hf2 hsub2 => exact absurd hsub hsub2
  | quitOutGraceDiscard q ho hq hf2 hsub2 => exact ⟨hsub, by simp, hdel⟩
  | rangeEnd ho hc => exact absurd ho hrange
  | discardEnd ho hc => exact ⟨hsub, by simp, hdel⟩

/-- C6: drop semantics of shutdown.  First conjunct (`ForceClose`): in
every execution of a forced close, from the moment either loop has
consumed the forced shutdown signal, the delivery log never grows — no
delivery of the buffered messages is ever attempted after the signal.
Second conjunct (`Close` with zero subscribers, also any forced close
with zero subscribers): the delivery log is empty in every reachable
state — the buffered messages are discarded silently, with zero
deliveries. -/
theorem close_drop_semantics :
    (∀ (msgs : List Msg) (ring0 subs0 : List Nat) (s sEnd : CloseSt),
      CReach (closeInit true msgs ring0 subs0) s →
      (s.ist = .idone ∨ s.ost = .odone) →
      CReach s sEnd → sEnd.delivered = s.delivered) ∧
    (∀ (force : Bool) (msgs : List Msg) (ring0 : List Nat) (s : CloseSt),
      CReach (closeInit force msgs ring0 []) s → s.delivered = []) := by
  constructor
  · intro msgs ring0 subs0 s sEnd hr hd hr2
    have hforce : s.force = true := by
      have : ∀ t u : CloseSt, CStep t u → t.force = u.force := by
        intro t u h; cases h <;> rfl
      clear hd hr2
      induction hr with
      | refl => rfl
      | tail _ hstep ih => rw [← this _ _ hstep, ih]
    clear hr
    have key : sEnd.delivered = s.delivered ∧ sEnd.force = true ∧
        (sEnd.ist = .idone ∨ sEnd.ost = .odone) := by
      induction hr2 with
      | refl => exact ⟨rfl, hforce, hd⟩
      | tail _ hstep ih =>
        obtain ⟨h1, h2, h3⟩ := ih
        obtain ⟨g1, g2, g3⟩ := forced_step_freezes _ _ hstep h2 h3
        exact ⟨g1.trans h1, g2, g3⟩
    exact key.1
  · intro force msgs ring0 s hr
    have h3 : s.subs = [] ∧ s.ost ≠ .rrange ∧ s.delivered = [] := by
      induction hr with
      | refl => exact ⟨rfl, by simp [closeInit], rfl⟩
      | tail _ hstep ih =>
        exact nosubs_step_no_delivery _ _ hstep ih.1 ih.2.1 ih.2.2
    exact h3.2.2

/-- Witness for C6: a forced close whose input loop has taken the signal
delivers nothing afterwards, and a graceful close with no subscribers
delivers nothing at all. -/
theorem close_drop_semantics_witness :
    (⟨true, .idone, .odone, [⟨[], [], 0, 0, []⟩], false, 0, [4], [4], []⟩ : CloseSt).delivered =
      (⟨true, .idone, .run, [⟨[], [], 0, 0, []⟩], false, 1, [4], [4], []⟩ : CloseSt).delivered ∧
    (⟨false, .idone, .odone, [], true, 0, [9], [], []⟩ : CloseSt).delivered = [] := by
  constructor
  · exact close_drop_semantics.1 [⟨[], [], 0, 0, []⟩] [4] [4]
      ⟨true, .idone, .run, [⟨[], [], 0, 0, []⟩], false, 1, [4], [4], []⟩
      ⟨true, .idone, .odone, [⟨[], [], 0, 0, []⟩], false, 0, [4], [4], []⟩
      (Relation.ReflTransGen.single (CStep.quitInForce _ 1 rfl rfl rfl))
      (Or.inl rfl)
      (Relation.ReflTransGen.single (CStep.quitOutForce _ 0 rfl rfl rfl))
  · refine close_drop_semantics.2 false [⟨[], [], 0, 0, []⟩] [9]
      ⟨false, .idone, .odone, [], true, 0, [9], [], []⟩ ?_
    refine Relation.ReflTransGen.head (CStep.quitInGrace _ 1 rfl rfl rfl) ?_
    refine Relation.ReflTransGen.head (CStep.quitOutGraceDiscard _ 0 rfl rfl rfl rfl) ?_
    refine Relation.ReflTransGen.head (CStep.discardFlush _ ⟨[], [], 0, 0, []⟩ [] rfl rfl rfl) ?_
    refine Relation.ReflTransGen.head (CStep.flushDone _ rfl rfl) ?_
    exact Relation.ReflTransGen.single (CStep.discardEnd _ rfl rfl)

/-! ## Claim C9: the `Subscriptions()` snapshot -/

/-- Modelled from the spec: the `Queue.Subscriptions` implementation is
not among the source files (only the `RoundRobinDispatcher` interface
declaration in `amq/base.go` and the public-interface tests that call it
are).  The spec describes it as a snapshot of the currently subscribed
consumers, order unspecified, with an empty ring yielding an empty
result; the subscribed consumers are the ring handler's identity-map
contents. -/
def subscriptions (s : ConsumerRR γ) : List γ :=
  s.consumers

/-- Specification-side subscribed flag for one consumer after a sequence
of membership operations, following the spec's words: a consumer is
subscribed when it has been added and not since removed. -/
def subAux (c : γ) : List (RROp γ) → Bool → Bool
  | [], b => b
  | op :: rest, b =>
    match op with
    | .add d => subAux c rest (if d = c then true else b)
    | .remove d => subAux c rest (if d = c then false else b)

/-- Generalised invariant: along any operation sequence the identity map
stays duplicate-free and its membership tracks the spec-side flag. -/
theorem subscriptions_track (c : γ) (ops : List (RROp γ)) :
    ∀ s : ConsumerRR γ, s.consumers.Nodup →
      (ops.foldl rrApply s).consumers.Nodup ∧
      (c ∈ (ops.foldl rrApply s).consumers ↔
        subAux c ops (decide (c ∈ s.consumers)) = true) := by
  induction ops with
  | nil => intro s hs; simpa [subAux] using hs
  | cons op rest ih =>
    intro s hs
    match op with
    | .add d =>
      by_cases hd : d ∈ s.consumers
      · have hstate : rrApply s (RROp.add d) = s := by simp [rrApply, rrAdd, hd]
        obtain ⟨h1, h2⟩ := ih s hs
        refine ⟨by simpa [hstate] using h1, ?_⟩
        rw [List.foldl_cons, hstate, h2]
        by_cases hdc : d = c
        · subst hdc
          simp [subAux, hd]
        · simp [subAux, hdc]
      · have hstate : rrApply s (RROp.add d) =
            ⟨ringAdd s.ring d, d :: s.consumers⟩ := by simp [rrApply, rrAdd, hd]
        have hnd : (d :: s.consumers).Nodup := List.nodup_cons.mpr ⟨hd, hs⟩
        obtain ⟨h1, h2⟩ := ih ⟨ringAdd s.ring d, d :: s.consumers⟩ hnd
        refine ⟨by simpa [hstate] using h1, ?_⟩
        rw [List.foldl_cons, hstate, h2]
        by_cases hdc : d = c
        · subst hdc
          simp [subAux, List.mem_cons]
        · simp [subAux, hdc, List.mem_cons, Ne.symm hdc]
    | .remove d =>
      by_cases hd : d ∈ s.consumers
      · have hstate : rrApply s (RROp.remove d) =
            ⟨ringRemove s.ring d, s.consumers.erase d⟩ := by
          simp [rrApply, rrRemove, hd]
        have hnd : (s.consumers.erase d).Nodup := hs.erase d
        obtain ⟨h1, h2⟩ := ih ⟨ringRemove s.ring d, s.consumers.erase d⟩ hnd
        refine ⟨by simpa [hstate] using h1, ?_⟩
        rw [List.foldl_cons, hstate, h2]
        by_cases hdc : d = c
        · subst hdc
          simp [subAux, hs.mem_erase_iff]
        · simp [subAux, hdc, hs.mem_erase_iff, Ne.symm hdc]
      · have hstate : rrApply s (RROp.remove d) = s := by
          simp [rrApply, rrRemove, hd]
        obtain ⟨h1, h2⟩ := ih s hs
        refine ⟨by simpa [hstate] using h1, ?_⟩
        rw [List.foldl_cons, hstate, h2]
        by_cases hdc : d = c
        · subst hdc
          simp [subAux, hd]
        · simp [subAux, hdc]

/-- C9 (spec-modelled): `Subscriptions()` on an empty ring returns the
empty snapshot, and after any sequence of membership operations the
snapshot holds each consumer exactly when it is currently subscribed
(added and not since removed), without duplicates. -/
theorem queue_subscriptions_snapshot :
    subscriptions (rrEmpty : ConsumerRR γ) = [] ∧
    ∀ (ops : List (RROp γ)) (c : γ),
      (subscriptions (rrRun ops)).Nodup ∧
      (c ∈ subscriptions (rrRun ops) ↔ subAux c ops false = true) := by
  refine ⟨rfl, ?_⟩
  intro ops c
  have h := subscriptions_track c ops rrEmpty (by simp [rrEmpty])
  simpa [rrRun, subscriptions, rrEmpty] using h

/-- Witness for C9 at a concrete trace. -/
theorem queue_subscriptions_snapshot_witness :
    subscriptions (rrEmpty : ConsumerRR Nat) = [] ∧
    (subscriptions (rrRun [RROp.add 1, RROp.add 2, RROp.remove 1])).Nodup ∧
    ((2 : Nat) ∈ subscriptions (rrRun [RROp.add 1, RROp.add 2, RROp.remove 1]) ↔
      subAux 2 [RROp.add 1, RROp.add 2, RROp.remove 1] false = true) :=
  ⟨(queue_subscriptions_snapshot (γ := Nat)).1,
    (queue_subscriptions_snapshot.2 [RROp.add 1, RROp.add 2, RROp.remove 1] 2).1,
    (queue_subscriptions_snapshot.2 [RROp.add 1, RROp.add 2, RROp.remove 1] 2).2⟩

/-! ## Priority-ordered store (`queue/pq_handler.go` with `container/heap`)

`pqHandler` stores messages in a slice managed by Go's `container/heap`
(0-based binary min-heap with respect to `heapImpl.Less`).  The slice is
modelled as a `List Msg`; reads use `getD` with a placeholder default
that the verified call sites never hit (all accesses are in bounds). -/

/-- `heapImpl.Less`: higher priority first; equal priorities order by
the earlier timestamp (`Timestamp().Before`). -/
def msgLess (l r : Msg) : Bool :=
  if l.priority = r.priority then decide (l.timestamp < r.timestamp)
  else decide (l.priority > r.priority)

/-- Placeholder for out-of-range reads. -/
def mdef : Msg := ⟨[], [], 0, 0, []⟩

/-- `heapImpl.Swap`. -/
def hswap (a : List Msg) (i j : Nat) : List Msg :=
  (a.set i (a.getD j mdef)).set j (a.getD i mdef)

/-- `container/heap.up`: sift the element at `j` towards the root while
it is `Less` than its parent (`i == j` only at the root). -/
def upHeap (a : List Msg) (j : Nat) : List Msg :=
  if h0 : j = 0 then a
  else
    if msgLess (a.getD j mdef) (a.getD ((j - 1) / 2) mdef) then
      upHeap (hswap a ((j - 1) / 2) j) ((j - 1) / 2)
    else a
  termination_by j
  decreasing_by omega

/-- Child selection of `container/heap.down`: the second child when it
exists and is `Less` than the first, else the first child. -/
def pickChild (a : List Msg) (i n : Nat) : Nat :=
  if 2 * i + 2 < n ∧
      msgLess (a.getD (2 * i + 2) mdef) (a.getD (2 * i + 1) mdef) = true
  then 2 * i + 2 else 2 * i + 1

/-- `container/heap.down` restricted to the prefix `[0, n)`: sift the
element at `i` towards the leaves, always swapping with the `Less`-least
child (the boolean result of Go's `down` is unused by `Pop`). -/
def downHeap (a : List Msg) (i n : Nat) : List Msg :=
  if h : 2 * i + 1 < n then
    if msgLess (a.getD (pickChild a i n) mdef) (a.getD i mdef) then
      downHeap (hswap a i (pickChild a i n)) (pickChild a i n) n
    else a
  else a
  termination_by n - i
  decreasing_by simp only [pickChild]; split <;> omega

/-- `heap.Push` as used by `pqHandler.Add`: append, then sift up from the
last index. -/
def heapPush (a : List Msg) (m : Msg) : List Msg :=
  upHeap (a ++ [m]) a.length

/-- `heap.Pop` as used by `pqHandler.Remove`: swap the root with the last
element, sift the root down within the shortened prefix, then drop the
last element.  `Remove` on an empty store panics in Go; callers are
guarded, and the model returns the empty list there. -/
def heapPop (a : List Msg) : List Msg :=
  (downHeap (hswap a 0 (a.length - 1)) 0 (a.length - 1)).dropLast

/-- `pqHandler.Peek` (panics when empty, modelled as `Option`). -/
def pqPeek (a : List Msg) : Option Msg :=
  a.head?

/-- Build the store by adding messages in sequence. -/
def pqAddAll (msgs : List Msg) : List Msg :=
  msgs.foldl heapPush []

/-- Lengths are preserved by `Swap`. -/
theorem hswap_length (a : List Msg) (i j : Nat) :
    (hswap a i j).length = a.length := by
  simp [hswap]

/-- Lengths are preserved by `up`. -/
theorem upHeap_length (j : Nat) :
    ∀ a : List Msg, (upHeap a j).length = a.length := by
  induction j using Nat.strong_induction_on with
  | _ j ih =>
    intro a
    rw [upHeap]
    split
    · rfl
    · split
      · rename_i h0 _
        rw [ih ((j - 1) / 2) (by omega), hswap_length]
      · rfl

/-- Lengths are preserved by `down`. -/
theorem downHeap_length (g : Nat) :
    ∀ (a : List Msg) (i n : Nat), n - i ≤ g → (downHeap a i n).length = a.length := by
  induction g with
  | zero =>
    intro a i n hg
    rw [downHeap, dif_neg (by omega)]
  | succ g ih =>
    intro a i n hg
    rw [downHeap]
    split
    · split
      · rename_i h hl
        rw [ih _ _ _ ?_, hswap_length]
        have : i < pickChild a i n := by
          simp only [pickChild]; split <;> omega
        omega
      · rfl
    · rfl

/-- Reading an un-set index. -/
theorem getD_set_ne (a : List Msg) (i k : Nat) (y : Msg) (h : k ≠ i) :
    (a.set i y).getD k mdef = a.getD k mdef := by
  simp [List.getD, List.getElem?_set_ne (Ne.symm h)]

/-- Reading a set index in bounds. -/
theorem getD_set_self (a : List Msg) (i : Nat) (y : Msg) (h : i < a.length) :
    (a.set i y).getD i mdef = y := by
  simp [List.getD, List.getElem?_set_eq_of_lt y h]

/-- `Swap` at `j`. -/
theorem hswap_getD_snd (a : List Msg) (i j : Nat) (hj : j < a.length) :
    (hswap a i j).getD j mdef = a.getD i mdef := by
  unfold hswap
  exact getD_set_self _ j _ (by simpa using hj)

/-- `Swap` at `i` when the two positions differ. -/
theorem hswap_getD_fst (a : List Msg) (i j : Nat) (hi : i < a.length)
    (hne : i ≠ j) : (hswap a i j).getD i mdef = a.getD j mdef := by
  unfold hswap
  rw [getD_set_ne (a.set i (a.getD j mdef)) j i (a.getD i mdef) hne,
    getD_set_self a i (a.getD j mdef) hi]

/-- `Swap` elsewhere. -/
theorem hswap_getD_other (a : List Msg) (i j k : Nat) (h1 : k ≠ i) (h2 : k ≠ j) :
    (hswap a i j).getD k mdef = a.getD k mdef := by
  unfold hswap
  rw [getD_set_ne (a.set i (a.getD j mdef)) j k (a.getD i mdef) h2,
    getD_set_ne a i k (a.getD j mdef) h1]

/-- Setting one position changes one count occurrence. -/
theorem count_set_msg (a : List Msg) (i : Nat) (hi : i < a.length) (y x : Msg) :
    (a.set i y).count x + (if a.getD i mdef = x then 1 else 0) =
      a.count x + (if y = x then 1 else 0) := by
  have hdecomp : a.set i y = a.take i ++ y :: a.drop (i + 1) :=
    List.set_eq_take_cons_drop y hi
  have hself : a = a.take i ++ a.getD i mdef :: a.drop (i + 1) := by
    conv_lhs => rw [← List.take_append_drop i a]
    congr 1
    rw [List.drop_eq_getElem_cons hi, List.getD_eq_getElem a mdef hi]
  rw [hdecomp]
  conv_rhs => rw [hself]
  clear hdecomp hself
  simp only [List.count_append, List.count_cons, beq_iff_eq]
  split_ifs <;> first | omega | simp_all

/-- `Swap` permutes the slice. -/
theorem hswap_perm (a : List Msg) (i j : Nat) (hi : i < a.length)
    (hj : j < a.length) : (hswap a i j).Perm a := by
  rw [List.perm_iff_count]
  intro x
  have h1 := count_set_msg a i hi (a.getD j mdef) x
  have h2 := count_set_msg (a.set i (a.getD j mdef)) j (by simpa using hj)
    (a.getD i mdef) x
  by_cases hij : i = j
  · subst hij
    rw [getD_set_self a i _ hi] at h2
    unfold hswap
    split_ifs at h1 h2 <;> omega
  · rw [getD_set_ne a i j (a.getD j mdef) (Ne.symm hij)] at h2
    unfold hswap
    split_ifs at h1 h2 <;> omega

/-- `up` permutes the slice. -/
theorem upHeap_perm (j : Nat) :
    ∀ a : List Msg, j < a.length → (upHeap a j).Perm a := by
  induction j using Nat.strong_induction_on with
  | _ j ih =>
    intro a hj
    rw [upHeap]
    split
    · exact List.Perm.refl a
    · split
      · rename_i h0 _
        refine ((ih ((j - 1) / 2) (by omega) _ ?_).trans
          (hswap_perm a ((j - 1) / 2) j (by omega) hj))
        rw [hswap_length]; omega
      · exact List.Perm.refl a

/-- `down` permutes the slice. -/
theorem downHeap_perm (g : Nat) :
    ∀ (a : List Msg) (i n : Nat), n - i ≤ g → n ≤ a.length →
      (downHeap a i n).Perm a := by
  induction g with
  | zero =>
    intro a i n hg hn
    rw [downHeap, dif_neg (by omega)]
  | succ g ih =>
    intro a i n hg hn
    rw [downHeap]
    split
    · split
      · rename_i h hl
        have hpc : pickChild a i n < n := by
          simp only [pickChild]; split <;> omega
        have hipc : i < pickChild a i n := by
          simp only [pickChild]; split <;> omega
        refine (ih _ _ n (by omega) (by rw [hswap_length]; exact hn)).trans
          (hswap_perm a i (pickChild a i n) (by omega) (by omega))
      · exact List.Perm.refl a
    · exact List.Perm.refl a

/-- `down` does not touch positions at or beyond `n`. -/
theorem downHeap_getD_ge (g : Nat) :
    ∀ (a : List Msg) (i n k : Nat), n - i ≤ g → n ≤ k →
      (downHeap a i n).getD k mdef = a.getD k mdef := by
  induction g with
  | zero =>
    intro a i n k hg hk
    rw [downHeap, dif_neg (by omega)]
  | succ g ih =>
    intro a i n k hg hk
    rw [downHeap]
    split
    · split
      · rename_i h hl
        have hpc : pickChild a i n < n := by
          simp only [pickChild]; split <;> omega
        have hipc : i < pickChild a i n := by
          simp only [pickChild]; split <;> omega
        rw [ih _ _ n k (by omega) hk,
          hswap_getD_other a i (pickChild a i n) k (by omega) (by omega)]
      · rfl
    · rfl

/-- Non-strict companion of `Less`: `msgLE x y` holds when `x` need not
come after `y` (i.e. `Less y x` is false). -/
def msgLE (x y : Msg) : Prop :=
  msgLess y x = false

/-- Characterisation of `Less`. -/
theorem msgLess_iff (l r : Msg) :
    msgLess l r = true ↔
      r.priority < l.priority ∨
        (l.priority = r.priority ∧ l.timestamp < r.timestamp) := by
  unfold msgLess
  by_cases h : l.priority = r.priority <;> simp [h] <;> omega

/-- Characterisation of `msgLE`: descending priority with ties broken by
ascending timestamp. -/
theorem msgLE_iff (x y : Msg) :
    msgLE x y ↔
      y.priority < x.priority ∨
        (x.priority = y.priority ∧ x.timestamp ≤ y.timestamp) := by
  unfold msgLE
  rw [← Bool.not_eq_true, msgLess_iff]
  constructor
  · intro h
    by_cases hp : x.priority = y.priority
    · refine Or.inr ⟨hp, ?_⟩
      by_contra hts
      exact h (Or.inr ⟨hp.symm, by omega⟩)
    · refine Or.inl ?_
      by_contra hlt
      exact h (Or.inl (by omega))
  · intro h hc
    rcases h with h | ⟨h1, h2⟩ <;> rcases hc with hc | ⟨hc1, hc2⟩ <;> omega

/-- `msgLE` is reflexive. -/
theorem msgLE_refl (x : Msg) : msgLE x x := by
  rw [msgLE_iff]; omega

/-- `msgLE` is transitive. -/
theorem msgLE_trans (x y z : Msg) (h1 : msgLE x y) (h2 : msgLE y z) :
    msgLE x z := by
  rw [msgLE_iff] at h1 h2 ⊢
  omega

/-- `Less` implies `msgLE` (asymmetry of the strict order). -/
theorem msgLE_of_less (x y : Msg) (h : msgLess x y = true) : msgLE x y := by
  rw [msgLess_iff] at h
  rw [msgLE_iff]
  omega

/-- Heap shape on the prefix `[0, n)`: each non-root node is preceded by
its parent. -/
def IsHeapN (a : List Msg) (n : Nat) : Prop :=
  ∀ k, 0 < k → k < n → msgLE (a.getD ((k - 1) / 2) mdef) (a.getD k mdef)

/-- Heap shape on the whole slice. -/
def IsHeap (a : List Msg) : Prop :=
  IsHeapN a a.length

/-- Sift-up correctness: if the slice is a heap except possibly on the
edge into `j`, and every child of `j` is already bounded by `j`'s
parent, then `up` restores the heap shape. -/
theorem upHeap_isHeap (j : Nat) :
    ∀ a : List Msg, j < a.length →
      (∀ k, 0 < k → k < a.length → k ≠ j →
        msgLE (a.getD ((k - 1) / 2) mdef) (a.getD k mdef)) →
      (∀ k, 0 < k → k < a.length → (k - 1) / 2 = j → 0 < j →
        msgLE (a.getD ((j - 1) / 2) mdef) (a.getD k mdef)) →
      IsHeap (upHeap a j) := by
  induction j using Nat.strong_induction_on with
  | _ j ih =>
    intro a hj h1 h2
    rw [upHeap]
    split
    · rename_i h0
      subst h0
      intro k hk0 hklen
      exact h1 k hk0 hklen (by omega)
    · rename_i h0
      split
      · rename_i hless
        set i := (j - 1) / 2 with hi
        have hij : i < j := by omega
        have hilen : i < a.length := by omega
        set b := hswap a i j with hb
        have hblen : b.length = a.length := hswap_length a i j
        have hbi : b.getD i mdef = a.getD j mdef :=
          hswap_getD_fst a i j hilen (by omega)
        have hbj : b.getD j mdef = a.getD i mdef :=
          hswap_getD_snd a i j hj
        have hbo : ∀ k, k ≠ i → k ≠ j → b.getD k mdef = a.getD k mdef :=
          fun k hk1 hk2 => hswap_getD_other a i j k hk1 hk2
        refine ih i hij b (by omega) ?_ ?_
        · intro k hk0 hklen hki
          by_cases hkj : k = j
          · subst hkj
            have hpar : (k - 1) / 2 = i := hi.symm
            rw [hpar, hbi, hbj]
            exact msgLE_of_less _ _ hless
          · have hbk : b.getD k mdef = a.getD k mdef := hbo k hki hkj
            by_cases hpi : (k - 1) / 2 = i
            · rw [hpi, hbi, hbk]
              refine msgLE_trans _ (a.getD i mdef) _
                (msgLE_of_less _ _ hless) ?_
              have := h1 k hk0 (by omega) hkj
              rwa [hpi] at this
            · by_cases hpj : (k - 1) / 2 = j
              · rw [hpj, hbj, hbk]
                exact h2 k hk0 (by omega) hpj (by omega)
              · rw [hbo ((k - 1) / 2) hpi hpj, hbk]
                exact h1 k hk0 (by omega) hkj
        · intro k hk0 hklen hki hipos
          have hpi : (i - 1) / 2 < i := by omega
          have hpine : (i - 1) / 2 ≠ i := by omega
          have hpinj : (i - 1) / 2 ≠ j := by omega
          rw [hbo ((i - 1) / 2) hpine hpinj]
          have hroot : msgLE (a.getD ((i - 1) / 2) mdef) (a.getD i mdef) :=
            h1 i hipos hilen (by omega)
          by_cases hkj : k = j
          · subst hkj
            rw [hbj]
            exact hroot
          · have hkne : k ≠ i := by omega
            rw [hbo k hkne hkj]
            refine msgLE_trans _ (a.getD i mdef) _ hroot ?_
            have := h1 k hk0 (by omega) hkj
            rwa [hki] at this
      · rename_i hless
        intro k hk0 hklen
        by_cases hkj : k = j
        · subst hkj
          unfold msgLE
          exact Bool.eq_false_iff.mpr hless
        · exact h1 k hk0 hklen hkj

/-- Properties of the selected child: it is a child in range, preceded by
no sibling. -/
theorem pickChild_spec (a : List Msg) (i n : Nat) (h : 2 * i + 1 < n) :
    (pickChild a i n = 2 * i + 1 ∨ pickChild a i n = 2 * i + 2) ∧
    pickChild a i n < n ∧
    msgLE (a.getD (pickChild a i n) mdef) (a.getD (2 * i + 1) mdef) ∧
    (2 * i + 2 < n →
      msgLE (a.getD (pickChild a i n) mdef) (a.getD (2 * i + 2) mdef)) := by
  unfold pickChild
  split
  · rename_i hcond
    exact ⟨Or.inr rfl, by omega, msgLE_of_less _ _ hcond.2,
      fun _ => msgLE_refl _⟩
  · rename_i hcond
    refine ⟨Or.inl rfl, by omega, msgLE_refl _, ?_⟩
    intro h2
    unfold msgLE
    rcases Bool.eq_false_or_eq_true
        (msgLess (a.getD (2 * i + 2) mdef) (a.getD (2 * i + 1) mdef)) with ht | hf
    · exact absurd ⟨h2, ht⟩ hcond
    · exact hf

/-- Sift-down correctness: if the prefix `[0, n)` is a heap except
possibly on the edges out of `i`, and every child of `i` is bounded by
`i`'s parent, then `down` restores the heap shape on the prefix. -/
theorem downHeap_isHeapN (g : Nat) :
    ∀ (a : List Msg) (i n : Nat), n - i ≤ g → n ≤ a.length →
      (∀ k, 0 < k → k < n → (k - 1) / 2 ≠ i →
        msgLE (a.getD ((k - 1) / 2) mdef) (a.getD k mdef)) →
      (∀ k, 0 < k → k < n → (k - 1) / 2 = i → 0 < i →
        msgLE (a.getD ((i - 1) / 2) mdef) (a.getD k mdef)) →
      IsHeapN (downHeap a i n) n := by
  induction g with
  | zero =>
    intro a i n hg hn h1 h2
    rw [downHeap, dif_neg (by omega)]
    intro k hk0 hkn
    refine h1 k hk0 hkn (by omega)
  | succ g ih =>
    intro a i n hg hn h1 h2
    rw [downHeap]
    split
    · rename_i hcn
      obtain ⟨hje, hjn, hle1, hle2⟩ := pickChild_spec a i n hcn
      set j := pickChild a i n with hjdef
      have hij : i < j := by omega
      have hjlen : j < a.length := by omega
      have hilen : i < a.length := by omega
      have hparj : (j - 1) / 2 = i := by omega
      split
      · rename_i hless
        have hbi : (hswap a i j).getD i mdef = a.getD j mdef :=
          hswap_getD_fst a i j hilen (by omega)
        have hbj : (hswap a i j).getD j mdef = a.getD i mdef :=
          hswap_getD_snd a i j hjlen
        have hbo : ∀ k, k ≠ i → k ≠ j →
            (hswap a i j).getD k mdef = a.getD k mdef :=
          fun k hk1 hk2 => hswap_getD_other a i j k hk1 hk2
        refine ih (hswap a i j) j n (by omega) (by rw [hswap_length]; omega) ?_ ?_
        · intro k hk0 hkn hpk
          by_cases hkj : k = j
          · subst hkj
            rw [hparj, hbi, hbj]
            exact msgLE_of_less _ _ hless
          · by_cases hki : k = i
            · subst hki
              have hpi : (k - 1) / 2 < k := by omega
              have hpine : (k - 1) / 2 ≠ k := by omega
              have hpinj : (k - 1) / 2 ≠ j := by omega
              rw [hbo ((k - 1) / 2) hpine hpinj, hbi]
              exact h2 j (by omega) (by omega) hparj (by omega)
            · have hbk : (hswap a i j).getD k mdef = a.getD k mdef :=
                hbo k hki hkj
              by_cases hpi : (k - 1) / 2 = i
              · have hk12 : k = 2 * i + 1 ∨ k = 2 * i + 2 := by omega
                rw [hpi, hbi, hbk]
                rcases hk12 with rfl | rfl
                · exact hle1
                · exact hle2 (by omega)
              · rw [hbo ((k - 1) / 2) hpi hpk, hbk]
                exact h1 k hk0 hkn hpi
        · intro k hk0 hkn hpk hj0
          have hkj : k ≠ j := by omega
          have hki : k ≠ i := by omega
          rw [hparj, hbi, hbo k hki hkj]
          have := h1 k hk0 hkn (by omega)
          rwa [hpk] at this
      · rename_i hless
        intro k hk0 hkn
        by_cases hpk : (k - 1) / 2 = i
        · have hk12 : k = 2 * i + 1 ∨ k = 2 * i + 2 := by omega
          have hij2 : msgLE (a.getD i mdef) (a.getD j mdef) := by
            unfold msgLE
            exact Bool.eq_false_iff.mpr hless
          rw [hpk]
          rcases hk12 with rfl | rfl
          · exact msgLE_trans _ _ _ hij2 hle1
          · exact msgLE_trans _ _ _ hij2 (hle2 (by omega))
        · exact h1 k hk0 hkn hpk
    · intro k hk0 hkn
      refine h1 k hk0 hkn (by omega)

/-- Reading the untouched prefix of an append. -/
theorem getD_append_left (a : List Msg) (m : Msg) (k : Nat) (h : k < a.length) :
    (a ++ [m]).getD k mdef = a.getD k mdef := by
  simp [List.getD, List.getElem?_append, h]

/-- Reading an interior index survives `dropLast`. -/
theorem getD_dropLast (l : List Msg) (k : Nat) (h : k + 1 < l.length) :
    l.dropLast.getD k mdef = l.getD k mdef := by
  rw [List.dropLast_eq_take]
  have h1 : k < (l.take (l.length - 1)).length := by
    simp only [List.length_take]
    omega
  rw [List.getD_eq_getElem _ mdef h1, List.getD_eq_getElem _ mdef (by omega)]
  simp [List.getElem_take]

/-- `Push` preserves the heap shape. -/
theorem heapPush_isHeap (a : List Msg) (m : Msg) (h : IsHeap a) :
    IsHeap (heapPush a m) := by
  unfold heapPush
  refine upHeap_isHeap a.length (a ++ [m]) (by simp) ?_ ?_
  · intro k hk0 hklen hkj
    have hklt : k < a.length := by
      simp only [List.length_append, List.length_singleton] at hklen
      omega
    have hplt : (k - 1) / 2 < a.length := by omega
    rw [getD_append_left _ _ _ hklt, getD_append_left _ _ _ hplt]
    exact h k hk0 hklt
  · intro k hk0 hklen hpar hj0
    simp only [List.length_append, List.length_singleton] at hklen
    omega

/-- `Push` appends, up to permutation. -/
theorem heapPush_perm (a : List Msg) (m : Msg) :
    (heapPush a m).Perm (a ++ [m]) := by
  unfold heapPush
  exact upHeap_perm a.length (a ++ [m]) (by simp)

/-- `Pop` shortens by one. -/
theorem heapPop_length (a : List Msg) : (heapPop a).length = a.length - 1 := by
  unfold heapPop
  rw [List.length_dropLast,
    downHeap_length a.length (hswap a 0 (a.length - 1)) 0 (a.length - 1) (by omega),
    hswap_length]

/-- `Pop` preserves the heap shape. -/
theorem heapPop_isHeap (a : List Msg) (h : IsHeap a) : IsHeap (heapPop a) := by
  rcases List.eq_nil_or_concat a with rfl | ⟨_, _, hne⟩
  · unfold heapPop hswap downHeap
    simp
    intro k hk0 hk
    simp at hk
  · have hane : a ≠ [] := by simp [hne]
    have hpos : 0 < a.length := List.length_pos.mpr hane
    have hd : IsHeapN (downHeap (hswap a 0 (a.length - 1)) 0 (a.length - 1))
        (a.length - 1) := by
      refine downHeap_isHeapN (a.length - 1) _ 0 (a.length - 1) (by omega)
        (by rw [hswap_length]; omega) ?_ ?_
      · intro k hk0 hkn hpk
        rw [hswap_getD_other a 0 (a.length - 1) k (by omega) (by omega),
          hswap_getD_other a 0 (a.length - 1) ((k - 1) / 2) (by omega) (by omega)]
        exact h k hk0 (by omega)
      · intro k hk0 hkn hpk hfalse
        omega
    have hlen : (downHeap (hswap a 0 (a.length - 1)) 0 (a.length - 1)).length =
        a.length := by
      rw [downHeap_length a.length _ 0 (a.length - 1) (by omega), hswap_length]
    intro k hk0 hk
    rw [heapPop_length] at hk
    have e1 : (heapPop a).getD k mdef =
        (downHeap (hswap a 0 (a.length - 1)) 0 (a.length - 1)).getD k mdef := by
      unfold heapPop
      exact getD_dropLast _ _ (by rw [hlen]; omega)
    have e2 : (heapPop a).getD ((k - 1) / 2) mdef =
        (downHeap (hswap a 0 (a.length - 1)) 0 (a.length - 1)).getD ((k - 1) / 2)
          mdef := by
      unfold heapPop
      exact getD_dropLast _ _ (by rw [hlen]; omega)
    rw [e1, e2]
    exact hd k hk0 hk

/-- `Pop` removes exactly the root, up to permutation. -/
theorem heapPop_cons_perm (a : List Msg) (ha : a ≠ []) :
    (a.getD 0 mdef :: heapPop a).Perm a := by
  have hpos : 0 < a.length := List.length_pos.mpr ha
  set c := downHeap (hswap a 0 (a.length - 1)) 0 (a.length - 1) with hc
  have hclen : c.length = a.length := by
    rw [hc, downHeap_length a.length _ 0 (a.length - 1) (by omega), hswap_length]
  have hcperm : c.Perm a := by
    refine (downHeap_perm a.length _ 0 (a.length - 1) (by omega)
      (by rw [hswap_length]; omega)).trans ?_
    exact hswap_perm a 0 (a.length - 1) (by omega) (by omega)
  have hlast : c.getD (a.length - 1) mdef = a.getD 0 mdef := by
    rw [hc, downHeap_getD_ge a.length _ 0 (a.length - 1) (a.length - 1)
      (by omega) (by omega)]
    exact hswap_getD_snd a 0 (a.length - 1) (by omega)
  have hcne : c ≠ [] := by
    intro hnil
    rw [hnil] at hclen
    simp at hclen
    omega
  have hsplit : c.dropLast ++ [a.getD 0 mdef] = c := by
    rw [← hlast]
    have hgl : c.getD (a.length - 1) mdef = c.getLast hcne := by
      rw [List.getLast_eq_getElem, List.getD_eq_getElem c mdef (by omega)]
      congr 1
      omega
    rw [hgl]
    exact List.dropLast_append_getLast hcne
  have hstep : (a.getD 0 mdef :: c.dropLast).Perm c := by
    have hps := (List.perm_append_singleton (a.getD 0 mdef) c.dropLast).symm
    rw [hsplit] at hps
    exact hps
  have hgoal : heapPop a = c.dropLast := by
    unfold heapPop
    rw [← hc]
  rw [hgoal]
  exact hstep.trans hcperm

/-- The root of a heap precedes every element. -/
theorem isHeap_root_min (a : List Msg) (h : IsHeap a) :
    ∀ k, k < a.length → msgLE (a.getD 0 mdef) (a.getD k mdef) := by
  intro k
  induction k using Nat.strong_induction_on with
  | _ k ih =>
    intro hk
    rcases Nat.eq_zero_or_pos k with rfl | hk0
    · exact msgLE_refl _
    · exact msgLE_trans _ _ _ (ih ((k - 1) / 2) (by omega) (by omega))
        (h k hk0 hk)

/-- Element form of root minimality. -/
theorem isHeap_root_min_mem (a : List Msg) (h : IsHeap a) :
    ∀ y ∈ a, msgLE (a.getD 0 mdef) y := by
  intro y hy
  obtain ⟨i, hi, rfl⟩ := List.mem_iff_getElem.mp hy
  rw [← List.getD_eq_getElem a mdef hi]
  exact isHeap_root_min a h i hi

/-- `pqHandler` drain loop: `Peek` (the slice head) then `Remove`, until
the store is empty. -/
def pqDrain (a : List Msg) : List Msg :=
  if h : a = [] then [] else a.getD 0 mdef :: pqDrain (heapPop a)
  termination_by a.length
  decreasing_by
    rw [heapPop_length]
    have := List.length_pos.mpr h
    omega

/-- Building the store by successive `Add` yields a heap holding exactly
the added messages. -/
theorem pqAddAll_isHeap_perm (msgs : List Msg) :
    IsHeap (pqAddAll msgs) ∧ (pqAddAll msgs).Perm msgs := by
  suffices h : ∀ ms acc : List Msg, IsHeap acc →
      IsHeap (ms.foldl heapPush acc) ∧
      (ms.foldl heapPush acc).Perm (acc ++ ms) by
    have hnil : IsHeap ([] : List Msg) := by
      intro k hk0 hk
      simp at hk
    simpa [pqAddAll] using h msgs [] hnil
  intro ms
  induction ms with
  | nil =>
    intro acc hacc
    constructor
    · simpa using hacc
    · simpa using List.Perm.refl acc
  | cons m ms ih =>
    intro acc hacc
    obtain ⟨h1, h2⟩ := ih (heapPush acc m) (heapPush_isHeap acc m hacc)
    refine ⟨h1, ?_⟩
    rw [List.foldl_cons]
    refine h2.trans ?_
    refine (List.Perm.append_right ms (heapPush_perm acc m)).trans ?_
    rw [List.append_assoc]
    exact List.Perm.refl _

/-- Draining a heap yields its elements in `msgLE` order. -/
theorem pqDrain_spec (g : Nat) :
    ∀ a : List Msg, a.length ≤ g → IsHeap a →
      (pqDrain a).Perm a ∧ (pqDrain a).Sorted msgLE := by
  induction g with
  | zero =>
    intro a hg _
    have : a = [] := List.length_eq_zero.mp (by omega)
    subst this
    rw [pqDrain]
    simp
  | succ g ih =>
    intro a hg hh
    rw [pqDrain]
    split
    · rename_i ha
      subst ha
      simp
    · rename_i ha
      have hpos : 0 < a.length := List.length_pos.mpr ha
      obtain ⟨hperm, hsort⟩ := ih (heapPop a)
        (by rw [heapPop_length]; omega) (heapPop_isHeap a hh)
      have hcons : (a.getD 0 mdef :: heapPop a).Perm a := heapPop_cons_perm a ha
      constructor
      · exact (hperm.cons _).trans hcons
      · rw [List.sorted_cons]
        refine ⟨?_, hsort⟩
        intro y hy
        have hyp : y ∈ heapPop a := hperm.mem_iff.mp hy
        have hya : y ∈ a := hcons.mem_iff.mp (List.mem_cons_of_mem _ hyp)
        exact isHeap_root_min_mem a hh y hya

/-- C7: the priority-ordered store dequeues in descending priority
order, ties broken by ascending timestamp; in particular priorities
`[3,1,2]` drain as `3,2,1`, and two equal-priority messages drain in
ascending timestamp order. -/
theorem priority_store_ordering :
    (∀ msgs : List Msg,
      (pqDrain (pqAddAll msgs)).Perm msgs ∧
      (pqDrain (pqAddAll msgs)).Sorted (fun x y =>
        y.priority < x.priority ∨
          (x.priority = y.priority ∧ x.timestamp ≤ y.timestamp))) ∧
    (pqDrain (pqAddAll [⟨[], [], 3, 0, []⟩, ⟨[], [], 1, 1, []⟩,
        ⟨[], [], 2, 2, []⟩])).map Msg.priority = [3, 2, 1] ∧
    (pqDrain (pqAddAll [⟨[], [], 5, 11, [1]⟩, ⟨[], [], 5, 7, [2]⟩])).map
        Msg.timestamp = [7, 11] := by
  refine ⟨?_, ?_, ?_⟩
  · intro msgs
    obtain ⟨hheap, hperm⟩ := pqAddAll_isHeap_perm msgs
    obtain ⟨hp, hs⟩ := pqDrain_spec (pqAddAll msgs).length _ (le_refl _) hheap
    refine ⟨hp.trans hperm, ?_⟩
    refine hs.imp ?_
    intro x y hxy
    exact (msgLE_iff x y).mp hxy
  · simp [pqDrain, pqAddAll, heapPush, upHeap, heapPop, downHeap, pickChild,
      hswap, msgLess, mdef]
  · simp [pqDrain, pqAddAll, heapPush, upHeap, heapPop, downHeap, pickChild,
      hswap, msgLess, mdef]

/-! ## Topic matcher (`matcher/matchers.go`)

`topicMatchFunc` translates the binding key into a regular expression by
string replacement and matches the routing key against it.  Character
codes: `.` 46, `*` 42, `#` 35, `\` 92, `[` 91, `]` 93, `(` 40, `)` 41,
`|` 124, `+` 43, `?` 63, `0`-`9` 48-57, `A`-`z` 65-122. -/

/-- Embedding of Go `strings.Replace(s, old, new, -1)`: replace all
non-overlapping occurrences left to right, resuming after each
replacement.  (Go's special behaviour for an empty `old` is never used
by the matcher; the empty pattern leaves the string unchanged here.) -/
def replaceAll (pat rep : List Nat) : List Nat → List Nat
  | [] => []
  | c :: s =>
    if pat ≠ [] ∧ pat.isPrefixOf (c :: s) then
      rep ++ replaceAll pat rep ((c :: s).drop pat.length)
    else c :: replaceAll pat rep s
  termination_by s => s.length
  decreasing_by
    · simp only [List.length_drop]
      rename_i h
      have : pat.length ≠ 0 := fun hh => h.1 (List.length_eq_zero.mp hh)
      simp only [List.length_cons]
      omega
    · simp

/-- Embedding of the pattern construction in `topicMatchFunc`: the six
`strings.Replace` passes.  (The compiled-pattern cache is behavioural
detail only: a cached pattern equals the freshly compiled one.) -/
def topicPattern (bk : List Nat) : List Nat :=
  replaceAll [35] [91, 48, 45, 57, 65, 45, 122, 92, 46, 93, 42]
    (replaceAll [35, 92, 46]
      [40, 91, 48, 45, 57, 65, 45, 122, 92, 46, 93, 42, 92, 46, 41, 63]
      (replaceAll [92, 46, 35]
        [40, 92, 46, 91, 48, 45, 57, 65, 45, 122, 92, 46, 93, 42, 41, 63]
        (replaceAll [92, 46, 35, 92, 46]
          [40, 92, 46, 124, 92, 46, 91, 48, 45, 57, 65, 45, 122, 92, 46, 93,
            42, 92, 46, 41]
          (replaceAll [42] [91, 48, 45, 57, 65, 45, 122, 93, 43]
            (replaceAll [46] [92, 46] bk)))))

/-- Character codes accepted by the class `[0-9A-z]`. -/
def segClassChars : List Nat :=
  List.range' 48 10 ++ List.range' 65 58

/-- Character codes accepted by the class `[0-9A-z\.]`. -/
def segDotChars : List Nat :=
  segClassChars ++ [46]

/-- Union of single-character regular expressions. -/
def classRe (cs : List Nat) : RegularExpression Nat :=
  cs.foldr (fun c r => RegularExpression.char c + r) 0

/-- The class `[0-9A-z]`. -/
def segCls : RegularExpression Nat := classRe segClassChars

/-- The class `[0-9A-z\.]`. -/
def segDotCls : RegularExpression Nat := classRe segDotChars

/-- Regex of the group `(\.|\.[0-9A-z\.]*\.)`. -/
def GRe : RegularExpression Nat :=
  RegularExpression.char 46 +
    RegularExpression.char 46 * (segDotCls.star * RegularExpression.char 46)

/-- Regex of the optional group `(\.[0-9A-z\.]*)?`. -/
def optEndRe : RegularExpression Nat :=
  1 + RegularExpression.char 46 * segDotCls.star

/-- Regex of the optional group `([0-9A-z\.]*\.)?`. -/
def optStartRe : RegularExpression Nat :=
  1 + segDotCls.star * RegularExpression.char 46

/-- Regex of `[0-9A-z]+`. -/
def plusRe : RegularExpression Nat :=
  segCls * segCls.star

/-- Parser for exactly the regex dialect that `topicPattern` emits:
escaped dots, the two character classes with their quantifiers, the
alternation group and the two optional groups produced by the `#`
rewrites, and literal characters.  Anything else (which
`regexp.MustCompile` may reject or interpret differently) parses to
`none` and `topicMatchFunc` then reports no match. -/
def parseSeq : List Nat → Option (RegularExpression Nat)
  | [] => some 1
  | 40 :: 92 :: 46 :: 124 :: 92 :: 46 :: 91 :: 48 :: 45 :: 57 :: 65 :: 45 ::
      122 :: 92 :: 46 :: 93 :: 42 :: 92 :: 46 :: 41 :: rest =>
    (fun r => GRe * r) <$> parseSeq rest
  | 40 :: 92 :: 46 :: 91 :: 48 :: 45 :: 57 :: 65 :: 45 :: 122 :: 92 :: 46 ::
      93 :: 42 :: 41 :: 63 :: rest =>
    (fun r => optEndRe * r) <$> parseSeq rest
  | 40 :: 91 :: 48 :: 45 :: 57 :: 65 :: 45 :: 122 :: 92 :: 46 :: 93 :: 42 ::
      92 :: 46 :: 41 :: 63 :: rest =>
    (fun r => optStartRe * r) <$> parseSeq rest
  | 91 :: 48 :: 45 :: 57 :: 65 :: 45 :: 122 :: 93 :: 43 :: rest =>
    (fun r => plusRe * r) <$> parseSeq rest
  | 91 :: 48 :: 45 :: 57 :: 65 :: 45 :: 122 :: 92 :: 46 :: 93 :: 42 :: rest =>
    (fun r => segDotCls.star * r) <$> parseSeq rest
  | 92 :: 46 :: rest =>
    (fun r => RegularExpression.char 46 * r) <$> parseSeq rest
  | c :: rest =>
    if c = 40 ∨ c = 41 ∨ c = 91 ∨ c = 93 ∨ c = 92 ∨ c = 124 ∨ c = 42 ∨
        c = 43 ∨ c = 63 ∨ c = 46 ∨ c = 35 ∨ c = 94 ∨ c = 36 then none
    else (fun r => RegularExpression.char c * r) <$> parseSeq rest

/-- Embedding of `topicMatchFunc` on key strings: build the pattern,
compile it, and match the routing key against the whole string (Go
anchors the pattern with `^...$`). -/
def topicMatch (bk rk : List Nat) : Bool :=
  match parseSeq (topicPattern bk) with
  | some r => r.rmatch rk
  | none => false

/-- Embedding of `directMatchFunc`: exact key equality. -/
def directMatchFunc (m : Msg) (b : BindingV) : Bool :=
  m.routingKey == b.key

/-- Embedding of `fanoutMatchFunc`: always true. -/
def fanoutMatchFunc (_ : Msg) (_ : BindingV) : Bool :=
  true

/-- Embedding of `topicMatchFunc` at the `Matcher` interface. -/
def topicMatchFunc (m : Msg) (b : BindingV) : Bool :=
  topicMatch b.key m.routingKey

/-! Specification side of C5: `.`-separated segment matching. -/

/-- Binding-key tokens as the claim describes them. -/
inductive Tok
  | star
  | hash
  | lit (s : List Nat)
  deriving DecidableEq, Repr

/-- Specification topic matching, following the claim's words: `*`
matches exactly one non-empty segment at its position, `#` matches zero
or more whole segments, any other token matches that literal segment
exactly. -/
def specTopicMatch : List Tok → List (List Nat) → Bool
  | [], [] => true
  | [], _ :: _ => false
  | .lit _ :: _, [] => false
  | .star :: _, [] => false
  | .hash :: toks, [] => specTopicMatch toks []
  | .lit t :: toks, s :: segs => t == s && specTopicMatch toks segs
  | .star :: toks, s :: segs => !(s == []) && specTopicMatch toks segs
  | .hash :: toks, s :: segs =>
    specTopicMatch toks (s :: segs) || specTopicMatch (.hash :: toks) segs
  termination_by toks segs => (toks.length, segs.length)

/-- String of one token. -/
def tokStr : Tok → List Nat
  | .star => [42]
  | .hash => [35]
  | .lit s => s

/-- The binding key denoted by a token list (`.`-joined). -/
def key (toks : List Tok) : List Nat :=
  List.intercalate [46] (toks.map tokStr)

/-- The routing key denoted by a segment list (`.`-joined). -/
def rkey (segs : List (List Nat)) : List Nat :=
  List.intercalate [46] segs

/-- Strictly alphanumeric character codes (0-9, A-Z, a-z). -/
def alnum (c : Nat) : Bool :=
  (48 ≤ c && c ≤ 57) || (65 ≤ c && c ≤ 90) || (97 ≤ c && c ≤ 122)

/-- An alphanumeric (possibly empty) segment. -/
def goodSeg (s : List Nat) : Prop :=
  ∀ c ∈ s, alnum c = true

/-- Alphanumeric literal tokens. -/
def goodTok : Tok → Prop
  | .lit s => goodSeg s
  | _ => True

/-- Restriction under which the translation is faithful: a non-empty
token list, alphanumeric literals, wildcards only as whole tokens (by
construction of `Tok`), and no two adjacent `#` tokens. -/
def goodToks (toks : List Tok) : Prop :=
  toks ≠ [] ∧ (∀ t ∈ toks, goodTok t) ∧
    List.Chain' (fun a b => ¬(a = Tok.hash ∧ b = Tok.hash)) toks

/-- Routing-key side of the restriction: at least one segment, all
alphanumeric. -/
def goodSegs (segs : List (List Nat)) : Prop :=
  segs ≠ [] ∧ ∀ s ∈ segs, goodSeg s

/-- C5 (counterexample to the claim as stated): the binding key `*` and
routing key `a-b` are `.`-delimited segment sequences; under the claimed
rules `*` matches the single non-empty segment `a-b`, but the translated
class `[0-9A-z]+` does not accept `-` (code 45), so the Topic matcher
rejects the pair. -/
theorem topic_counterexample :
    key [Tok.star] = chars "*" ∧
    rkey [chars "a-b"] = chars "a-b" ∧
    specTopicMatch [Tok.star] [chars "a-b"] = true ∧
    topicMatch (chars "*") (chars "a-b") = false := by
  refine ⟨by decide, by decide, by simp [specTopicMatch, chars], ?_⟩
  have hp : topicPattern (chars "*") = [91, 48, 45, 57, 65, 45, 122, 93, 43] := by
    simp [topicPattern, chars, replaceAll]
  unfold topicMatch
  rw [hp]
  decide

/-! Stepping lemmas for `replaceAll`. -/

/-- A non-empty pattern matching at the front is replaced. -/
theorem replaceAll_of_pfx (p : Nat) (ps rep t : List Nat) :
    replaceAll (p :: ps) rep ((p :: ps) ++ t) =
      rep ++ replaceAll (p :: ps) rep t := by
  rw [List.cons_append, replaceAll]
  rw [if_pos ⟨List.cons_ne_nil p ps, List.isPrefixOf_iff_prefix.mpr (List.prefix_append _ _)⟩]
  congr 1
  congr 1
  simp only [List.length_cons, List.drop_succ_cons]
  exact List.drop_left ps t

/-- A position where the pattern does not match is skipped. -/
theorem replaceAll_cons_of_not_pfx (p : Nat) (ps rep : List Nat) (c : Nat)
    (s : List Nat) (h : ¬ (p :: ps).isPrefixOf (c :: s)) :
    replaceAll (p :: ps) rep (c :: s) = c :: replaceAll (p :: ps) rep s := by
  rw [replaceAll, if_neg]
  intro hc
  exact h hc.2

/-- A first-character mismatch is skipped. -/
theorem replaceAll_cons_ne (p : Nat) (ps rep : List Nat) (c : Nat)
    (s : List Nat) (h : c ≠ p) :
    replaceAll (p :: ps) rep (c :: s) = c :: replaceAll (p :: ps) rep s := by
  refine replaceAll_cons_of_not_pfx p ps rep c s ?_
  simp only [List.isPrefixOf, Bool.and_eq_true, beq_iff_eq]
  intro hc
  exact h hc.1.symm

/-- A block containing no occurrence of the pattern head is skipped
wholesale. -/
theorem replaceAll_append_of_ne (p : Nat) (ps rep : List Nat)
    (a : List Nat) (ha : ∀ c ∈ a, c ≠ p) (s : List Nat) :
    replaceAll (p :: ps) rep (a ++ s) = a ++ replaceAll (p :: ps) rep s := by
  induction a with
  | nil => rfl
  | cons c a ih =>
    rw [List.cons_append,
      replaceAll_cons_ne p ps rep c (a ++ s) (ha c (List.mem_cons_self _ _)),
      ih (fun d hd => ha d (List.mem_cons_of_mem _ hd))]
    rfl

/-- A string without the pattern head is left unchanged. -/
theorem replaceAll_of_ne (p : Nat) (ps rep : List Nat) (s : List Nat)
    (hs : ∀ c ∈ s, c ≠ p) :
    replaceAll (p :: ps) rep s = s := by
  have := replaceAll_append_of_ne p ps rep s hs []
  simpa [replaceAll] using this

/-! Stage-by-stage characterisation of the emitted pattern for
restricted binding keys. -/

/-- Token encoding after the `*` pass. -/
def encTok2 : Tok → List Nat
  | .star => [91, 48, 45, 57, 65, 45, 122, 93, 43]
  | .hash => [35]
  | .lit s => s

/-- The group `(\.|\.[0-9A-z\.]*\.)` as a string. -/
def gStr : List Nat :=
  [40, 92, 46, 124, 92, 46, 91, 48, 45, 57, 65, 45, 122, 92, 46, 93, 42, 92,
    46, 41]

/-- The optional group `(\.[0-9A-z\.]*)?` as a string. -/
def optEndStr : List Nat :=
  [40, 92, 46, 91, 48, 45, 57, 65, 45, 122, 92, 46, 93, 42, 41, 63]

/-- The optional group `([0-9A-z\.]*\.)?` as a string. -/
def optStartStr : List Nat :=
  [40, 91, 48, 45, 57, 65, 45, 122, 92, 46, 93, 42, 92, 46, 41, 63]

/-- The class-star `[0-9A-z\.]*` as a string. -/
def sdStarStr : List Nat :=
  [91, 48, 45, 57, 65, 45, 122, 92, 46, 93, 42]

/-- Pattern after pass 1 (`.` escaped), tail with leading separator. -/
def escRest : List Tok → List Nat
  | [] => []
  | t :: rest => [92, 46] ++ tokStr t ++ escRest rest

/-- Pattern after pass 1. -/
def escKey : List Tok → List Nat
  | [] => []
  | t :: rest => tokStr t ++ escRest rest

/-- Pattern after pass 2 (`*` classed), tail. -/
def emit2Rest : List Tok → List Nat
  | [] => []
  | t :: rest => [92, 46] ++ encTok2 t ++ emit2Rest rest

/-- Pattern after pass 2. -/
def emit2 : List Tok → List Nat
  | [] => []
  | t :: rest => encTok2 t ++ emit2Rest rest

/-- Pattern after pass 3 (interior `\.#\.` grouped), tail. -/
def emit3Rest : List Tok → List Nat
  | [] => []
  | [.hash] => [92, 46, 35]
  | .hash :: t :: rest => gStr ++ encTok2 t ++ emit3Rest rest
  | t :: rest => [92, 46] ++ encTok2 t ++ emit3Rest rest

/-- Pattern after pass 3. -/
def emit3 : List Tok → List Nat
  | [] => []
  | t :: rest => encTok2 t ++ emit3Rest rest

/-- Pattern after pass 4 (trailing `\.#` optioned), tail; also the tail
of the final pattern. -/
def emitRest : List Tok → List Nat
  | [] => []
  | [.hash] => optEndStr
  | .hash :: t :: rest => gStr ++ encTok2 t ++ emitRest rest
  | t :: rest => [92, 46] ++ encTok2 t ++ emitRest rest

/-- Pattern after pass 4. -/
def emit4 : List Tok → List Nat
  | [] => []
  | t :: rest => encTok2 t ++ emitRest rest

/-- Pattern after pass 5 (leading `#\.` optioned). -/
def emit5 : List Tok → List Nat
  | [] => []
  | [.hash] => [35]
  | .hash :: t :: rest => optStartStr ++ encTok2 t ++ emitRest rest
  | t :: rest => encTok2 t ++ emitRest rest

/-- Final pattern (after pass 6, bare `#` classed). -/
def emit : List Tok → List Nat
  | [] => []
  | [.hash] => sdStarStr
  | .hash :: t :: rest => optStartStr ++ encTok2 t ++ emitRest rest
  | t :: rest => encTok2 t ++ emitRest rest

/-- Numeric characterisation of `alnum`. -/
theorem alnum_iff (c : Nat) :
    alnum c = true ↔
      (48 ≤ c ∧ c ≤ 57) ∨ (65 ≤ c ∧ c ≤ 90) ∨ (97 ≤ c ∧ c ≤ 122) := by
  simp only [alnum, Bool.or_eq_true, Bool.and_eq_true, decide_eq_true_eq]
  tauto

/-- Alphanumeric characters are none of the metacharacters. -/
theorem alnum_ne (c : Nat) (h : alnum c = true) :
    c ≠ 46 ∧ c ≠ 42 ∧ c ≠ 35 ∧ c ≠ 92 ∧ c ≠ 91 := by
  rw [alnum_iff] at h
  omega

/-- `tokStr` never contains a dot. -/
theorem tokStr_no46 (t : Tok) (h : goodTok t) : ∀ c ∈ tokStr t, c ≠ 46 := by
  match t with
  | .star => intro c hc; simp [tokStr] at hc; omega
  | .hash => intro c hc; simp [tokStr] at hc; omega
  | .lit s =>
    intro c hc
    exact (alnum_ne c (h c hc)).1

/-- `encTok2` never contains a backslash. -/
theorem encTok2_no92 (t : Tok) (h : goodTok t) : ∀ c ∈ encTok2 t, c ≠ 92 := by
  match t with
  | .star => intro c hc; simp [encTok2] at hc; omega
  | .hash => intro c hc; simp [encTok2] at hc; omega
  | .lit s =>
    intro c hc
    exact (alnum_ne c (h c hc)).2.2.2.1

/-- `encTok2` of a non-`#` token never contains a hash mark. -/
theorem encTok2_no35 (t : Tok) (ht : t ≠ Tok.hash) (h : goodTok t) :
    ∀ c ∈ encTok2 t, c ≠ 35 := by
  match t with
  | .star => intro c hc; simp [encTok2] at hc; omega
  | .hash => exact absurd rfl ht
  | .lit s =>
    intro c hc
    exact (alnum_ne c (h c hc)).2.2.1

theorem replaceAll_nil (pat rep : List Nat) : replaceAll pat rep [] = [] := by
  simp [replaceAll]

theorem key_single (t : Tok) : key [t] = tokStr t := by
  simp [key, List.intercalate]

theorem key_cons_cons (t t' : Tok) (rest : List Tok) :
    key (t :: t' :: rest) = tokStr t ++ 46 :: key (t' :: rest) := by
  simp [key, List.intercalate, List.intersperse]

/-- `tokStr` of a non-`*` token never contains a star. -/
theorem tokStr_no42 (t : Tok) (ht : t ≠ Tok.star) (h : goodTok t) :
    ∀ c ∈ tokStr t, c ≠ 42 := by
  match t with
  | .star => exact absurd rfl ht
  | .hash => intro c hc; simp [tokStr] at hc; omega
  | .lit s =>
    intro c hc
    exact (alnum_ne c (h c hc)).2.1

theorem escRest_cons (t : Tok) (rest : List Tok) :
    escRest (t :: rest) = [92, 46] ++ escKey (t :: rest) := by
  simp [escRest, escKey]

theorem emit2Rest_cons (t : Tok) (rest : List Tok) :
    emit2Rest (t :: rest) = [92, 46] ++ emit2 (t :: rest) := by
  simp [emit2Rest, emit2]

/-- Pass 1 (`strings.Replace(key, ".", "\.", -1)`) on a restricted key. -/
theorem topicPass1 (toks : List Tok) (h : ∀ t ∈ toks, goodTok t) :
    replaceAll [46] [92, 46] (key toks) = escKey toks := by
  induction toks with
  | nil => simp [key, List.intercalate, escKey, replaceAll]
  | cons t rest ih =>
    cases rest with
    | nil =>
      rw [key_single, replaceAll_of_ne 46 [] [92, 46] _
        (tokStr_no46 t (h t (by simp)))]
      simp [escKey, escRest]
    | cons t' rest' =>
      rw [key_cons_cons,
        replaceAll_append_of_ne 46 [] [92, 46] (tokStr t)
          (tokStr_no46 t (h t (by simp))) (46 :: key (t' :: rest'))]
      have h46 : replaceAll [46] [92, 46] (46 :: key (t' :: rest')) =
          [92, 46] ++ replaceAll [46] [92, 46] (key (t' :: rest')) := by
        simpa using replaceAll_of_pfx 46 [] [92, 46] (key (t' :: rest'))
      rw [h46, ih (fun u hu => h u (by simp [hu]))]
      simp [escKey, escRest]

/-- Pass 2 (`strings.Replace(·, "*", "[0-9A-z]+", -1)`). -/
theorem topicPass2 (toks : List Tok) (h : ∀ t ∈ toks, goodTok t) :
    replaceAll [42] [91, 48, 45, 57, 65, 45, 122, 93, 43] (escKey toks) =
      emit2 toks := by
  induction toks with
  | nil => simp [escKey, emit2, replaceAll]
  | cons t rest ih =>
    have htail : replaceAll [42] [91, 48, 45, 57, 65, 45, 122, 93, 43]
        (escRest rest) = emit2Rest rest := by
      cases rest with
      | nil => simp [escRest, emit2Rest, replaceAll]
      | cons t' rest' =>
        rw [escRest_cons, emit2Rest_cons,
          replaceAll_append_of_ne 42 [] _ [92, 46] (by decide) _,
          ih (fun u hu => h u (by simp [hu]))]
    match t with
    | .star =>
      have hk : escKey (Tok.star :: rest) = [42] ++ escRest rest := by
        simp [escKey, tokStr]
      rw [hk, replaceAll_of_pfx 42 [] _ (escRest rest), htail]
      simp [emit2, encTok2]
    | .hash =>
      have hk : escKey (Tok.hash :: rest) = tokStr Tok.hash ++ escRest rest :=
        rfl
      rw [hk, replaceAll_append_of_ne 42 [] _ (tokStr Tok.hash)
        (tokStr_no42 Tok.hash (by simp) trivial) _, htail]
      simp [emit2, encTok2, tokStr]
    | .lit s =>
      have hk : escKey (Tok.lit s :: rest) = tokStr (Tok.lit s) ++ escRest rest :=
        rfl
      rw [hk, replaceAll_append_of_ne 42 [] _ (tokStr (Tok.lit s))
        (tokStr_no42 (Tok.lit s) (by simp) (h _ (by simp))) _, htail]
      simp [emit2, encTok2, tokStr]

/-- Scanning `\.#\.` steps over a separator whose successor is not `#`. -/
theorem p3_sep_step (rep : List Nat) (s : List Nat)
    (h : ∀ c, s.head? = some c → c ≠ 35) :
    replaceAll [92, 46, 35, 92, 46] rep (92 :: 46 :: s) =
      92 :: 46 :: replaceAll [92, 46, 35, 92, 46] rep s := by
  have h1 : ¬ ([92, 46, 35, 92, 46] : List Nat).isPrefixOf (92 :: 46 :: s) := by
    cases s with
    | nil => simp [List.isPrefixOf]
    | cons c s' =>
      simp only [List.isPrefixOf, Bool.and_eq_true, beq_iff_eq]
      intro hpre
      exact h c rfl hpre.2.2.1.symm
  rw [replaceAll_cons_of_not_pfx _ _ _ _ _ h1,
    replaceAll_cons_ne _ _ _ _ _ (by omega)]

/-- The first character of an emitted non-`#` token block is never `#`. -/
theorem emit2_head_ne35 (t : Tok) (rest : List Tok) (ht : t ≠ Tok.hash)
    (hg : goodTok t) :
    ∀ c, (emit2 (t :: rest)).head? = some c → c ≠ 35 := by
  match t with
  | .star => intro c hc; simp [emit2, encTok2] at hc; omega
  | .hash => exact absurd rfl ht
  | .lit s =>
    cases s with
    | cons x s' =>
      intro c hc
      simp [emit2, encTok2] at hc
      subst hc
      exact (alnum_ne x (hg x (by simp))).2.2.1
    | nil =>
      cases rest with
      | nil => intro c hc; simp [emit2, encTok2, emit2Rest] at hc
      | cons u r =>
        intro c hc
        simp [emit2, encTok2, emit2Rest] at hc
        omega

theorem emit3Rest_cons_ne (t : Tok) (rest : List Tok) (ht : t ≠ Tok.hash) :
    emit3Rest (t :: rest) = [92, 46] ++ emit3 (t :: rest) := by
  match t with
  | .star => simp [emit3Rest, emit3]
  | .hash => exact absurd rfl ht
  | .lit s => simp [emit3Rest, emit3]

theorem emit3Rest_hash_cons (t : Tok) (rest : List Tok) :
    emit3Rest (Tok.hash :: t :: rest) = gStr ++ emit3 (t :: rest) := by
  simp [emit3Rest, emit3]

/-- One separator-led step of pass 3. -/
theorem topicPass3_step (t t' : Tok) (rest : List Tok)
    (hgt : goodTok t) (hgt' : goodTok t') (ht' : t' ≠ Tok.hash)
    (hrec : replaceAll [92, 46, 35, 92, 46] gStr (emit2 (t' :: rest)) =
      emit3 (t' :: rest)) :
    replaceAll [92, 46, 35, 92, 46] gStr (emit2 (t :: t' :: rest)) =
      emit3 (t :: t' :: rest) := by
  have h2 : emit2 (t :: t' :: rest) =
      encTok2 t ++ (92 :: 46 :: emit2 (t' :: rest)) := by
    simp [emit2, emit2Rest]
  rw [h2, replaceAll_append_of_ne 92 _ _ _ (encTok2_no92 t hgt) _,
    p3_sep_step _ _ (emit2_head_ne35 t' rest ht' hgt'), hrec]
  have h3 : emit3 (t :: t' :: rest) =
      encTok2 t ++ (92 :: 46 :: emit3 (t' :: rest)) := by
    have : emit3 (t :: t' :: rest) = encTok2 t ++ emit3Rest (t' :: rest) := by
      simp [emit3]
    rw [this, emit3Rest_cons_ne t' rest ht']
    simp
  rw [h3]

/-- Pass 3 (`strings.Replace(·, "\.#\.", "(\.|\.[0-9A-z\.]*\.)", -1)`),
fuel-indexed. -/
theorem topicPass3_aux : ∀ (n : Nat) (toks : List Tok), toks.length ≤ n →
    (∀ t ∈ toks, goodTok t) →
    List.Chain' (fun a b => ¬(a = Tok.hash ∧ b = Tok.hash)) toks →
    replaceAll [92, 46, 35, 92, 46] gStr (emit2 toks) = emit3 toks := by
  intro n
  induction n with
  | zero =>
    intro toks hlen _ _
    match toks with
    | [] => simp [emit2, emit3, replaceAll_nil]
    | t :: rest => simp at hlen
  | succ n ih =>
    intro toks hlen hg hch
    match toks with
    | [] => simp [emit2, emit3, replaceAll_nil]
    | [t] =>
      have h2 : emit2 [t] = encTok2 t := by simp [emit2, emit2Rest]
      rw [h2, replaceAll_of_ne 92 _ _ _ (encTok2_no92 t (hg t (by simp)))]
      simp [emit3, emit3Rest]
    | t :: .hash :: [] =>
      have h2 : emit2 (t :: [Tok.hash]) = encTok2 t ++ [92, 46, 35] := by
        simp [emit2, emit2Rest, encTok2]
      rw [h2, replaceAll_append_of_ne 92 _ _ _
        (encTok2_no92 t (hg t (by simp))) _]
      have h35 : replaceAll [92, 46, 35, 92, 46] gStr [92, 46, 35] =
          [92, 46, 35] := by
        simp [replaceAll, List.isPrefixOf]
      rw [h35]
      simp [emit3, emit3Rest]
    | t :: .hash :: t' :: rest =>
      rw [List.chain'_cons, List.chain'_cons] at hch
      have ht' : t' ≠ Tok.hash := fun he => hch.2.1 ⟨rfl, he⟩
      have h2 : emit2 (t :: Tok.hash :: t' :: rest) =
          encTok2 t ++ ([92, 46, 35, 92, 46] ++ emit2 (t' :: rest)) := by
        simp [emit2, emit2Rest, encTok2]
      rw [h2, replaceAll_append_of_ne 92 _ _ _
        (encTok2_no92 t (hg t (by simp))) _,
        replaceAll_of_pfx 92 [46, 35, 92, 46] gStr (emit2 (t' :: rest)),
        ih (t' :: rest) (by simp at hlen ⊢; omega)
          (fun u hu => hg u (by simp at hu ⊢; tauto)) hch.2.2]
      have h3 : emit3 (t :: Tok.hash :: t' :: rest) =
          encTok2 t ++ (gStr ++ emit3 (t' :: rest)) := by
        have : emit3 (t :: Tok.hash :: t' :: rest) =
            encTok2 t ++ emit3Rest (Tok.hash :: t' :: rest) := by
          simp [emit3]
        rw [this, emit3Rest_hash_cons]
      rw [h3]
    | t :: .star :: rest =>
      exact topicPass3_step t .star rest (hg t (by simp)) trivial (by simp)
        (ih (.star :: rest) (by simp at hlen ⊢; omega)
          (fun u hu => hg u (by simp at hu ⊢; tauto))
          (List.chain'_cons.mp hch).2)
    | t :: .lit s :: rest =>
      exact topicPass3_step t (.lit s) rest (hg t (by simp))
        (hg (.lit s) (by simp)) (by simp)
        (ih (.lit s :: rest) (by simp at hlen ⊢; omega)
          (fun u hu => hg u (by simp at hu ⊢; tauto))
          (List.chain'_cons.mp hch).2)

/-- Pass 3 of the pattern construction. -/
theorem topicPass3 (toks : List Tok) (hg : ∀ t ∈ toks, goodTok t)
    (hch : List.Chain' (fun a b => ¬(a = Tok.hash ∧ b = Tok.hash)) toks) :
    replaceAll [92, 46, 35, 92, 46] gStr (emit2 toks) = emit3 toks :=
  topicPass3_aux toks.length toks le_rfl hg hch

/-- Scanning `\.#` steps over a separator whose successor is not `#`. -/
theorem p4_sep_step (rep : List Nat) (s : List Nat)
    (h : ∀ c, s.head? = some c → c ≠ 35) :
    replaceAll [92, 46, 35] rep (92 :: 46 :: s) =
      92 :: 46 :: replaceAll [92, 46, 35] rep s := by
  have h1 : ¬ ([92, 46, 35] : List Nat).isPrefixOf (92 :: 46 :: s) := by
    cases s with
    | nil => simp [List.isPrefixOf]
    | cons c s' =>
      simp only [List.isPrefixOf, Bool.and_eq_true, beq_iff_eq]
      intro hpre
      exact h c rfl hpre.2.2.1.symm
  rw [replaceAll_cons_of_not_pfx _ _ _ _ _ h1,
    replaceAll_cons_ne _ _ _ _ _ (by omega)]

/-- The first character of a pass-3 output block for a non-`#` head is
never `#`. -/
theorem emit3_head_ne35 (t : Tok) (rest : List Tok) (ht : t ≠ Tok.hash)
    (hg : goodTok t) :
    ∀ c, (emit3 (t :: rest)).head? = some c → c ≠ 35 := by
  match t with
  | .star => intro c hc; simp [emit3, encTok2] at hc; omega
  | .hash => exact absurd rfl ht
  | .lit s =>
    cases s with
    | cons x s' =>
      intro c hc
      simp [emit3, encTok2] at hc
      subst hc
      exact (alnum_ne x (hg x (by simp))).2.2.1
    | nil =>
      match rest with
      | [] => intro c hc; simp [emit3, encTok2, emit3Rest] at hc
      | [.hash] =>
        intro c hc; simp [emit3, encTok2, emit3Rest] at hc; omega
      | .hash :: u :: r =>
        intro c hc; simp [emit3, encTok2, emit3Rest, gStr] at hc; omega
      | .star :: r =>
        intro c hc; simp [emit3, encTok2, emit3Rest] at hc; omega
      | .lit s' :: r =>
        intro c hc; simp [emit3, encTok2, emit3Rest] at hc; omega

/-- Pass 4 steps through the whole group from pass 3. -/
theorem p4_skipG (rep : List Nat) (s : List Nat) :
    replaceAll [92, 46, 35] rep (gStr ++ s) =
      gStr ++ replaceAll [92, 46, 35] rep s := by
  show replaceAll [92, 46, 35] rep
      (40 :: 92 :: 46 :: 124 :: 92 :: 46 :: 91 :: 48 :: 45 :: 57 :: 65 :: 45 ::
        122 :: 92 :: 46 :: 93 :: 42 :: 92 :: 46 :: 41 :: s) = _
  rw [replaceAll_cons_ne _ _ _ 40 _ (by omega),
    p4_sep_step _ _ (fun c hc => by simp at hc; omega),
    replaceAll_cons_ne _ _ _ 124 _ (by omega),
    p4_sep_step _ _ (fun c hc => by simp at hc; omega),
    replaceAll_cons_ne _ _ _ 91 _ (by omega),
    replaceAll_cons_ne _ _ _ 48 _ (by omega),
    replaceAll_cons_ne _ _ _ 45 _ (by omega),
    replaceAll_cons_ne _ _ _ 57 _ (by omega),
    replaceAll_cons_ne _ _ _ 65 _ (by omega),
    replaceAll_cons_ne _ _ _ 45 _ (by omega),
    replaceAll_cons_ne _ _ _ 122 _ (by omega),
    p4_sep_step _ _ (fun c hc => by simp at hc; omega),
    replaceAll_cons_ne _ _ _ 93 _ (by omega),
    replaceAll_cons_ne _ _ _ 42 _ (by omega),
    p4_sep_step _ _ (fun c hc => by simp at hc; omega),
    replaceAll_cons_ne _ _ _ 41 _ (by omega)]
  simp [gStr]

theorem emitRest_cons_ne (t : Tok) (rest : List Tok) (ht : t ≠ Tok.hash) :
    emitRest (t :: rest) = [92, 46] ++ emit4 (t :: rest) := by
  match t with
  | .star => simp [emitRest, emit4]
  | .hash => exact absurd rfl ht
  | .lit s => simp [emitRest, emit4]

theorem emitRest_hash_cons (t : Tok) (rest : List Tok) :
    emitRest (Tok.hash :: t :: rest) = gStr ++ emit4 (t :: rest) := by
  simp [emitRest, emit4]

/-- One separator-led step of pass 4. -/
theorem topicPass4_step (t t' : Tok) (rest : List Tok)
    (hgt : goodTok t) (hgt' : goodTok t') (ht' : t' ≠ Tok.hash)
    (hrec : replaceAll [92, 46, 35] optEndStr (emit3 (t' :: rest)) =
      emit4 (t' :: rest)) :
    replaceAll [92, 46, 35] optEndStr (emit3 (t :: t' :: rest)) =
      emit4 (t :: t' :: rest) := by
  have h2 : emit3 (t :: t' :: rest) =
      encTok2 t ++ (92 :: 46 :: emit3 (t' :: rest)) := by
    have : emit3 (t :: t' :: rest) = encTok2 t ++ emit3Rest (t' :: rest) := by
      simp [emit3]
    rw [this, emit3Rest_cons_ne t' rest ht']
    simp
  rw [h2, replaceAll_append_of_ne 92 _ _ _ (encTok2_no92 t hgt) _,
    p4_sep_step _ _ (emit3_head_ne35 t' rest ht' hgt'), hrec]
  have h3 : emit4 (t :: t' :: rest) =
      encTok2 t ++ (92 :: 46 :: emit4 (t' :: rest)) := by
    have : emit4 (t :: t' :: rest) = encTok2 t ++ emitRest (t' :: rest) := by
      simp [emit4]
    rw [this, emitRest_cons_ne t' rest ht']
    simp
  rw [h3]

/-- Pass 4 (`strings.Replace(·, "\.#", "(\.[0-9A-z\.]*)?", -1)`),
fuel-indexed. -/
theorem topicPass4_aux : ∀ (n : Nat) (toks : List Tok), toks.length ≤ n →
    (∀ t ∈ toks, goodTok t) →
    List.Chain' (fun a b => ¬(a = Tok.hash ∧ b = Tok.hash)) toks →
    replaceAll [92, 46, 35] optEndStr (emit3 toks) = emit4 toks := by
  intro n
  induction n with
  | zero =>
    intro toks hlen _ _
    match toks with
    | [] => simp [emit3, emit4, replaceAll_nil]
    | t :: rest => simp at hlen
  | succ n ih =>
    intro toks hlen hg hch
    match toks with
    | [] => simp [emit3, emit4, replaceAll_nil]
    | [t] =>
      have h2 : emit3 [t] = encTok2 t := by simp [emit3, emit3Rest]
      rw [h2, replaceAll_of_ne 92 _ _ _ (encTok2_no92 t (hg t (by simp)))]
      simp [emit4, emitRest]
    | t :: .hash :: [] =>
      have h2 : emit3 (t :: [Tok.hash]) = encTok2 t ++ [92, 46, 35] := by
        simp [emit3, emit3Rest, encTok2]
      rw [h2, replaceAll_append_of_ne 92 _ _ _
        (encTok2_no92 t (hg t (by simp))) _]
      have h35 : replaceAll [92, 46, 35] optEndStr [92, 46, 35] =
          optEndStr := by
        simpa [replaceAll_nil] using
          replaceAll_of_pfx 92 [46, 35] optEndStr []
      rw [h35]
      simp [emit4, emitRest]
    | t :: .hash :: t' :: rest =>
      rw [List.chain'_cons, List.chain'_cons] at hch
      have h2 : emit3 (t :: Tok.hash :: t' :: rest) =
          encTok2 t ++ (gStr ++ emit3 (t' :: rest)) := by
        have : emit3 (t :: Tok.hash :: t' :: rest) =
            encTok2 t ++ emit3Rest (Tok.hash :: t' :: rest) := by
          simp [emit3]
        rw [this, emit3Rest_hash_cons]
      rw [h2, replaceAll_append_of_ne 92 _ _ _
        (encTok2_no92 t (hg t (by simp))) _,
        p4_skipG _ _,
        ih (t' :: rest) (by simp at hlen ⊢; omega)
          (fun u hu => hg u (by simp at hu ⊢; tauto)) hch.2.2]
      have h3 : emit4 (t :: Tok.hash :: t' :: rest) =
          encTok2 t ++ (gStr ++ emit4 (t' :: rest)) := by
        have : emit4 (t :: Tok.hash :: t' :: rest) =
            encTok2 t ++ emitRest (Tok.hash :: t' :: rest) := by
          simp [emit4]
        rw [this, emitRest_hash_cons]
      rw [h3]
    | t :: .star :: rest =>
      exact topicPass4_step t .star rest (hg t (by simp)) trivial (by simp)
        (ih (.star :: rest) (by simp at hlen ⊢; omega)
          (fun u hu => hg u (by simp at hu ⊢; tauto))
          (List.chain'_cons.mp hch).2)
    | t :: .lit s :: rest =>
      exact topicPass4_step t (.lit s) rest (hg t (by simp))
        (hg (.lit s) (by simp)) (by simp)
        (ih (.lit s :: rest) (by simp at hlen ⊢; omega)
          (fun u hu => hg u (by simp at hu ⊢; tauto))
          (List.chain'_cons.mp hch).2)

/-- Pass 4 of the pattern construction. -/
theorem topicPass4 (toks : List Tok) (hg : ∀ t ∈ toks, goodTok t)
    (hch : List.Chain' (fun a b => ¬(a = Tok.hash ∧ b = Tok.hash)) toks) :
    replaceAll [92, 46, 35] optEndStr (emit3 toks) = emit4 toks :=
  topicPass4_aux toks.length toks le_rfl hg hch

/-- After pass 4 the tail contains no `#`. -/
theorem emitRest_no35 : ∀ (n : Nat) (rest : List Tok), rest.length ≤ n →
    (∀ t ∈ rest, goodTok t) →
    List.Chain' (fun a b => ¬(a = Tok.hash ∧ b = Tok.hash)) rest →
    ∀ c ∈ emitRest rest, c ≠ 35 := by
  intro n
  induction n with
  | zero =>
    intro rest hlen _ _
    match rest with
    | [] => simp [emitRest]
    | t :: r => simp at hlen
  | succ n ih =>
    intro rest hlen hg hch
    match rest with
    | [] => simp [emitRest]
    | [.hash] =>
      intro c hc
      simp [emitRest, optEndStr] at hc
      omega
    | .hash :: t :: r =>
      rw [List.chain'_cons] at hch
      have ht : t ≠ Tok.hash := fun he => hch.1 ⟨rfl, he⟩
      intro c hc
      have : emitRest (Tok.hash :: t :: r) = gStr ++ (encTok2 t ++ emitRest r) := by
        simp [emitRest]
      rw [this] at hc
      rcases List.mem_append.mp hc with hc | hc
      · simp [gStr] at hc; omega
      rcases List.mem_append.mp hc with hc | hc
      · exact encTok2_no35 t ht (hg t (by simp)) c hc
      · exact ih r (by simp at hlen ⊢; omega)
          (fun u hu => hg u (by simp at hu ⊢; tauto))
          hch.2.tail c hc
    | .star :: r =>
      intro c hc
      have : emitRest (Tok.star :: r) = [92, 46] ++ (encTok2 Tok.star ++ emitRest r) := by
        simp [emitRest]
      rw [this] at hc
      rcases List.mem_append.mp hc with hc | hc
      · simp at hc; omega
      rcases List.mem_append.mp hc with hc | hc
      · exact encTok2_no35 Tok.star (by simp) trivial c hc
      · exact ih r (by simp at hlen ⊢; omega)
          (fun u hu => hg u (by simp at hu ⊢; tauto)) hch.tail c hc
    | .lit s :: r =>
      intro c hc
      have : emitRest (Tok.lit s :: r) = [92, 46] ++ (encTok2 (Tok.lit s) ++ emitRest r) := by
        simp [emitRest]
      rw [this] at hc
      rcases List.mem_append.mp hc with hc | hc
      · simp at hc; omega
      rcases List.mem_append.mp hc with hc | hc
      · exact encTok2_no35 (Tok.lit s) (by simp) (hg _ (by simp)) c hc
      · exact ih r (by simp at hlen ⊢; omega)
          (fun u hu => hg u (by simp at hu ⊢; tauto)) hch.tail c hc

/-- Pass 5 (`strings.Replace(·, "#\.", "([0-9A-z\.]*\.)?", 1)` — the
leading-`#` rewrite; only the head can still carry `#\.`). -/
theorem topicPass5 (toks : List Tok) (hg : ∀ t ∈ toks, goodTok t)
    (hch : List.Chain' (fun a b => ¬(a = Tok.hash ∧ b = Tok.hash)) toks) :
    replaceAll [35, 92, 46] optStartStr (emit4 toks) = emit5 toks := by
  match toks with
  | [] => simp [emit4, emit5, replaceAll_nil]
  | [.hash] =>
    have h4 : emit4 [Tok.hash] = [35] := by simp [emit4, emitRest, encTok2]
    rw [h4]
    have h35 : replaceAll [35, 92, 46] optStartStr [35] = [35] := by
      simp [replaceAll, List.isPrefixOf]
    rw [h35]
    simp [emit5]
  | .hash :: t :: rest =>
    rw [List.chain'_cons] at hch
    have ht : t ≠ Tok.hash := fun he => hch.1 ⟨rfl, he⟩
    have hno35 : ∀ c ∈ encTok2 t ++ emitRest rest, c ≠ 35 := by
      intro c hc
      rcases List.mem_append.mp hc with hc | hc
      · exact encTok2_no35 t ht (hg t (by simp)) c hc
      · exact emitRest_no35 rest.length rest le_rfl
          (fun u hu => hg u (by simp at hu ⊢; tauto)) hch.2.tail c hc
    have h4 : emit4 (Tok.hash :: t :: rest) =
        [35, 92, 46] ++ (encTok2 t ++ emitRest rest) := by
      have h1 : emit4 (Tok.hash :: t :: rest) =
          encTok2 Tok.hash ++ emitRest (t :: rest) := by
        simp [emit4]
      rw [h1, emitRest_cons_ne t rest ht]
      simp [encTok2, emit4]
    rw [h4, replaceAll_of_pfx 35 [92, 46] optStartStr _,
      replaceAll_of_ne 35 _ _ _ hno35]
    simp [emit5]
  | .star :: rest =>
    have hno35 : ∀ c ∈ emit4 (Tok.star :: rest), c ≠ 35 := by
      intro c hc
      simp only [emit4] at hc
      rcases List.mem_append.mp hc with hc | hc
      · exact encTok2_no35 Tok.star (by simp) trivial c hc
      · exact emitRest_no35 rest.length rest le_rfl
          (fun u hu => hg u (by simp at hu ⊢; tauto)) hch.tail c hc
    rw [replaceAll_of_ne 35 _ _ _ hno35]
    simp [emit4, emit5]
  | .lit s :: rest =>
    have hno35 : ∀ c ∈ emit4 (Tok.lit s :: rest), c ≠ 35 := by
      intro c hc
      simp only [emit4] at hc
      rcases List.mem_append.mp hc with hc | hc
      · exact encTok2_no35 (Tok.lit s) (by simp) (hg _ (by simp)) c hc
      · exact emitRest_no35 rest.length rest le_rfl
          (fun u hu => hg u (by simp at hu ⊢; tauto)) hch.tail c hc
    rw [replaceAll_of_ne 35 _ _ _ hno35]
    simp [emit4, emit5]

/-- Pass 6 (`strings.Replace(·, "#", "[0-9A-z\.]*", 1)` — the bare-`#`
rewrite). -/
theorem topicPass6 (toks : List Tok) (hg : ∀ t ∈ toks, goodTok t)
    (hch : List.Chain' (fun a b => ¬(a = Tok.hash ∧ b = Tok.hash)) toks) :
    replaceAll [35] sdStarStr (emit5 toks) = emit toks := by
  match toks with
  | [] => simp [emit5, emit, replaceAll_nil]
  | [.hash] =>
    have h35 : replaceAll [35] sdStarStr [35] = sdStarStr := by
      simpa [replaceAll_nil] using replaceAll_of_pfx 35 [] sdStarStr []
    have h5 : emit5 [Tok.hash] = [35] := by simp [emit5]
    rw [h5, h35]
    simp [emit]
  | .hash :: t :: rest =>
    rw [List.chain'_cons] at hch
    have ht : t ≠ Tok.hash := fun he => hch.1 ⟨rfl, he⟩
    have hno35 : ∀ c ∈ emit5 (Tok.hash :: t :: rest), c ≠ 35 := by
      intro c hc
      have h5 : emit5 (Tok.hash :: t :: rest) =
          optStartStr ++ (encTok2 t ++ emitRest rest) := by
        simp [emit5]
      rw [h5] at hc
      rcases List.mem_append.mp hc with hc | hc
      · simp [optStartStr] at hc; omega
      rcases List.mem_append.mp hc with hc | hc
      · exact encTok2_no35 t ht (hg t (by simp)) c hc
      · exact emitRest_no35 rest.length rest le_rfl
          (fun u hu => hg u (by simp at hu ⊢; tauto)) hch.2.tail c hc
    rw [replaceAll_of_ne 35 _ _ _ hno35]
    simp [emit5, emit]
  | .star :: rest =>
    have hno35 : ∀ c ∈ emit5 (Tok.star :: rest), c ≠ 35 := by
      intro c hc
      simp only [emit5] at hc
      rcases List.mem_append.mp hc with hc | hc
      · exact encTok2_no35 Tok.star (by simp) trivial c hc
      · exact emitRest_no35 rest.length rest le_rfl
          (fun u hu => hg u (by simp at hu ⊢; tauto)) hch.tail c hc
    rw [replaceAll_of_ne 35 _ _ _ hno35]
    simp [emit5, emit]
  | .lit s :: rest =>
    have hno35 : ∀ c ∈ emit5 (Tok.lit s :: rest), c ≠ 35 := by
      intro c hc
      simp only [emit5] at hc
      rcases List.mem_append.mp hc with hc | hc
      · exact encTok2_no35 (Tok.lit s) (by simp) (hg _ (by simp)) c hc
      · exact emitRest_no35 rest.length rest le_rfl
          (fun u hu => hg u (by simp at hu ⊢; tauto)) hch.tail c hc
    rw [replaceAll_of_ne 35 _ _ _ hno35]
    simp [emit5, emit]

/-- The six passes of `topicPattern` on a restricted key produce exactly
the structured pattern `emit`. -/
theorem topicPattern_emit (toks : List Tok) (h : goodToks toks) :
    topicPattern (key toks) = emit toks := by
  obtain ⟨hne, hg, hch⟩ := h
  show replaceAll [35] sdStarStr
      (replaceAll [35, 92, 46] optStartStr
        (replaceAll [92, 46, 35] optEndStr
          (replaceAll [92, 46, 35, 92, 46] gStr
            (replaceAll [42] [91, 48, 45, 57, 65, 45, 122, 93, 43]
              (replaceAll [46] [92, 46] (key toks)))))) = emit toks
  rw [topicPass1 toks hg, topicPass2 toks hg, topicPass3 toks hg hch,
    topicPass4 toks hg hch, topicPass5 toks hg hch, topicPass6 toks hg hch]

/-! Parsing the emitted pattern back into a regular expression. -/

/-- Regex of one emitted token block, applied to a continuation. -/
def encRe : Tok → RegularExpression Nat → RegularExpression Nat
  | .star, r => plusRe * r
  | .hash, r => segDotCls.star * r
  | .lit s, r => s.foldr (fun c acc => RegularExpression.char c * acc) r

/-- Regex parsed from `emitRest`. -/
def compRest : List Tok → RegularExpression Nat
  | [] => 1
  | [.hash] => optEndRe * 1
  | .hash :: t :: rest => GRe * encRe t (compRest rest)
  | t :: rest => RegularExpression.char 46 * encRe t (compRest rest)

/-- Regex parsed from the full emitted pattern. -/
def compile : List Tok → RegularExpression Nat
  | [] => 1
  | [.hash] => segDotCls.star * 1
  | .hash :: t :: rest => optStartRe * encRe t (compRest rest)
  | t :: rest => encRe t (compRest rest)

theorem parseSeq_gStr (s : List Nat) :
    parseSeq (gStr ++ s) = (fun r => GRe * r) <$> parseSeq s := rfl

theorem parseSeq_optEndStr (s : List Nat) :
    parseSeq (optEndStr ++ s) = (fun r => optEndRe * r) <$> parseSeq s := rfl

theorem parseSeq_optStartStr (s : List Nat) :
    parseSeq (optStartStr ++ s) = (fun r => optStartRe * r) <$> parseSeq s :=
  rfl

theorem parseSeq_sdStarStr (s : List Nat) :
    parseSeq (sdStarStr ++ s) =
      (fun r => RegularExpression.star segDotCls * r) <$> parseSeq s := rfl

theorem parseSeq_sep (s : List Nat) :
    parseSeq (92 :: 46 :: s) =
      (fun r => RegularExpression.char 46 * r) <$> parseSeq s := rfl

set_option maxHeartbeats 2000000 in
/-- `parseSeq` consumes an alphanumeric literal character. -/
theorem parseSeq_char (c : Nat) (rest : List Nat) (h : alnum c = true) :
    parseSeq (c :: rest) =
      (fun r => RegularExpression.char c * r) <$> parseSeq rest := by
  rcases (alnum_iff c).mp h with ⟨h1, h2⟩ | ⟨h1, h2⟩ | ⟨h1, h2⟩ <;>
    interval_cases c <;> rfl

/-- `parseSeq` consumes an alphanumeric literal block. -/
theorem parseSeq_lit (s : List Nat) (h : ∀ c ∈ s, alnum c = true)
    (tail : List Nat) :
    parseSeq (s ++ tail) =
      (fun r => s.foldr (fun c acc => RegularExpression.char c * acc) r) <$>
        parseSeq tail := by
  induction s with
  | nil =>
    show parseSeq tail = _
    cases parseSeq tail <;> rfl
  | cons c s' ih =>
    rw [List.cons_append, parseSeq_char c _ (h c (by simp)),
      ih (fun u hu => h u (by simp [hu]))]
    cases parseSeq tail <;> rfl

/-- `parseSeq` consumes one emitted non-`#` token block. -/
theorem parseSeq_encTok2 (t : Tok) (ht : t ≠ Tok.hash) (hg : goodTok t)
    (tail : List Nat) :
    parseSeq (encTok2 t ++ tail) = (fun r => encRe t r) <$> parseSeq tail := by
  match t with
  | .star =>
    show parseSeq
      (91 :: 48 :: 45 :: 57 :: 65 :: 45 :: 122 :: 93 :: 43 :: tail) = _
    rfl
  | .hash => exact absurd rfl ht
  | .lit s => exact parseSeq_lit s hg tail

/-- `parseSeq` on the emitted tail yields exactly `compRest`. -/
theorem parseSeq_emitRest : ∀ (n : Nat) (rest : List Tok), rest.length ≤ n →
    (∀ t ∈ rest, goodTok t) →
    List.Chain' (fun a b => ¬(a = Tok.hash ∧ b = Tok.hash)) rest →
    parseSeq (emitRest rest) = some (compRest rest) := by
  intro n
  induction n with
  | zero =>
    intro rest hlen _ _
    match rest with
    | [] => rfl
    | t :: r => simp at hlen
  | succ n ih =>
    intro rest hlen hg hch
    match rest with
    | [] => rfl
    | [.hash] =>
      have h1 : emitRest [Tok.hash] = optEndStr ++ [] := by simp [emitRest]
      rw [h1, parseSeq_optEndStr]
      rfl
    | .hash :: t :: r =>
      rw [List.chain'_cons] at hch
      have ht : t ≠ Tok.hash := fun he => hch.1 ⟨rfl, he⟩
      have h1 : emitRest (Tok.hash :: t :: r) =
          gStr ++ (encTok2 t ++ emitRest r) := by
        simp [emitRest]
      rw [h1, parseSeq_gStr, parseSeq_encTok2 t ht (hg t (by simp)),
        ih r (by simp at hlen ⊢; omega)
          (fun u hu => hg u (by simp at hu ⊢; tauto)) hch.2.tail]
      simp [compRest]
    | .star :: r =>
      have h1 : emitRest (Tok.star :: r) =
          92 :: 46 :: (encTok2 Tok.star ++ emitRest r) := by
        simp [emitRest]
      rw [h1, parseSeq_sep, parseSeq_encTok2 Tok.star (by simp) trivial,
        ih r (by simp at hlen ⊢; omega)
          (fun u hu => hg u (by simp at hu ⊢; tauto)) hch.tail]
      simp [compRest]
    | .lit s :: r =>
      have h1 : emitRest (Tok.lit s :: r) =
          92 :: 46 :: (encTok2 (Tok.lit s) ++ emitRest r) := by
        simp [emitRest]
      rw [h1, parseSeq_sep,
        parseSeq_encTok2 (Tok.lit s) (by simp) (hg _ (by simp)),
        ih r (by simp at hlen ⊢; omega)
          (fun u hu => hg u (by simp at hu ⊢; tauto)) hch.tail]
      simp [compRest]

/-- `parseSeq` on the full emitted pattern yields exactly `compile`. -/
theorem parseSeq_emit (toks : List Tok) (hg : ∀ t ∈ toks, goodTok t)
    (hch : List.Chain' (fun a b => ¬(a = Tok.hash ∧ b = Tok.hash)) toks) :
    parseSeq (emit toks) = some (compile toks) := by
  match toks with
  | [] => rfl
  | [.hash] =>
    have h1 : emit [Tok.hash] = sdStarStr ++ [] := by simp [emit]
    rw [h1, parseSeq_sdStarStr]
    rfl
  | .hash :: t :: rest =>
    rw [List.chain'_cons] at hch
    have ht : t ≠ Tok.hash := fun he => hch.1 ⟨rfl, he⟩
    have h1 : emit (Tok.hash :: t :: rest) =
        optStartStr ++ (encTok2 t ++ emitRest rest) := by
      simp [emit]
    rw [h1, parseSeq_optStartStr, parseSeq_encTok2 t ht (hg t (by simp)),
      parseSeq_emitRest rest.length rest le_rfl
        (fun u hu => hg u (by simp at hu ⊢; tauto)) hch.2.tail]
    simp [compile]
  | .star :: rest =>
    have h1 : emit (Tok.star :: rest) = encTok2 Tok.star ++ emitRest rest := by
      simp [emit]
    rw [h1, parseSeq_encTok2 Tok.star (by simp) trivial,
      parseSeq_emitRest rest.length rest le_rfl
        (fun u hu => hg u (by simp at hu ⊢; tauto)) hch.tail]
    simp [compile]
  | .lit s :: rest =>
    have h1 : emit (Tok.lit s :: rest) =
        encTok2 (Tok.lit s) ++ emitRest rest := by
      simp [emit]
    rw [h1, parseSeq_encTok2 (Tok.lit s) (by simp) (hg _ (by simp)),
      parseSeq_emitRest rest.length rest le_rfl
        (fun u hu => hg u (by simp at hu ⊢; tauto)) hch.tail]
    simp [compile]

/-! Language facts for the fixed regex fragments. -/

theorem mem_one_iff (x : List Nat) :
    x ∈ ((1 : RegularExpression Nat)).matches' ↔ x = [] := by
  rw [RegularExpression.matches'_epsilon]
  exact Language.mem_one x

theorem mem_mul_iff (P Q : RegularExpression Nat) (x : List Nat) :
    x ∈ (P * Q).matches' ↔
      ∃ a b, a ∈ P.matches' ∧ b ∈ Q.matches' ∧ a ++ b = x := by
  rw [RegularExpression.matches'_mul]
  constructor
  · rintro ⟨a, ha, b, hb, rfl⟩
    exact ⟨a, b, ha, hb, rfl⟩
  · rintro ⟨a, b, ha, hb, rfl⟩
    exact ⟨a, ha, b, hb, rfl⟩

theorem mem_add_iff (P Q : RegularExpression Nat) (x : List Nat) :
    x ∈ (P + Q).matches' ↔ x ∈ P.matches' ∨ x ∈ Q.matches' := by
  rw [RegularExpression.matches'_add]
  exact Language.mem_add _ _ x

theorem mem_char_iff (c : Nat) (x : List Nat) :
    x ∈ (RegularExpression.char c).matches' ↔ x = [c] := by
  rw [RegularExpression.matches'_char]
  exact Set.mem_singleton_iff

theorem mem_char_mul_iff (c : Nat) (R : RegularExpression Nat) (x : List Nat) :
    x ∈ (RegularExpression.char c * R).matches' ↔
      ∃ y, x = c :: y ∧ y ∈ R.matches' := by
  rw [mem_mul_iff]
  constructor
  · rintro ⟨a, b, ha, hb, rfl⟩
    rw [mem_char_iff] at ha
    subst ha
    exact ⟨b, rfl, hb⟩
  · rintro ⟨y, rfl, hy⟩
    exact ⟨[c], y, (mem_char_iff c [c]).mpr rfl, hy, rfl⟩

theorem classRe_mem (cs : List Nat) (x : List Nat) :
    x ∈ (classRe cs).matches' ↔ ∃ c ∈ cs, x = [c] := by
  induction cs with
  | nil => simp [classRe]
  | cons c cs ih =>
    show x ∈ (RegularExpression.char c + classRe cs).matches' ↔ _
    rw [mem_add_iff, mem_char_iff, ih]
    constructor
    · rintro (rfl | ⟨d, hd, rfl⟩)
      · exact ⟨c, by simp, rfl⟩
      · exact ⟨d, by simp [hd], rfl⟩
    · rintro ⟨d, hd, rfl⟩
      rcases List.mem_cons.mp hd with rfl | hd
      · exact Or.inl rfl
      · exact Or.inr ⟨d, hd, rfl⟩

theorem classRe_star_mem (cs : List Nat) (x : List Nat) :
    x ∈ (classRe cs).star.matches' ↔ ∀ c ∈ x, c ∈ cs := by
  rw [RegularExpression.matches'_star, Language.mem_kstar]
  constructor
  · rintro ⟨S, rfl, hS⟩ c hc
    rw [List.mem_flatten] at hc
    obtain ⟨l, hl, hcl⟩ := hc
    obtain ⟨d, hd, rfl⟩ := (classRe_mem cs l).mp (hS l hl)
    rw [List.mem_singleton] at hcl
    subst hcl
    exact hd
  · intro hx
    refine ⟨x.map (fun c => [c]), ?_, ?_⟩
    · induction x with
      | nil => rfl
      | cons c x ih => simpa using ih (fun d hd => hx d (by simp [hd]))
    · intro y hy
      rw [List.mem_map] at hy
      obtain ⟨c, hc, rfl⟩ := hy
      exact (classRe_mem cs [c]).mpr ⟨c, hx c hc, rfl⟩

theorem plusRe_mem (x : List Nat) :
    x ∈ plusRe.matches' ↔ x ≠ [] ∧ ∀ c ∈ x, c ∈ segClassChars := by
  rw [plusRe, mem_mul_iff]
  constructor
  · rintro ⟨a, b, ha, hb, rfl⟩
    rw [show segCls = classRe segClassChars from rfl] at ha hb
    obtain ⟨c, hc, rfl⟩ := (classRe_mem _ _).mp ha
    have hb' := (classRe_star_mem _ _).mp hb
    refine ⟨by simp, ?_⟩
    intro d hd
    rcases List.mem_cons.mp hd with rfl | hd
    · exact hc
    · exact hb' d hd
  · rintro ⟨hne, hall⟩
    match x with
    | [] => exact absurd rfl hne
    | c :: y =>
      refine ⟨[c], y, (classRe_mem _ _).mpr ⟨c, hall c (by simp), rfl⟩,
        (classRe_star_mem _ _).mpr (fun d hd => hall d (by simp [hd])), rfl⟩

theorem segDotStar_mem (x : List Nat) :
    x ∈ (RegularExpression.star segDotCls).matches' ↔
      ∀ c ∈ x, c ∈ segDotChars := by
  rw [show segDotCls = classRe segDotChars from rfl]
  exact classRe_star_mem segDotChars x

theorem GRe_mem (x : List Nat) :
    x ∈ GRe.matches' ↔
      x = [46] ∨ ∃ w, (∀ c ∈ w, c ∈ segDotChars) ∧ x = 46 :: w ++ [46] := by
  rw [GRe, mem_add_iff, mem_char_iff, mem_char_mul_iff]
  constructor
  · rintro (rfl | ⟨y, rfl, hy⟩)
    · exact Or.inl rfl
    · rw [mem_mul_iff] at hy
      obtain ⟨a, b, ha, hb, rfl⟩ := hy
      rw [mem_char_iff] at hb
      subst hb
      exact Or.inr ⟨a, (segDotStar_mem a).mp ha, rfl⟩
  · rintro (rfl | ⟨w, hw, rfl⟩)
    · exact Or.inl rfl
    · refine Or.inr ⟨w ++ [46], by simp, ?_⟩
      rw [mem_mul_iff]
      exact ⟨w, [46], (segDotStar_mem w).mpr hw, (mem_char_iff _ _).mpr rfl,
        rfl⟩

theorem optEndRe_mem (x : List Nat) :
    x ∈ optEndRe.matches' ↔
      x = [] ∨ ∃ w, (∀ c ∈ w, c ∈ segDotChars) ∧ x = 46 :: w := by
  rw [optEndRe, mem_add_iff, mem_one_iff, mem_char_mul_iff]
  constructor
  · rintro (rfl | ⟨y, rfl, hy⟩)
    · exact Or.inl rfl
    · exact Or.inr ⟨y, (segDotStar_mem y).mp hy, rfl⟩
  · rintro (rfl | ⟨w, hw, rfl⟩)
    · exact Or.inl rfl
    · exact Or.inr ⟨w, rfl, (segDotStar_mem w).mpr hw⟩

theorem optStartRe_mem (x : List Nat) :
    x ∈ optStartRe.matches' ↔
      x = [] ∨ ∃ w, (∀ c ∈ w, c ∈ segDotChars) ∧ x = w ++ [46] := by
  rw [optStartRe, mem_add_iff, mem_one_iff, mem_mul_iff]
  constructor
  · rintro (rfl | ⟨a, b, ha, hb, rfl⟩)
    · exact Or.inl rfl
    · rw [mem_char_iff] at hb
      subst hb
      exact Or.inr ⟨a, (segDotStar_mem a).mp ha, rfl⟩
  · rintro (rfl | ⟨w, hw, rfl⟩)
    · exact Or.inl rfl
    · exact Or.inr ⟨w, [46], (segDotStar_mem w).mpr hw,
        (mem_char_iff _ _).mpr rfl, rfl⟩

theorem encRe_lit_mem (u : List Nat) (R : RegularExpression Nat)
    (x : List Nat) :
    x ∈ (encRe (Tok.lit u) R).matches' ↔
      ∃ y, x = u ++ y ∧ y ∈ R.matches' := by
  show x ∈ (u.foldr (fun c acc => RegularExpression.char c * acc) R).matches' ↔ _
  induction u generalizing x with
  | nil => simp
  | cons c u ih =>
    rw [List.foldr_cons, mem_char_mul_iff]
    constructor
    · rintro ⟨y, rfl, hy⟩
      obtain ⟨z, rfl, hz⟩ := (ih y).mp hy
      exact ⟨z, rfl, hz⟩
    · rintro ⟨y, rfl, hy⟩
      exact ⟨u ++ y, rfl, (ih (u ++ y)).mpr ⟨y, rfl, hy⟩⟩

theorem encRe_star_mem (R : RegularExpression Nat) (x : List Nat) :
    x ∈ (encRe Tok.star R).matches' ↔
      ∃ a y, a ≠ [] ∧ (∀ c ∈ a, c ∈ segClassChars) ∧ y ∈ R.matches' ∧
        x = a ++ y := by
  show x ∈ (plusRe * R).matches' ↔ _
  rw [mem_mul_iff]
  constructor
  · rintro ⟨a, b, ha, hb, rfl⟩
    obtain ⟨hne, hc⟩ := (plusRe_mem a).mp ha
    exact ⟨a, b, hne, hc, hb, rfl⟩
  · rintro ⟨a, y, hne, hc, hy, rfl⟩
    exact ⟨a, y, (plusRe_mem a).mpr ⟨hne, hc⟩, hy, rfl⟩

/-! Evaluation rules of `specTopicMatch` and segment-string geometry. -/

theorem spec_nil_nil : specTopicMatch [] [] = true := by
  simp [specTopicMatch]

theorem spec_nil_cons (s : List Nat) (segs : List (List Nat)) :
    specTopicMatch [] (s :: segs) = false := by
  simp [specTopicMatch]

theorem spec_lit_nil (u : List Nat) (toks : List Tok) :
    specTopicMatch (Tok.lit u :: toks) [] = false := by
  simp [specTopicMatch]

theorem spec_star_nil (toks : List Tok) :
    specTopicMatch (Tok.star :: toks) [] = false := by
  simp [specTopicMatch]

theorem spec_hash_nil (toks : List Tok) :
    specTopicMatch (Tok.hash :: toks) [] = specTopicMatch toks [] := by
  simp [specTopicMatch]

theorem spec_lit_cons (u : List Nat) (toks : List Tok) (s : List Nat)
    (segs : List (List Nat)) :
    specTopicMatch (Tok.lit u :: toks) (s :: segs) =
      (u == s && specTopicMatch toks segs) := by
  simp [specTopicMatch]

theorem spec_star_cons (toks : List Tok) (s : List Nat)
    (segs : List (List Nat)) :
    specTopicMatch (Tok.star :: toks) (s :: segs) =
      (!(s == []) && specTopicMatch toks segs) := by
  simp [specTopicMatch]

theorem spec_hash_cons (toks : List Tok) (s : List Nat)
    (segs : List (List Nat)) :
    specTopicMatch (Tok.hash :: toks) (s :: segs) =
      (specTopicMatch toks (s :: segs) || specTopicMatch (Tok.hash :: toks) segs) := by
  simp [specTopicMatch]

/-- A sole `#` matches every segment sequence. -/
theorem spec_hash_absorbs (segs : List (List Nat)) :
    specTopicMatch [Tok.hash] segs = true := by
  induction segs with
  | nil => rw [spec_hash_nil]; exact spec_nil_nil
  | cons s segs ih => rw [spec_hash_cons, ih]; simp

/-- `#` matches by dropping some number of leading segments. -/
theorem spec_hash_iff (toks : List Tok) (segs : List (List Nat)) :
    specTopicMatch (Tok.hash :: toks) segs = true ↔
      ∃ k, k ≤ segs.length ∧ specTopicMatch toks (segs.drop k) = true := by
  induction segs with
  | nil =>
    rw [spec_hash_nil]
    constructor
    · intro h; exact ⟨0, le_rfl, h⟩
    · rintro ⟨k, hk, h⟩; simpa using h
  | cons s segs ih =>
    rw [spec_hash_cons, Bool.or_eq_true, ih]
    constructor
    · rintro (h | ⟨k, hk, h⟩)
      · exact ⟨0, by simp, h⟩
      · exact ⟨k + 1, by simp; omega, by simpa using h⟩
    · rintro ⟨k, hk, h⟩
      match k with
      | 0 => exact Or.inl (by simpa using h)
      | k + 1 =>
        exact Or.inr ⟨k, by simp at hk; omega, by simpa using h⟩

/-- The `.`-prefixed continuation of a routing key. -/
def contKey (segs : List (List Nat)) : List Nat :=
  (segs.map (fun s => 46 :: s)).flatten

theorem contKey_nil : contKey [] = [] := rfl

theorem contKey_cons (s : List Nat) (segs : List (List Nat)) :
    contKey (s :: segs) = 46 :: (s ++ contKey segs) := by
  simp [contKey]

theorem contKey_append (a b : List (List Nat)) :
    contKey (a ++ b) = contKey a ++ contKey b := by
  simp [contKey]

theorem rkey_single (s : List Nat) : rkey [s] = s := by
  simp [rkey, List.intercalate]

theorem rkey_cons_cons (s s' : List Nat) (segs : List (List Nat)) :
    rkey (s :: s' :: segs) = s ++ 46 :: rkey (s' :: segs) := by
  simp [rkey, List.intercalate, List.intersperse]

theorem rkey_contKey : ∀ (segs : List (List Nat)) (s : List Nat),
    rkey (s :: segs) = s ++ contKey segs := by
  intro segs
  induction segs with
  | nil => intro s; simp [rkey_single, contKey_nil]
  | cons s' segs ih =>
    intro s
    rw [rkey_cons_cons, ih s', contKey_cons]

theorem segClassChars_mem (c : Nat) :
    c ∈ segClassChars ↔ (48 ≤ c ∧ c ≤ 57) ∨ (65 ≤ c ∧ c ≤ 122) := by
  simp [segClassChars, List.mem_range'_1]
  omega

theorem alnum_mem_segClassChars (c : Nat) (h : alnum c = true) :
    c ∈ segClassChars := by
  rw [segClassChars_mem]
  rw [alnum_iff] at h
  omega

theorem segClassChars_no46 (c : Nat) (h : c ∈ segClassChars) : c ≠ 46 := by
  rw [segClassChars_mem] at h
  omega

theorem segDotChars_mem (c : Nat) :
    c ∈ segDotChars ↔ c ∈ segClassChars ∨ c = 46 := by
  simp [segDotChars]

theorem goodSeg_no46 (s : List Nat) (h : goodSeg s) : ∀ c ∈ s, c ≠ 46 :=
  fun c hc => (alnum_ne c (h c hc)).1

theorem contKey_chars (segs : List (List Nat)) (h : ∀ s ∈ segs, goodSeg s) :
    ∀ c ∈ contKey segs, c ∈ segDotChars := by
  induction segs with
  | nil => simp [contKey_nil]
  | cons s segs ih =>
    intro c hc
    rw [contKey_cons] at hc
    rcases List.mem_cons.mp hc with rfl | hc
    · rw [segDotChars_mem]; exact Or.inr rfl
    rcases List.mem_append.mp hc with hc | hc
    · rw [segDotChars_mem]
      exact Or.inl (alnum_mem_segClassChars c (h s (by simp) c hc))
    · exact ih (fun u hu => h u (by simp [hu])) c hc

/-- Cancellation at the first dot: two dot-free prefixes followed by a
dot decompose a string the same way. -/
theorem dot_cancel : ∀ (u s y z : List Nat), (∀ c ∈ u, c ≠ 46) →
    (∀ c ∈ s, c ≠ 46) → u ++ 46 :: y = s ++ 46 :: z → u = s ∧ y = z := by
  intro u
  induction u with
  | nil =>
    intro s y z _ hs h
    cases s with
    | nil => simp at h; exact ⟨rfl, h⟩
    | cons d s' =>
      simp at h
      exact absurd h.1.symm (hs d (by simp))
  | cons a u' ih =>
    intro s y z hu hs h
    cases s with
    | nil =>
      simp at h
      exact absurd h.1 (hu a (by simp))
    | cons d s' =>
      simp at h
      obtain ⟨rfl, h2⟩ := h
      obtain ⟨h3, h4⟩ := ih s' y z (fun c hc => hu c (by simp [hc]))
        (fun c hc => hs c (by simp [hc])) h2
      exact ⟨by rw [h3], h4⟩

/-- A dot-free string admits no dot-split. -/
theorem no_dot_split (u y s : List Nat) (hs : ∀ c ∈ s, c ≠ 46)
    (h : u ++ 46 :: y = s) : False := by
  have h46 : (46 : Nat) ∈ s := by
    rw [← h]
    simp
  exact hs 46 h46 rfl

/-- Dot-splits of a routing-key tail land exactly on segment boundaries. -/
theorem dotSplit_fwd : ∀ (segs : List (List Nat)) (s w y : List Nat),
    (∀ c ∈ s, c ≠ 46) → (∀ t ∈ segs, goodSeg t) →
    w ++ 46 :: y = s ++ contKey segs →
    ∃ pre s' post, segs = pre ++ s' :: post ∧ w = s ++ contKey pre ∧
      y = s' ++ contKey post := by
  intro segs
  induction segs with
  | nil =>
    intro s w y hs _ h
    rw [contKey_nil, List.append_nil] at h
    exact absurd h (fun hh => no_dot_split w y s hs hh)
  | cons t segs' ih =>
    intro s w y hs hsegs h
    rw [contKey_cons] at h
    rcases List.append_eq_append_iff.mp h with ⟨a', ha1, ha2⟩ | ⟨c', hc1, hc2⟩
    · -- s = w ++ a', 46 :: y = a' ++ (46 :: (t ++ contKey segs'))
      cases a' with
      | nil =>
        simp at ha1 ha2
        exact ⟨[], t, segs', rfl, by simp [ha1, contKey_nil], ha2⟩
      | cons d a'' =>
        simp at ha2
        have : d ≠ 46 := hs d (by rw [ha1]; simp)
        exact absurd ha2.1.symm this
    · -- w = s ++ c', 46 :: (t ++ contKey segs') = c' ++ 46 :: y
      cases c' with
      | nil =>
        simp at hc1 hc2
        exact ⟨[], t, segs', rfl, by simp [hc1, contKey_nil], hc2.symm⟩
      | cons d c'' =>
        simp at hc2
        obtain ⟨hd, hc2⟩ := hc2
        subst hd
        obtain ⟨pre', s', post, hsp, hw', hy⟩ := ih t c'' y
          (goodSeg_no46 t (hsegs t (by simp)))
          (fun u hu => hsegs u (by simp [hu])) hc2.symm
        refine ⟨t :: pre', s', post, by simp [hsp], ?_, hy⟩
        rw [hc1, hw', contKey_cons]

/-- Every member of `compRest`'s language is empty or dot-led. -/
theorem compRest_head (rest : List Tok) (y : List Nat)
    (hy : y ∈ (compRest rest).matches') :
    y = [] ∨ ∃ y', y = 46 :: y' := by
  match rest with
  | [] =>
    rw [show compRest [] = 1 from rfl, mem_one_iff] at hy
    exact Or.inl hy
  | [.hash] =>
    rw [show compRest [Tok.hash] = optEndRe * 1 from rfl, mem_mul_iff] at hy
    obtain ⟨a, b, ha, hb, rfl⟩ := hy
    rw [mem_one_iff] at hb
    subst hb
    rcases (optEndRe_mem a).mp ha with rfl | ⟨w, _, rfl⟩
    · exact Or.inl rfl
    · exact Or.inr ⟨w ++ [], by simp⟩
  | .hash :: t :: r =>
    rw [show compRest (Tok.hash :: t :: r) = GRe * encRe t (compRest r)
      from rfl, mem_mul_iff] at hy
    obtain ⟨a, b, ha, _, rfl⟩ := hy
    rcases (GRe_mem a).mp ha with rfl | ⟨w, _, rfl⟩
    · exact Or.inr ⟨b, rfl⟩
    · exact Or.inr ⟨(w ++ [46]) ++ b, by simp⟩
  | .star :: r =>
    rw [show compRest (Tok.star :: r) =
      RegularExpression.char 46 * encRe Tok.star (compRest r) from rfl,
      mem_char_mul_iff] at hy
    obtain ⟨y', rfl, _⟩ := hy
    exact Or.inr ⟨y', rfl⟩
  | .lit u :: r =>
    rw [show compRest (Tok.lit u :: r) =
      RegularExpression.char 46 * encRe (Tok.lit u) (compRest r) from rfl,
      mem_char_mul_iff] at hy
    obtain ⟨y', rfl, _⟩ := hy
    exact Or.inr ⟨y', rfl⟩

theorem spec_ne_hash_nil (t : Tok) (toks : List Tok) (ht : t ≠ Tok.hash) :
    specTopicMatch (t :: toks) [] = false := by
  match t with
  | .lit u => exact spec_lit_nil u toks
  | .star => exact spec_star_nil toks
  | .hash => exact absurd rfl ht

/-- Head-token semantics: given tail correctness for every suffix of
bounded length, one non-`#` token consumes exactly its segment. -/
theorem semC_of (M : Nat)
    (hB : ∀ segs, segs.length ≤ M → (∀ s ∈ segs, goodSeg s) →
      ∀ rest, (∀ t ∈ rest, goodTok t) →
        List.Chain' (fun a b => ¬(a = Tok.hash ∧ b = Tok.hash)) rest →
        (contKey segs ∈ (compRest rest).matches' ↔
          specTopicMatch rest segs = true)) :
    ∀ segs, segs.length ≤ M → (∀ s ∈ segs, goodSeg s) →
      ∀ t rest, t ≠ Tok.hash → goodTok t →
        (∀ u ∈ rest, goodTok u) →
        List.Chain' (fun a b => ¬(a = Tok.hash ∧ b = Tok.hash)) rest →
        ∀ s, goodSeg s →
          (s ++ contKey segs ∈ (encRe t (compRest rest)).matches' ↔
            specTopicMatch (t :: rest) (s :: segs) = true) := by
  intro segs hlen hgs t rest ht hgt hgr hchr s hgss
  match t with
  | .hash => exact absurd rfl ht
  | .lit u =>
    rw [encRe_lit_mem, spec_lit_cons, Bool.and_eq_true, beq_iff_eq]
    constructor
    · rintro ⟨y, hxy, hy⟩
      rcases compRest_head rest y hy with rfl | ⟨y', rfl⟩
      · rw [List.append_nil] at hxy
        cases segs with
        | nil =>
          rw [contKey_nil, List.append_nil] at hxy
          refine ⟨hxy.symm, ?_⟩
          have := (hB [] (by simp) (by simp) rest hgr hchr).mp
            (by rw [contKey_nil]; exact hy)
          exact this
        | cons s2 segs2 =>
          rw [contKey_cons] at hxy
          exact absurd hxy (fun hh =>
            no_dot_split s (s2 ++ contKey segs2) u (goodSeg_no46 u hgt) hh)
      · cases segs with
        | nil =>
          rw [contKey_nil, List.append_nil] at hxy
          exact absurd hxy.symm (fun hh =>
            no_dot_split u y' s (goodSeg_no46 s hgss) hh)
        | cons s2 segs2 =>
          rw [contKey_cons] at hxy
          obtain ⟨hus, hyz⟩ := dot_cancel u s y' (s2 ++ contKey segs2)
            (goodSeg_no46 u hgt) (goodSeg_no46 s hgss) hxy.symm
          refine ⟨hus, ?_⟩
          have hy2 : contKey (s2 :: segs2) ∈ (compRest rest).matches' := by
            rw [contKey_cons, ← hyz]
            exact hy
          exact (hB (s2 :: segs2) hlen hgs rest hgr hchr).mp hy2
    · rintro ⟨hus, hspec⟩
      exact ⟨contKey segs, by rw [hus],
        (hB segs hlen hgs rest hgr hchr).mpr hspec⟩
  | .star =>
    rw [encRe_star_mem, spec_star_cons, Bool.and_eq_true]
    constructor
    · rintro ⟨a, y, hane, hac, hy, hxy⟩
      have hadot : ∀ c ∈ a, c ≠ 46 :=
        fun c hc => segClassChars_no46 c (hac c hc)
      rcases compRest_head rest y hy with rfl | ⟨y', rfl⟩
      · rw [List.append_nil] at hxy
        cases segs with
        | nil =>
          rw [contKey_nil, List.append_nil] at hxy
          subst hxy
          refine ⟨by simpa using hane, ?_⟩
          exact (hB [] (by simp) (by simp) rest hgr hchr).mp
            (by rw [contKey_nil]; exact hy)
        | cons s2 segs2 =>
          rw [contKey_cons] at hxy
          exact absurd hxy (fun hh =>
            no_dot_split s (s2 ++ contKey segs2) a hadot hh)
      · cases segs with
        | nil =>
          rw [contKey_nil, List.append_nil] at hxy
          exact absurd hxy.symm (fun hh =>
            no_dot_split a y' s (goodSeg_no46 s hgss) hh)
        | cons s2 segs2 =>
          rw [contKey_cons] at hxy
          obtain ⟨has, hyz⟩ := dot_cancel a s y' (s2 ++ contKey segs2)
            hadot (goodSeg_no46 s hgss) hxy.symm
          subst has
          refine ⟨by simpa using hane, ?_⟩
          have hy2 : contKey (s2 :: segs2) ∈ (compRest rest).matches' := by
            rw [contKey_cons, ← hyz]
            exact hy
          exact (hB (s2 :: segs2) hlen hgs rest hgr hchr).mp hy2
    · rintro ⟨hne', hspec⟩
      exact ⟨s, contKey segs, by simpa using hne',
        fun c hc => alnum_mem_segClassChars c (hgss c hc),
        (hB segs hlen hgs rest hgr hchr).mpr hspec, rfl⟩

/-- Tail semantics on the empty segment list. -/
theorem semB_nil : ∀ (rest : List Tok), (∀ t ∈ rest, goodTok t) →
    List.Chain' (fun a b => ¬(a = Tok.hash ∧ b = Tok.hash)) rest →
    (([] : List Nat) ∈ (compRest rest).matches' ↔
      specTopicMatch rest [] = true) := by
  intro rest hgr hchr
  match rest with
  | [] =>
    rw [show compRest [] = 1 from rfl, mem_one_iff, spec_nil_nil]
    simp
  | [.hash] =>
    rw [show compRest [Tok.hash] = optEndRe * 1 from rfl, spec_hash_nil,
      spec_nil_nil]
    constructor
    · intro _; rfl
    · intro _
      rw [mem_mul_iff]
      exact ⟨[], [], (optEndRe_mem []).mpr (Or.inl rfl),
        (mem_one_iff []).mpr rfl, rfl⟩
  | .hash :: t :: r =>
    rw [List.chain'_cons] at hchr
    have ht : t ≠ Tok.hash := fun he => hchr.1 ⟨rfl, he⟩
    rw [show compRest (Tok.hash :: t :: r) = GRe * encRe t (compRest r)
      from rfl, spec_hash_nil, spec_ne_hash_nil t r ht]
    constructor
    · intro h
      rw [mem_mul_iff] at h
      obtain ⟨a, b, ha, _, hab⟩ := h
      obtain ⟨rfl, rfl⟩ := List.append_eq_nil.mp hab
      rcases (GRe_mem []).mp ha with h' | ⟨w, _, h'⟩ <;> simp at h'
    · intro h
      simp at h
  | .star :: r =>
    rw [show compRest (Tok.star :: r) =
      RegularExpression.char 46 * encRe Tok.star (compRest r) from rfl,
      spec_star_nil]
    constructor
    · intro h
      rw [mem_char_mul_iff] at h
      obtain ⟨y, hy, _⟩ := h
      simp at hy
    · intro h
      simp at h
  | .lit u :: r =>
    rw [show compRest (Tok.lit u :: r) =
      RegularExpression.char 46 * encRe (Tok.lit u) (compRest r) from rfl,
      spec_lit_nil]
    constructor
    · intro h
      rw [mem_char_mul_iff] at h
      obtain ⟨y, hy, _⟩ := h
      simp at hy
    · intro h
      simp at h

/-- Tail semantics: the compiled continuation accepts the dot-led
continuation string exactly when the spec matcher accepts the remaining
segments. -/
theorem semB : ∀ (M : Nat) (segs : List (List Nat)), segs.length ≤ M →
    (∀ s ∈ segs, goodSeg s) →
    ∀ rest, (∀ t ∈ rest, goodTok t) →
      List.Chain' (fun a b => ¬(a = Tok.hash ∧ b = Tok.hash)) rest →
      (contKey segs ∈ (compRest rest).matches' ↔
        specTopicMatch rest segs = true) := by
  intro M
  induction M with
  | zero =>
    intro segs hlen hgs rest hgr hchr
    match segs with
    | [] => rw [contKey_nil]; exact semB_nil rest hgr hchr
    | s :: segs' => simp at hlen
  | succ n ih =>
    intro segs hlen hgs rest hgr hchr
    match segs with
    | [] => rw [contKey_nil]; exact semB_nil rest hgr hchr
    | s :: segs' =>
      have hC := semC_of n ih
      have hgss : goodSeg s := hgs s (by simp)
      have hgs' : ∀ u ∈ segs', goodSeg u := fun u hu => hgs u (by simp [hu])
      have hlen' : segs'.length ≤ n := by simp at hlen; omega
      match rest with
      | [] =>
        rw [show compRest [] = 1 from rfl, mem_one_iff, contKey_cons,
          spec_nil_cons]
        simp
      | [.hash] =>
        rw [show compRest [Tok.hash] = optEndRe * 1 from rfl,
          spec_hash_absorbs]
        constructor
        · intro _; rfl
        · intro _
          rw [mem_mul_iff]
          refine ⟨contKey (s :: segs'), [], ?_, (mem_one_iff []).mpr rfl,
            by simp⟩
          refine (optEndRe_mem _).mpr (Or.inr ⟨s ++ contKey segs', ?_,
            by rw [contKey_cons]⟩)
          intro c hc
          rcases List.mem_append.mp hc with hc | hc
          · rw [segDotChars_mem]
            exact Or.inl (alnum_mem_segClassChars c (hgss c hc))
          · exact contKey_chars segs' hgs' c hc
      | .hash :: t :: r =>
        rw [List.chain'_cons] at hchr
        have ht : t ≠ Tok.hash := fun he => hchr.1 ⟨rfl, he⟩
        have hgt : goodTok t := hgr t (by simp)
        have hgr' : ∀ u ∈ r, goodTok u := fun u hu => hgr u (by simp [hu])
        have hchr' :
            List.Chain' (fun a b => ¬(a = Tok.hash ∧ b = Tok.hash)) r :=
          hchr.2.tail
        have key : contKey (s :: segs') ∈
            (GRe * encRe t (compRest r)).matches' ↔
            (s ++ contKey segs' ∈ (encRe t (compRest r)).matches' ∨
              ∃ pre s2 post, segs' = pre ++ s2 :: post ∧
                s2 ++ contKey post ∈ (encRe t (compRest r)).matches') := by
          rw [mem_mul_iff]
          constructor
          · rintro ⟨a, b, ha, hb, hab⟩
            rcases (GRe_mem a).mp ha with rfl | ⟨w, hw, rfl⟩
            · left
              have hbe : b = s ++ contKey segs' := by
                rw [contKey_cons] at hab
                simpa using hab
              rwa [hbe] at hb
            · right
              have hsplit : w ++ 46 :: b = s ++ contKey segs' := by
                rw [contKey_cons] at hab
                simpa using hab
              obtain ⟨pre, s2, post, h1, _, h3⟩ := dotSplit_fwd segs' s w b
                (goodSeg_no46 s hgss) hgs' hsplit
              exact ⟨pre, s2, post, h1, h3 ▸ hb⟩
          · rintro (hmem | ⟨pre, s2, post, h1, hmem⟩)
            · exact ⟨[46], s ++ contKey segs',
                (GRe_mem _).mpr (Or.inl rfl), hmem,
                by rw [contKey_cons]; simp⟩
            · refine ⟨(46 :: (s ++ contKey pre)) ++ [46],
                s2 ++ contKey post,
                (GRe_mem _).mpr (Or.inr ⟨s ++ contKey pre, ?_, by simp⟩),
                hmem, ?_⟩
              · intro c hc
                rcases List.mem_append.mp hc with hc | hc
                · rw [segDotChars_mem]
                  exact Or.inl (alnum_mem_segClassChars c (hgss c hc))
                · exact contKey_chars pre
                    (fun u hu => hgs' u (by rw [h1]; simp [hu])) c hc
              · rw [h1, contKey_cons, contKey_append, contKey_cons]
                simp
        have rhs_iff : specTopicMatch (Tok.hash :: t :: r) (s :: segs') =
            true ↔
            (specTopicMatch (t :: r) (s :: segs') = true ∨
              ∃ pre s2 post, segs' = pre ++ s2 :: post ∧
                specTopicMatch (t :: r) (s2 :: post) = true) := by
          rw [spec_hash_iff]
          constructor
          · rintro ⟨k, hk, h⟩
            match k with
            | 0 => exact Or.inl (by simpa using h)
            | k + 1 =>
              right
              have hd : (s :: segs').drop (k + 1) = segs'.drop k := rfl
              rw [hd] at h
              cases hdk : segs'.drop k with
              | nil =>
                rw [hdk, spec_ne_hash_nil t r ht] at h
                simp at h
              | cons s2 post =>
                refine ⟨segs'.take k, s2, post, ?_, by rw [← hdk]; exact h⟩
                rw [← hdk]
                exact (List.take_append_drop k segs').symm
          · rintro (h | ⟨pre, s2, post, h1, h⟩)
            · exact ⟨0, by simp, h⟩
            · refine ⟨pre.length + 1, ?_, ?_⟩
              · rw [h1]
                simp
              · have hd : (s :: segs').drop (pre.length + 1) =
                    segs'.drop pre.length := rfl
                rw [hd, h1, List.drop_left]
                exact h
        rw [show compRest (Tok.hash :: t :: r) = GRe * encRe t (compRest r)
          from rfl, key, rhs_iff]
        constructor
        · rintro (hm | ⟨pre, s2, post, h1, hm⟩)
          · exact Or.inl
              ((hC segs' hlen' hgs' t r ht hgt hgr' hchr' s hgss).mp hm)
          · refine Or.inr ⟨pre, s2, post, h1, ?_⟩
            have hpost : post.length ≤ n := by
              have : post.length ≤ segs'.length := by rw [h1]; simp; omega
              omega
            have hgpost : ∀ u ∈ post, goodSeg u :=
              fun u hu => hgs' u (by rw [h1]; simp [hu])
            have hgs2 : goodSeg s2 := hgs' s2 (by rw [h1]; simp)
            exact (hC post hpost hgpost t r ht hgt hgr' hchr' s2 hgs2).mp hm
        · rintro (hm | ⟨pre, s2, post, h1, hm⟩)
          · exact Or.inl
              ((hC segs' hlen' hgs' t r ht hgt hgr' hchr' s hgss).mpr hm)
          · refine Or.inr ⟨pre, s2, post, h1, ?_⟩
            have hpost : post.length ≤ n := by
              have : post.length ≤ segs'.length := by rw [h1]; simp; omega
              omega
            have hgpost : ∀ u ∈ post, goodSeg u :=
              fun u hu => hgs' u (by rw [h1]; simp [hu])
            have hgs2 : goodSeg s2 := hgs' s2 (by rw [h1]; simp)
            exact (hC post hpost hgpost t r ht hgt hgr' hchr' s2 hgs2).mpr hm
      | .star :: r =>
        rw [show compRest (Tok.star :: r) =
          RegularExpression.char 46 * encRe Tok.star (compRest r) from rfl,
          mem_char_mul_iff]
        have hpeel : (∃ y, contKey (s :: segs') = 46 :: y ∧
            y ∈ (encRe Tok.star (compRest r)).matches') ↔
            s ++ contKey segs' ∈ (encRe Tok.star (compRest r)).matches' := by
          constructor
          · rintro ⟨y, hy1, hy2⟩
            rw [contKey_cons] at hy1
            have : y = s ++ contKey segs' := by simpa using hy1.symm
            rwa [this] at hy2
          · intro h
            exact ⟨s ++ contKey segs', by rw [contKey_cons], h⟩
        rw [hpeel]
        exact hC segs' hlen' hgs' Tok.star r (by simp) trivial
          (fun u hu => hgr u (by simp [hu])) hchr.tail s hgss
      | .lit u :: r =>
        rw [show compRest (Tok.lit u :: r) =
          RegularExpression.char 46 * encRe (Tok.lit u) (compRest r)
          from rfl, mem_char_mul_iff]
        have hpeel : (∃ y, contKey (s :: segs') = 46 :: y ∧
            y ∈ (encRe (Tok.lit u) (compRest r)).matches') ↔
            s ++ contKey segs' ∈
              (encRe (Tok.lit u) (compRest r)).matches' := by
          constructor
          · rintro ⟨y, hy1, hy2⟩
            rw [contKey_cons] at hy1
            have : y = s ++ contKey segs' := by simpa using hy1.symm
            rwa [this] at hy2
          · intro h
            exact ⟨s ++ contKey segs', by rw [contKey_cons], h⟩
        rw [hpeel]
        exact hC segs' hlen' hgs' (Tok.lit u) r (by simp)
          (hgr _ (by simp)) (fun v hv => hgr v (by simp [hv])) hchr.tail s
          hgss

instance goodSeg.dec (s : List Nat) : Decidable (goodSeg s) :=
  inferInstanceAs (Decidable (∀ c ∈ s, alnum c = true))

instance goodTok.dec (t : Tok) : Decidable (goodTok t) :=
  match t with
  | .lit s => inferInstanceAs (Decidable (∀ c ∈ s, alnum c = true))
  | .star => .isTrue trivial
  | .hash => .isTrue trivial

instance chainHash.dec : ∀ (toks : List Tok),
    Decidable (List.Chain'
      (fun a b => ¬(a = Tok.hash ∧ b = Tok.hash)) toks)
  | [] => .isTrue List.chain'_nil
  | [t] => .isTrue (List.chain'_singleton t)
  | a :: b :: rest =>
    @decidable_of_decidable_of_iff _ _
      (@instDecidableAnd _ _ _ (chainHash.dec (b :: rest)))
      (List.chain'_cons).symm

instance goodToks.dec (toks : List Tok) : Decidable (goodToks toks) :=
  inferInstanceAs (Decidable (toks ≠ [] ∧ (∀ t ∈ toks, goodTok t) ∧
    List.Chain' (fun a b => ¬(a = Tok.hash ∧ b = Tok.hash)) toks))

instance goodSegs.dec (segs : List (List Nat)) : Decidable (goodSegs segs) :=
  inferInstanceAs (Decidable (segs ≠ [] ∧ ∀ s ∈ segs, goodSeg s))

/-- Whole-key semantics: the compiled pattern accepts the routing key
exactly when the spec matcher accepts the segments. -/
theorem semA (toks : List Tok) (h : goodToks toks) (segs : List (List Nat))
    (hs : goodSegs segs) :
    (rkey segs ∈ (compile toks).matches' ↔
      specTopicMatch toks segs = true) := by
  obtain ⟨hne, hg, hch⟩ := h
  obtain ⟨hsne, hgs⟩ := hs
  match segs with
  | [] => exact absurd rfl hsne
  | s :: segs' =>
    rw [rkey_contKey]
    have hgss : goodSeg s := hgs s (by simp)
    have hgs' : ∀ u ∈ segs', goodSeg u := fun u hu => hgs u (by simp [hu])
    have hC := semC_of segs'.length (semB segs'.length)
    match toks with
    | [] => exact absurd rfl hne
    | [.hash] =>
      rw [show compile [Tok.hash] = RegularExpression.star segDotCls * 1
        from rfl, spec_hash_absorbs]
      constructor
      · intro _; rfl
      · intro _
        rw [mem_mul_iff]
        refine ⟨s ++ contKey segs', [], ?_, (mem_one_iff []).mpr rfl,
          by simp⟩
        rw [segDotStar_mem]
        intro c hc
        rcases List.mem_append.mp hc with hc | hc
        · rw [segDotChars_mem]
          exact Or.inl (alnum_mem_segClassChars c (hgss c hc))
        · exact contKey_chars segs' hgs' c hc
    | .hash :: t :: rest =>
      rw [List.chain'_cons] at hch
      have ht : t ≠ Tok.hash := fun he => hch.1 ⟨rfl, he⟩
      have hgt : goodTok t := hg t (by simp)
      have hgr' : ∀ u ∈ rest, goodTok u := fun u hu => hg u (by simp [hu])
      have hchr' :
          List.Chain' (fun a b => ¬(a = Tok.hash ∧ b = Tok.hash)) rest :=
        hch.2.tail
      have key : s ++ contKey segs' ∈
          (optStartRe * encRe t (compRest rest)).matches' ↔
          (s ++ contKey segs' ∈ (encRe t (compRest rest)).matches' ∨
            ∃ pre s2 post, segs' = pre ++ s2 :: post ∧
              s2 ++ contKey post ∈ (encRe t (compRest rest)).matches') := by
        rw [mem_mul_iff]
        constructor
        · rintro ⟨a, b, ha, hb, hab⟩
          rcases (optStartRe_mem a).mp ha with rfl | ⟨w, hw, rfl⟩
          · left
            have hbe : b = s ++ contKey segs' := by simpa using hab
            rwa [hbe] at hb
          · right
            have hsplit : w ++ 46 :: b = s ++ contKey segs' := by
              simpa using hab
            obtain ⟨pre, s2, post, h1, _, h3⟩ := dotSplit_fwd segs' s w b
              (goodSeg_no46 s hgss) hgs' hsplit
            exact ⟨pre, s2, post, h1, h3 ▸ hb⟩
        · rintro (hmem | ⟨pre, s2, post, h1, hmem⟩)
          · exact ⟨[], s ++ contKey segs',
              (optStartRe_mem _).mpr (Or.inl rfl), hmem, by simp⟩
          · refine ⟨(s ++ contKey pre) ++ [46], s2 ++ contKey post,
              (optStartRe_mem _).mpr (Or.inr ⟨s ++ contKey pre, ?_, rfl⟩),
              hmem, ?_⟩
            · intro c hc
              rcases List.mem_append.mp hc with hc | hc
              · rw [segDotChars_mem]
                exact Or.inl (alnum_mem_segClassChars c (hgss c hc))
              · exact contKey_chars pre
                  (fun u hu => hgs' u (by rw [h1]; simp [hu])) c hc
            · rw [h1, contKey_append, contKey_cons]
              simp
      have rhs_iff : specTopicMatch (Tok.hash :: t :: rest) (s :: segs') =
          true ↔
          (specTopicMatch (t :: rest) (s :: segs') = true ∨
            ∃ pre s2 post, segs' = pre ++ s2 :: post ∧
              specTopicMatch (t :: rest) (s2 :: post) = true) := by
        rw [spec_hash_iff]
        constructor
        · rintro ⟨k, hk, h⟩
          match k with
          | 0 => exact Or.inl (by simpa using h)
          | k + 1 =>
            right
            have hd : (s :: segs').drop (k + 1) = segs'.drop k := rfl
            rw [hd] at h
            cases hdk : segs'.drop k with
            | nil =>
              rw [hdk, spec_ne_hash_nil t rest ht] at h
              simp at h
            | cons s2 post =>
              refine ⟨segs'.take k, s2, post, ?_, by rw [← hdk]; exact h⟩
              rw [← hdk]
              exact (List.take_append_drop k segs').symm
        · rintro (h | ⟨pre, s2, post, h1, h⟩)
          · exact ⟨0, by simp, h⟩
          · refine ⟨pre.length + 1, ?_, ?_⟩
            · rw [h1]
              simp
            · have hd : (s :: segs').drop (pre.length + 1) =
                  segs'.drop pre.length := rfl
              rw [hd, h1, List.drop_left]
              exact h
      rw [show compile (Tok.hash :: t :: rest) =
        optStartRe * encRe t (compRest rest) from rfl, key, rhs_iff]
      constructor
      · rintro (hm | ⟨pre, s2, post, h1, hm⟩)
        · exact Or.inl
            ((hC segs' le_rfl hgs' t rest ht hgt hgr' hchr' s hgss).mp hm)
        · refine Or.inr ⟨pre, s2, post, h1, ?_⟩
          have hpost : post.length ≤ segs'.length := by
            rw [h1]; simp; omega
          have hgpost : ∀ u ∈ post, goodSeg u :=
            fun u hu => hgs' u (by rw [h1]; simp [hu])
          have hgs2 : goodSeg s2 := hgs' s2 (by rw [h1]; simp)
          exact (hC post hpost hgpost t rest ht hgt hgr' hchr' s2 hgs2).mp hm
      · rintro (hm | ⟨pre, s2, post, h1, hm⟩)
        · exact Or.inl
            ((hC segs' le_rfl hgs' t rest ht hgt hgr' hchr' s hgss).mpr hm)
        · refine Or.inr ⟨pre, s2, post, h1, ?_⟩
          have hpost : post.length ≤ segs'.length := by
            rw [h1]; simp; omega
          have hgpost : ∀ u ∈ post, goodSeg u :=
            fun u hu => hgs' u (by rw [h1]; simp [hu])
          have hgs2 : goodSeg s2 := hgs' s2 (by rw [h1]; simp)
          exact (hC post hpost hgpost t rest ht hgt hgr' hchr' s2 hgs2).mpr hm
    | .star :: rest =>
      rw [show compile (Tok.star :: rest) = encRe Tok.star (compRest rest)
        from rfl]
      exact hC segs' le_rfl hgs' Tok.star rest (by simp) trivial
        (fun u hu => hg u (by simp [hu])) hch.tail s hgss
    | .lit u :: rest =>
      rw [show compile (Tok.lit u :: rest) =
        encRe (Tok.lit u) (compRest rest) from rfl]
      exact hC segs' le_rfl hgs' (Tok.lit u) rest (by simp) (hg _ (by simp))
        (fun v hv => hg v (by simp [hv])) hch.tail s hgss

theorem topicMatch_eq_compile (toks : List Tok) (h : goodToks toks)
    (rk : List Nat) :
    topicMatch (key toks) rk = (compile toks).rmatch rk := by
  show (match parseSeq (topicPattern (key toks)) with
    | some r => r.rmatch rk
    | none => false) = _
  rw [topicPattern_emit toks h, parseSeq_emit toks h.2.1 h.2.2]

/-- On restricted keys the Go matcher agrees with the segment rules. -/
theorem topic_spec_main (toks : List Tok) (segs : List (List Nat))
    (ht : goodToks toks) (hs : goodSegs segs) :
    topicMatch (key toks) (rkey segs) = specTopicMatch toks segs := by
  rw [topicMatch_eq_compile toks ht]
  cases hspec : specTopicMatch toks segs with
  | true =>
    exact (RegularExpression.rmatch_iff_matches' _ _).mpr
      ((semA toks ht segs hs).mpr hspec)
  | false =>
    refine Bool.eq_false_iff.mpr (fun hr => ?_)
    have hsp := (semA toks ht segs hs).mp
      ((RegularExpression.rmatch_iff_matches' _ _).mp hr)
    rw [hspec] at hsp
    simp at hsp

/-- C5 (amended): restricted to binding keys that are non-empty
`.`-separated token sequences whose literal tokens are strictly
alphanumeric, whose wildcards `*` and `#` occupy whole tokens, and in
which no two `#` tokens are adjacent, and to routing keys that are
non-empty sequences of alphanumeric segments, the Topic matcher returns
true exactly when the claimed segment rules accept: `*` matches one
non-empty segment, `#` matches zero or more whole segments, and a
literal token matches its segment verbatim; the claim's worked examples
hold, including `#` accepting the empty routing key. -/
theorem topic_match_spec_equiv :
    (∀ (toks : List Tok) (segs : List (List Nat)),
        goodToks toks → goodSegs segs →
        topicMatch (key toks) (rkey segs) = specTopicMatch toks segs) ∧
      topicMatch (chars "key.#.extra") (chars "key.extra") = true ∧
      topicMatch (chars "key.#.extra") (chars "key.anything.extra") = true ∧
      topicMatch (chars "key.#.extra") (chars "key.a.b.extra") = true ∧
      topicMatch (chars "key.#.extra") (chars "key1.extra") = false ∧
      topicMatch (chars "*.anything") (chars "key.anything") = true ∧
      topicMatch (chars "*.anything") (chars "key.extra.anything") = false ∧
      topicMatch (chars "#") (chars "") = true := by
  refine ⟨fun toks segs ht hs => topic_spec_main toks segs ht hs,
    ?_, ?_, ?_, ?_, ?_, ?_, ?_⟩
  · rw [show chars "key.#.extra" =
        key [Tok.lit (chars "key"), Tok.hash, Tok.lit (chars "extra")]
        from by decide,
      show chars "key.extra" = rkey [chars "key", chars "extra"]
        from by decide,
      topic_spec_main _ _ (by decide) (by decide)]
    simp [specTopicMatch, chars]
  · rw [show chars "key.#.extra" =
        key [Tok.lit (chars "key"), Tok.hash, Tok.lit (chars "extra")]
        from by decide,
      show chars "key.anything.extra" =
        rkey [chars "key", chars "anything", chars "extra"] from by decide,
      topic_spec_main _ _ (by decide) (by decide)]
    simp [specTopicMatch, chars]
  · rw [show chars "key.#.extra" =
        key [Tok.lit (chars "key"), Tok.hash, Tok.lit (chars "extra")]
        from by decide,
      show chars "key.a.b.extra" =
        rkey [chars "key", chars "a", chars "b", chars "extra"]
        from by decide,
      topic_spec_main _ _ (by decide) (by decide)]
    simp [specTopicMatch, chars]
  · rw [show chars "key.#.extra" =
        key [Tok.lit (chars "key"), Tok.hash, Tok.lit (chars "extra")]
        from by decide,
      show chars "key1.extra" = rkey [chars "key1", chars "extra"]
        from by decide,
      topic_spec_main _ _ (by decide) (by decide)]
    simp [specTopicMatch, chars]
  · rw [show chars "*.anything" =
        key [Tok.star, Tok.lit (chars "anything")] from by decide,
      show chars "key.anything" = rkey [chars "key", chars "anything"]
        from by decide,
      topic_spec_main _ _ (by decide) (by decide)]
    simp [specTopicMatch, chars]
  · rw [show chars "*.anything" =
        key [Tok.star, Tok.lit (chars "anything")] from by decide,
      show chars "key.extra.anything" =
        rkey [chars "key", chars "extra", chars "anything"] from by decide,
      topic_spec_main _ _ (by decide) (by decide)]
    simp [specTopicMatch, chars]
  · rw [show chars "#" = key [Tok.hash] from by decide,
      show chars "" = rkey [[]] from by decide,
      topic_spec_main _ _ (by decide) (by decide)]
    simp [specTopicMatch]

/-- Closed instance of the amended C5 equivalence at a concrete key
pair. -/
theorem topic_match_spec_equiv_witness :
    topicMatch (key [Tok.lit (chars "a"), Tok.star])
        (rkey [chars "a", chars "b"]) =
      specTopicMatch [Tok.lit (chars "a"), Tok.star]
        [chars "a", chars "b"] :=
  topic_match_spec_equiv.1 _ _ (by decide) (by decide)

/-- C10: matcher noninterference — the Direct, Fanout and Topic matchers
read only the message's routing key and the binding's key, so two
messages with equal routing keys but arbitrarily different headers,
priority, timestamp and body receive identical `Matches` verdicts
against every binding. -/
theorem matcher_noninterference (m1 m2 : Msg) (b : BindingV)
    (h : m1.routingKey = m2.routingKey) :
    directMatchFunc m1 b = directMatchFunc m2 b ∧
      fanoutMatchFunc m1 b = fanoutMatchFunc m2 b ∧
      topicMatchFunc m1 b = topicMatchFunc m2 b := by
  refine ⟨?_, rfl, ?_⟩
  · simp [directMatchFunc, h]
  · simp [topicMatchFunc, h]

/-- Closed instance of C10 at two messages that differ in headers,
priority, timestamp and body but share the routing key. -/
theorem matcher_noninterference_witness :
    directMatchFunc (Msg.mk [] [107] 1 2 [0]) (BindingV.mk [107] 3 4) =
        directMatchFunc (Msg.mk [([104], [118])] [107] 9 7 [1])
          (BindingV.mk [107] 3 4) ∧
      fanoutMatchFunc (Msg.mk [] [107] 1 2 [0]) (BindingV.mk [107] 3 4) =
        fanoutMatchFunc (Msg.mk [([104], [118])] [107] 9 7 [1])
          (BindingV.mk [107] 3 4) ∧
      topicMatchFunc (Msg.mk [] [107] 1 2 [0]) (BindingV.mk [107] 3 4) =
        topicMatchFunc (Msg.mk [([104], [118])] [107] 9 7 [1])
          (BindingV.mk [107] 3 4) :=
  matcher_noninterference (Msg.mk [] [107] 1 2 [0])
    (Msg.mk [([104], [118])] [107] 9 7 [1]) (BindingV.mk [107] 3 4) rfl

end PaperBoy
